import Mathlib

/-!
# Flowlessly: cost-scaling minimum-cost flow

A shallow embedding of `src/arc.h`, `src/graph.h`, `src/cost_scaling.cc` and of the part of
`src/flow_scheduler.cc` that selects `scale_down`.

Modelling conventions.

* `Arc` objects live on the heap.  An address is a natural number and `Graph.mem` maps an address
  to the object stored there.  `map<uint32_t, Arc*>` is a list of `(key, address)` entries in
  iteration order, `vector<map<uint32_t, Arc*> >` a function from the index to such a list.
* `vector<int32_t>` / `vector<int64_t>` are functions `Nat → Int`; reading or writing outside the
  vector is not modelled.
* The signed types `int32_t` / `int64_t` are mathematical integers (signed overflow is undefined in
  C++).  `uint32_t` arithmetic is taken modulo `2 ^ 32`.
* A function that can dereference a missing map entry, or whose loop need not terminate, returns an
  `Option`; loops that need not terminate take a fuel argument bounding the number of iterations.
* Arguments passed by reference (`potentials`, `active_nodes`) are fields of the solver state.
-/

namespace Flowlessly


/-! ## Data model -/

/-- An `Arc` object of `arc.h`; `reverse_arc` is the address of the paired object. -/
structure Arc where
  src_node_id : Nat
  dst_node_id : Nat
  cap : Int
  initial_cap : Int
  cost : Int
  reverse_arc : Nat
deriving DecidableEq

/-- A `map<uint32_t, Arc*>`: entries `(dst, address)` in iteration order. -/
abbrev ArcMap := List (Nat × Nat)

/-- Lookup of a key, `map::find`. -/
def ArcMap.find : ArcMap → Nat → Option Nat
  | [], _ => none
  | (k, p) :: m, key => if k = key then some p else ArcMap.find m key

/-- Removal of a key, `map::erase(key)`. -/
def ArcMap.erase : ArcMap → Nat → ArcMap
  | [], _ => []
  | (k, p) :: m, key => if k = key then ArcMap.erase m key else (k, p) :: ArcMap.erase m key

/-- Assignment `m[key] = p`: overwrites the entry of `key` or inserts it in key order. -/
def ArcMap.assign : ArcMap → Nat → Nat → ArcMap
  | [], key, p => [(key, p)]
  | (k, q) :: m, key, p =>
    if k = key then (key, p) :: m
    else if key < k then (key, p) :: (k, q) :: m
    else (k, q) :: ArcMap.assign m key p

/-- The `Graph` object of `graph.h`, together with the heap holding its `Arc` objects. -/
structure Graph where
  num_nodes : Nat
  nodes_demand : Nat → Int
  arcs : Nat → ArcMap
  fixed_arcs : List Nat
  mem : Nat → Arc

/-- The statement `p->cap += d`. -/
def Graph.addCap (g : Graph) (p : Nat) (d : Int) : Graph :=
  { g with mem := Function.update g.mem p { g.mem p with cap := (g.mem p).cap + d } }

/-- The statement `p->cap = c`. -/
def Graph.setCap (g : Graph) (p : Nat) (c : Int) : Graph :=
  { g with mem := Function.update g.mem p { g.mem p with cap := c } }

/-- The statement `p->cost *= k`. -/
def Graph.mulCost (g : Graph) (p : Nat) (k : Int) : Graph :=
  { g with mem := Function.update g.mem p { g.mem p with cost := (g.mem p).cost * k } }

/-- The statement `nodes_demand[v] += d`. -/
def Graph.addDemand (g : Graph) (v : Nat) (d : Int) : Graph :=
  { g with nodes_demand := Function.update g.nodes_demand v (g.nodes_demand v + d) }

/-- The `CostScaling` object together with the vectors its methods receive by reference. -/
structure Solver where
  graph_ : Graph
  relabel_cnt : Nat
  pushes_cnt : Nat
  potentials : Nat → Int
  active_nodes : List Nat

/-- The bound of `uint32_t`. -/
def UINT32 : Nat := 4294967296

/-- The value `numeric_limits<int64_t>::max()`. -/
def INT64_MAX : Int := 9223372036854775807

/-- The value `numeric_limits<int64_t>::min()`. -/
def INT64_MIN : Int := -9223372036854775808

/-- The expression `it->second->cost + potentials[node_id] - potentials[it->first]`. -/
def reducedCost (s : Solver) (node_id : Nat) (it : Nat × Nat) : Int :=
  (s.graph_.mem it.2).cost + s.potentials node_id - s.potentials it.1

/-! ## `CostScaling::discharge` -/

/-- The body of the `for` loop of `discharge` (lines 26-45) at the entry `it` of
`arcs[node_id]`; the flag is `has_neg_cost_arc`.  `none`: `arcs[it->first][node_id]` is absent,
so `operator[]` yields a null pointer that is dereferenced. -/
def dischargeArc (node_id : Nat) (it : Nat × Nat) (s : Solver) (has_neg_cost_arc : Bool) :
    Option (Solver × Bool) :=
  if reducedCost s node_id it < 0 then
    if (s.graph_.mem it.2).cap > 0 then
      let min_flow := min (s.graph_.nodes_demand node_id) (s.graph_.mem it.2).cap
      let g1 := s.graph_.addCap it.2 (-min_flow)
      match ArcMap.find (g1.arcs it.1) node_id with
      | none => none
      | some r =>
        let g2 := g1.addCap r min_flow
        let g3 := g2.addDemand node_id (-min_flow)
        let active := if g3.nodes_demand it.1 ≤ 0 then s.active_nodes ++ [it.1]
          else s.active_nodes
        let g4 := g3.addDemand it.1 min_flow
        some ({ s with graph_ := g4, pushes_cnt := (s.pushes_cnt + 1) % UINT32,
                       active_nodes := active }, true)
    else some (s, has_neg_cost_arc)
  else some (s, has_neg_cost_arc)

/-- The `for` loop of `discharge` over the entries of `arcs[node_id]`. -/
def dischargeScan (node_id : Nat) : List (Nat × Nat) → Solver → Bool → Option (Solver × Bool)
  | [], s, b => some (s, b)
  | it :: rest, s, b =>
    match dischargeArc node_id it s b with
    | none => none
    | some (s1, b1) => dischargeScan node_id rest s1 b1

/-- The relabel step of `discharge` (lines 47-52). -/
def relabel (node_id : Nat) (eps : Int) (s : Solver) : Solver :=
  { s with relabel_cnt := (s.relabel_cnt + 1) % UINT32,
           potentials := Function.update s.potentials node_id (s.potentials node_id - eps) }

/-- The `while (nodes_demand[node_id] > 0)` loop of `discharge`, at most `fuel` iterations. -/
def dischargeLoop : Nat → Nat → Int → Solver → Option Solver
  | fuel, node_id, eps, s =>
    if s.graph_.nodes_demand node_id > 0 then
      match fuel with
      | 0 => none
      | fuel + 1 =>
        match dischargeScan node_id (s.graph_.arcs node_id) s false with
        | none => none
        | some (s1, has_neg_cost_arc) =>
          dischargeLoop fuel node_id eps
            (if has_neg_cost_arc then s1 else relabel node_id eps s1)
    else some s

/-- `CostScaling::discharge`.  `none` on an empty queue (`front()` is undefined there). -/
def discharge (fuel : Nat) (eps : Int) (s : Solver) : Option Solver :=
  match s.active_nodes with
  | [] => none
  | node_id :: rest => dischargeLoop fuel node_id eps { s with active_nodes := rest }

/-! ## `CostScaling::refine` -/

/-- The body of the inner saturation loop of `refine` (lines 66-71) at the entry `it` of
`arcs[node_id]`. -/
def saturateArc (node_id : Nat) (it : Nat × Nat) (s : Solver) : Option Solver :=
  if reducedCost s node_id it < 0 then
    let g1 := s.graph_.addDemand node_id (-(s.graph_.mem it.2).cap)
    let g2 := g1.addDemand it.1 (g1.mem it.2).cap
    match ArcMap.find (g2.arcs it.1) node_id with
    | none => none
    | some r =>
      let g3 := g2.addCap r (g2.mem it.2).cap
      some { s with graph_ := g3.setCap it.2 0 }
  else some s

/-- The inner saturation loop of `refine` over the entries of `arcs[node_id]`. -/
def saturateScan (node_id : Nat) : List (Nat × Nat) → Solver → Option Solver
  | [], s => some s
  | it :: rest, s =>
    match saturateArc node_id it s with
    | none => none
    | some s1 => saturateScan node_id rest s1

/-- The outer saturation loop of `refine` (lines 62-73) over the given node ids. -/
def saturateNodes : List Nat → Solver → Option Solver
  | [], s => some s
  | node_id :: rest, s =>
    match saturateScan node_id (s.graph_.arcs node_id) s with
    | none => none
    | some s1 => saturateNodes rest s1

/-- The `while (!active_nodes.empty())` loop of `refine`: at most `n` calls of `discharge`, each
with `fuel` iterations. -/
def refineLoop : Nat → Nat → Int → Solver → Option Solver
  | n, fuel, eps, s =>
    if s.active_nodes = [] then some s
    else
      match n with
      | 0 => none
      | n + 1 =>
        match discharge fuel eps s with
        | none => none
        | some s1 => refineLoop n fuel eps s1

/-- The node ids `1, ..., num_nodes - 1` visited by `for (node_id = 1; node_id < num_nodes; ++node_id)`. -/
def nodeIds (num_nodes : Nat) : List Nat := List.range' 1 (num_nodes - 1)

/-- `CostScaling::refine`; the local `num_nodes` is `graph_.get_num_nodes() + 1` in `uint32_t`. -/
def refine (fuel : Nat) (eps : Int) (s : Solver) : Option Solver :=
  let num_nodes := (s.graph_.num_nodes + 1) % UINT32
  match saturateNodes (nodeIds num_nodes) s with
  | none => none
  | some s1 =>
    refineLoop fuel fuel eps
      { s1 with active_nodes := (nodeIds num_nodes).filter (fun v => s1.graph_.nodes_demand v > 0) }

/-! ## `CostScaling::arcsFixing` and `CostScaling::arcsUnfixing` -/

/-- The body of the `while` loop of `arcsFixing` (lines 284-296) at the entry `it` of
`arcs[node_id]`. -/
def arcsFixingArc (node_id : Nat) (fix_threshold : Int) (it : Nat × Nat) (s : Solver) : Solver :=
  if reducedCost s node_id it > fix_threshold then
    let fixed := (s.graph_.mem it.2).reverse_arc :: it.2 :: s.graph_.fixed_arcs
    let arcs1 := Function.update s.graph_.arcs node_id ((s.graph_.arcs node_id).erase it.1)
    let arcs2 := Function.update arcs1 it.1 ((arcs1 it.1).erase node_id)
    { s with graph_ := { s.graph_ with fixed_arcs := fixed, arcs := arcs2 } }
  else s

/-- The `while` loop of `arcsFixing` over the entries of `arcs[node_id]`. -/
def arcsFixingScan (node_id : Nat) (fix_threshold : Int) : List (Nat × Nat) → Solver → Solver
  | [], s => s
  | it :: rest, s => arcsFixingScan node_id fix_threshold rest (arcsFixingArc node_id fix_threshold it s)

/-- The `for` loop of `arcsFixing` over the given node ids. -/
def arcsFixingNodes (fix_threshold : Int) : List Nat → Solver → Solver
  | [], s => s
  | node_id :: rest, s =>
    arcsFixingNodes fix_threshold rest
      (arcsFixingScan node_id fix_threshold (s.graph_.arcs node_id) s)

/-- `CostScaling::arcsFixing`, visiting the nodes `1, ..., num_nodes`. -/
def arcsFixing (fix_threshold : Int) (s : Solver) : Solver :=
  arcsFixingNodes fix_threshold (List.range' 1 s.graph_.num_nodes) s

/-- The loop of `arcsUnfixing` over the list `fixed_arcs`; returns the arcs that stay fixed. -/
def arcsUnfixingScan (fix_threshold : Int) : List Nat → Solver → Solver × List Nat
  | [], s => (s, [])
  | p :: rest, s =>
    let a := s.graph_.mem p
    if a.cost + s.potentials a.src_node_id - s.potentials a.dst_node_id < fix_threshold then
      let arcs1 := Function.update s.graph_.arcs a.src_node_id
        ((s.graph_.arcs a.src_node_id).assign a.dst_node_id p)
      arcsUnfixingScan fix_threshold rest { s with graph_ := { s.graph_ with arcs := arcs1 } }
    else
      let r := arcsUnfixingScan fix_threshold rest s
      (r.1, p :: r.2)

/-- `CostScaling::arcsUnfixing`. -/
def arcsUnfixing (fix_threshold : Int) (s : Solver) : Solver :=
  let r := arcsUnfixingScan fix_threshold s.graph_.fixed_arcs s
  { r.1 with graph_ := { r.1.graph_ with fixed_arcs := r.2 } }

/-! ## `CostScaling::scaleUpCosts` and `CostScaling::costScaling` -/

/-- The body of the inner loop of `scaleUpCosts` (lines 97-100); the second component is
`max_cost_arc`. -/
def scaleUpArc (scale_up : Int) (it : Nat × Nat) (gm : Graph × Int) : Graph × Int :=
  let g1 := gm.1.mulCost it.2 scale_up
  (g1, if (g1.mem it.2).cost > gm.2 then (g1.mem it.2).cost else gm.2)

/-- The loops of `scaleUpCosts` over the given node ids. -/
def scaleUpNodes (scale_up : Int) : List Nat → Graph × Int → Graph × Int
  | [], gm => gm
  | node_id :: rest, gm =>
    scaleUpNodes scale_up rest ((gm.1.arcs node_id).foldl (fun acc it => scaleUpArc scale_up it acc) gm)

/-- `CostScaling::scaleUpCosts`.  The returned value is computed in double precision,
`pow(alpha, ceil(log(max_cost_arc) / log(alpha)))`, and converted to `int64_t`; that computation is
the parameter `powCeilLog`, applied to `alpha` and `max_cost_arc`. -/
def scaleUpCosts (powCeilLog : Int → Int → Int) (alpha : Int) (s : Solver) : Solver × Int :=
  let scale_up := alpha * (s.graph_.num_nodes : Int)
  let gm := scaleUpNodes scale_up (List.range' 1 s.graph_.num_nodes) (s.graph_, INT64_MIN)
  ({ s with graph_ := gm.1 }, powCeilLog alpha gm.2)

/-- The `for (eps = ...; eps >= 1; eps = eps < alpha && eps > 1 ? 1 : eps / alpha)` loop of
`costScaling` around an arbitrary body, at most `n` iterations. -/
def costScalingFor {σ : Type} (body : Int → σ → Option σ) : Nat → Int → Int → σ → Option σ
  | n, alpha, eps, st =>
    if eps ≥ 1 then
      match n with
      | 0 => none
      | n + 1 =>
        match body eps st with
        | none => none
        | some st1 =>
          costScalingFor body n alpha (if eps < alpha ∧ eps > 1 then 1 else Int.tdiv eps alpha) st1
    else some st

/-- The second argument of the call `arcsFixing(potentials, 2 * (num_nodes - 1) * eps)`, where
`num_nodes` is the local `uint32_t` of `costScaling`. -/
def fixThreshold (num_nodes : Nat) (eps : Int) : Int :=
  ((2 * ((num_nodes + UINT32 - 1) % UINT32) % UINT32 : Nat) : Int) * eps

/-- The body of the loop of `costScaling` (lines 120-130).  Both branches of the `if` call
`refine(potentials, eps)`, so its condition does not matter. -/
def costScalingBody (fuel : Nat) (num_nodes : Nat) (eps : Int) (s : Solver) : Option Solver :=
  match refine fuel eps s with
  | none => none
  | some s1 => some (arcsFixing (fixThreshold num_nodes eps) s1)

/-- The statements of `costScaling` before the call of `arcsUnfixing` (lines 113-131): the
initialisations, `scaleUpCosts` and the loop.  `none` also when `alpha = 0` (division by zero). -/
def costScalingLoop (powCeilLog : Int → Int → Int) (alpha : Int) (fuel : Nat) (s : Solver) :
    Option Solver :=
  let num_nodes := (s.graph_.num_nodes + 1) % UINT32
  let s0 := { s with potentials := fun _ => 0, relabel_cnt := 0, pushes_cnt := 0 }
  let r := scaleUpCosts powCeilLog alpha s0
  if alpha = 0 then none
  else costScalingFor (costScalingBody fuel num_nodes) fuel alpha (Int.tdiv r.2 alpha) r.1

/-- `CostScaling::costScaling`: the loop, then `arcsUnfixing` with threshold
`numeric_limits<int64_t>::max()`. -/
def costScaling (powCeilLog : Int → Int → Int) (alpha : Int) (fuel : Nat) (s : Solver) :
    Option Solver :=
  match costScalingLoop powCeilLog alpha fuel s with
  | none => none
  | some s1 => some (arcsUnfixing INT64_MAX s1)

/-- The value of `scale_down` that `main` passes to `writeGraph` (flow_scheduler.cc, lines
43-88), for the value `algorithm` of `--algorithm`. -/
def mainScaleDown (algorithm : String) (alpha : Int) (g : Graph) : Int :=
  if algorithm = "bellman_ford" then 1
  else if algorithm = "dijkstra" then 1
  else if algorithm = "dijkstra_heap" then 1
  else if algorithm = "cycle_cancelling" then 1
  else if algorithm = "successive_shortest_path" then 1
  else if algorithm = "successive_shortest_path_potentials" then 1
  else if algorithm = "cost_scaling" then alpha * (g.num_nodes : Int)
  else 1

/-! ## Well-formedness of the residual graph -/

/-- The residual-pair structure of the active arcs: every map has one entry per key, and the mate
of the entry for `v` in `arcs[u]`, that is the object its `reverse_arc` points to, is another
object and is the entry for `u` in `arcs[v]`. -/
structure Graph.Paired (g : Graph) : Prop where
  keys : ∀ u, ((g.arcs u).map Prod.fst).Nodup
  mate : ∀ u v p, (v, p) ∈ g.arcs u → (u, (g.mem p).reverse_arc) ∈ g.arcs v
  distinct : ∀ u v p, (v, p) ∈ g.arcs u → (g.mem p).reverse_arc ≠ p

/-- The sum `cap + reverse_arc->cap` of the object at address `p`. -/
def Graph.pairCap (g : Graph) (p : Nat) : Int :=
  (g.mem p).cap + (g.mem (g.mem p).reverse_arc).cap



/-- Well-formedness of the residual graph the solver works on: the active arcs are paired, the two
halves of a pair carry opposite costs, every `Arc` object is the entry of one map slot only, the
maps of the vector are those of the nodes `1, ..., num_nodes`, and `num_nodes + 1` fits in
`uint32_t`. -/
structure Graph.Residual (g : Graph) extends g.Paired : Prop where
  antisym : ∀ u v p, (v, p) ∈ g.arcs u → (g.mem (g.mem p).reverse_arc).cost = -(g.mem p).cost
  noalias : ∀ u v p u1 v1, (v, p) ∈ g.arcs u → (v1, p) ∈ g.arcs u1 → u = u1 ∧ v = v1
  nodes : ∀ u, u = 0 ∨ g.num_nodes < u → g.arcs u = []
  size : g.num_nodes + 1 < UINT32

/-- The potentials are `eps`-optimal: every active arc with residual capacity has reduced cost at
least `-eps`. -/
def Solver.EpsOptimal (s : Solver) (eps : Int) : Prop :=
  ∀ u v p, (v, p) ∈ s.graph_.arcs u → 0 < (s.graph_.mem p).cap → -eps ≤ reducedCost s u (v, p)



/-- Every active arc has a residual capacity that is not negative. -/
def Solver.CapsNonneg (s : Solver) : Prop :=
  ∀ u v p, (v, p) ∈ s.graph_.arcs u → 0 ≤ (s.graph_.mem p).cap

/-! ## A small instance -/

/-- Two nodes, node 1 with supply 3 and node 2 with demand 3, and one arc `1 → 2` of capacity 5
and cost 1: the forward object is at address 0, its reverse at address 1. -/
def demoGraph : Graph where
  num_nodes := 2
  nodes_demand := fun v => match v with
    | 1 => 3
    | 2 => -3
    | _ => 0
  arcs := fun u => match u with
    | 1 => [(2, 0)]
    | 2 => [(1, 1)]
    | _ => []
  fixed_arcs := []
  mem := fun p => match p with
    | 0 => ⟨1, 2, 5, 5, 1, 1⟩
    | _ => ⟨2, 1, 0, 0, -1, 0⟩

/-- A solver on `demoGraph` in which the potential of node 1 is `-5` and all others are 0, so that
the arc `1 → 2` has reduced cost `-4`. -/
def demoSolver : Solver where
  graph_ := demoGraph
  relabel_cnt := 0
  pushes_cnt := 0
  potentials := fun v => match v with
    | 1 => -5
    | _ => 0
  active_nodes := []



/-- The transportation instance: nodes 1 (supply 5), 2 (supply 3), 3 (demand 4), 4 (demand 4)
and the arcs `(1,3)` cost 1, `(1,4)` cost 2, `(2,3)` cost 3, `(2,4)` cost 1, all of capacity 5.
The forward object of the `i`-th arc is at address `2 * i`, its reverse at `2 * i + 1`. -/
def transportGraph : Graph where
  num_nodes := 4
  nodes_demand := fun v => match v with
    | 1 => 5
    | 2 => 3
    | 3 => -4
    | 4 => -4
    | _ => 0
  arcs := fun u => match u with
    | 1 => [(3, 0), (4, 2)]
    | 2 => [(3, 4), (4, 6)]
    | 3 => [(1, 1), (2, 5)]
    | 4 => [(1, 3), (2, 7)]
    | _ => []
  fixed_arcs := []
  mem := fun p => match p with
    | 0 => ⟨1, 3, 5, 5, 1, 1⟩
    | 1 => ⟨3, 1, 0, 0, -1, 0⟩
    | 2 => ⟨1, 4, 5, 5, 2, 3⟩
    | 3 => ⟨4, 1, 0, 0, -2, 2⟩
    | 4 => ⟨2, 3, 5, 5, 3, 5⟩
    | 5 => ⟨3, 2, 0, 0, -3, 4⟩
    | 6 => ⟨2, 4, 5, 5, 1, 7⟩
    | _ => ⟨4, 2, 0, 0, -1, 6⟩

/-- A fresh solver on `transportGraph`. -/
def transportSolver : Solver where
  graph_ := transportGraph
  relabel_cnt := 0
  pushes_cnt := 0
  potentials := fun _ => 0
  active_nodes := []



/-- A feasible instance whose costs are all zero: node 1 with supply 1, node 2 with demand 1 and
one arc `1 → 2` of capacity 1 and cost 0 (forward object at address 0, reverse at address 1). -/
def zeroCostGraph : Graph where
  num_nodes := 2
  nodes_demand := fun v => match v with
    | 1 => 1
    | 2 => -1
    | _ => 0
  arcs := fun u => match u with
    | 1 => [(2, 0)]
    | 2 => [(1, 1)]
    | _ => []
  fixed_arcs := []
  mem := fun p => match p with
    | 0 => ⟨1, 2, 1, 1, 0, 1⟩
    | _ => ⟨2, 1, 0, 0, 0, 0⟩

/-- A fresh solver on `zeroCostGraph`. -/
def zeroCostSolver : Solver where
  graph_ := zeroCostGraph
  relabel_cnt := 0
  pushes_cnt := 0
  potentials := fun _ => 0
  active_nodes := []

/-- The solver on `demoGraph` in which the potential of node 1 is `2`, so that the arc `1 → 2`
has reduced cost `3`. -/
def demoSolverFix : Solver where
  graph_ := demoGraph
  relabel_cnt := 0
  pushes_cnt := 0
  potentials := fun v => match v with
    | 1 => 2
    | _ => 0
  active_nodes := []

/-- The values of `eps` with which the body of the loop of `costScaling` runs, in order, when
`scaleUpCosts` returned `start`; at most `n` iterations. -/
def epsSchedule (n : Nat) (alpha start : Int) : Option (List Int) :=
  costScalingFor (fun eps l => some (l ++ [eps])) n alpha (Int.tdiv start alpha) []



/-- The graph `g1` differs from `g` at most in the costs of the `Arc` objects. -/
structure Graph.SameButCost (g g1 : Graph) : Prop where
  num_nodes : g1.num_nodes = g.num_nodes
  nodes_demand : g1.nodes_demand = g.nodes_demand
  arcs : g1.arcs = g.arcs
  fixed_arcs : g1.fixed_arcs = g.fixed_arcs
  src_node_id : ∀ p, (g1.mem p).src_node_id = (g.mem p).src_node_id
  dst_node_id : ∀ p, (g1.mem p).dst_node_id = (g.mem p).dst_node_id
  cap : ∀ p, (g1.mem p).cap = (g.mem p).cap
  initial_cap : ∀ p, (g1.mem p).initial_cap = (g.mem p).initial_cap
  reverse_arc : ∀ p, (g1.mem p).reverse_arc = (g.mem p).reverse_arc

/-- The addresses `scaleUpCosts` visits on the given nodes, in order. -/
def Graph.visited (g : Graph) (nodes : List Nat) : List Nat :=
  nodes.flatMap (fun u => (g.arcs u).map Prod.snd)

/-! ## Flows -/

/-- The flow the residual capacities stand for on the arc object at address `p`:
`initial_cap - cap`. -/
def Graph.flow (g : Graph) (p : Nat) : Int :=
  (g.mem p).initial_cap - (g.mem p).cap

/-- The graph as loaded: no flow yet, every residual capacity is the initial capacity, which is
not negative. -/
structure Graph.Fresh (g : Graph) : Prop where
  cap : ∀ u v p, (v, p) ∈ g.arcs u → (g.mem p).cap = (g.mem p).initial_cap
  nonneg : ∀ u v p, (v, p) ∈ g.arcs u → 0 ≤ (g.mem p).initial_cap

/-- The entries `(u, v, p)` of the maps of the nodes `1, ..., num_nodes`. -/
def Graph.entryList (g : Graph) : List (Nat × Nat × Nat) :=
  (List.range' 1 g.num_nodes).flatMap (fun u => (g.arcs u).map (fun e => (u, e.1, e.2)))

/-- A walk from `u` to `w` along arcs `(u, v, p)` that satisfy `A`. -/
inductive Walk (A : Nat → Nat → Nat → Prop) : Nat → Nat → List (Nat × Nat × Nat) → Prop
  | nil (u : Nat) : Walk A u u []
  | cons {u v w p : Nat} {l : List (Nat × Nat × Nat)} :
      A u v p → Walk A v w l → Walk A u w ((u, v, p) :: l)

/-- The instance with one node, of demand 0, and no arcs. -/
def singleNodeGraph : Graph where
  num_nodes := 1
  nodes_demand := fun _ => 0
  arcs := fun _ => []
  fixed_arcs := []
  mem := fun _ => ⟨0, 0, 0, 0, 0, 0⟩

/-- The reduced cost `arcsUnfixing` computes for the `Arc` object at address `p`, from the node
ids stored in the object: `cost + potential[src_node_id] - potential[dst_node_id]`. -/
def Solver.storedCost (s : Solver) (p : Nat) : Int :=
  (s.graph_.mem p).cost + s.potentials (s.graph_.mem p).src_node_id -
    s.potentials (s.graph_.mem p).dst_node_id

/-- Every active `Arc` object stores the node ids of the slot it sits in. -/
def Graph.Located (g : Graph) : Prop :=
  ∀ u v p, (v, p) ∈ g.arcs u →
    (g.mem p).src_node_id = u ∧ (g.mem p).dst_node_id = v

/-- Well-formedness of the active arcs together with the list `fixed_arcs`: the active arcs are
paired, sit in one slot each and store their node ids; the fixed `Arc` objects are distinct, not
active, come in pairs that point at each other with opposite node ids, and the slot every one of
them names is free and named by no other. -/
structure Graph.FixedWF (g : Graph) : Prop where
  paired : g.Paired
  noalias : ∀ u v p u1 v1, (v, p) ∈ g.arcs u → (v1, p) ∈ g.arcs u1 → u = u1 ∧ v = v1
  located : g.Located
  nodup : g.fixed_arcs.Nodup
  apart : ∀ p ∈ g.fixed_arcs, ∀ u v, (v, p) ∉ g.arcs u
  mate : ∀ p ∈ g.fixed_arcs, (g.mem p).reverse_arc ∈ g.fixed_arcs ∧
    (g.mem p).reverse_arc ≠ p ∧ (g.mem (g.mem p).reverse_arc).reverse_arc = p ∧
    (g.mem (g.mem p).reverse_arc).src_node_id = (g.mem p).dst_node_id ∧
    (g.mem (g.mem p).reverse_arc).dst_node_id = (g.mem p).src_node_id
  vacant : ∀ p ∈ g.fixed_arcs, ∀ q, ((g.mem p).dst_node_id, q) ∉ g.arcs (g.mem p).src_node_id
  slots : ∀ p ∈ g.fixed_arcs, ∀ q ∈ g.fixed_arcs,
    (g.mem p).src_node_id = (g.mem q).src_node_id →
    (g.mem p).dst_node_id = (g.mem q).dst_node_id → p = q

/-- A solver on `demoGraph` with all potentials 0 and node 1, which has supply 3, at the front of
the queue. -/
def demoSolverActive : Solver where
  graph_ := demoGraph
  relabel_cnt := 0
  pushes_cnt := 0
  potentials := fun _ => 0
  active_nodes := [1]

/-! ## A measure for the loop of `discharge` -/

/-- The weight of an active arc of the node being discharged: 0 when it has no residual capacity,
and otherwise 1 plus the number of unit relabels after which its reduced cost is negative. -/
def dischargeWeight (s : Solver) (node_id : Nat) (it : Nat × Nat) : Nat :=
  if (s.graph_.mem it.2).cap > 0 then 1 + Int.toNat (reducedCost s node_id it + 1) else 0

/-- The sum of the weights of the active arcs of a node: a bound on the number of iterations the
loop of `discharge` still makes at the node. -/
def dischargeMeasure (s : Solver) (node_id : Nat) : Nat :=
  ((s.graph_.arcs node_id).map (dischargeWeight s node_id)).sum

/-- The residual capacity that leaves a node on its active arcs. -/
def Solver.outCap (s : Solver) (node_id : Nat) : Int :=
  ((s.graph_.arcs node_id).map (fun it => max (s.graph_.mem it.2).cap 0)).sum

/-- One node with supply 1 and no arcs. -/
def stuckGraph : Graph where
  num_nodes := 1
  nodes_demand := fun v => if v = 1 then 1 else 0
  arcs := fun _ => []
  fixed_arcs := []
  mem := fun _ => ⟨0, 0, 0, 0, 0, 0⟩

/-- A solver on `stuckGraph` with node 1 at the front of the queue. -/
def stuckSolver : Solver where
  graph_ := stuckGraph
  relabel_cnt := 0
  pushes_cnt := 0
  potentials := fun _ => 0
  active_nodes := [1]

/-! ## `main` -/

/-- What a run of `main` that returns leaves behind: the exit code, whether `writeGraph` was
called and with which graph and `scale_down`, and whether `Unknown algorithm` was logged. -/
structure MainResult where
  exit_code : Int
  wrote_output : Bool
  out_graph : Graph
  scale_down : Int
  logged_unknown : Bool

/-- The statements of `main` after its `if` chain (flow_scheduler.cc, lines 87-89): the call of
`writeGraph` and `return 0`. -/
def mainFinish (graph : Graph) (scale_down : Int) (logged_unknown : Bool) : MainResult :=
  { exit_code := 0, wrote_output := true, out_graph := graph, scale_down := scale_down,
    logged_unknown := logged_unknown }

/-- The function `main` of flow_scheduler.cc (lines 36-90) on a graph already read.  The solvers
it calls are declared outside `src/` or take the graph in a way `src/` does not show, so the
effect of a branch is the parameter `run`: `run name graph` is the graph after the calls of the
branch for `name`, and `none` when they do not return. -/
def main (run : String → Graph → Option Graph) (algorithm : String) (alpha : Int)
    (graph : Graph) : Option MainResult :=
  let scale_down : Int := 1
  if algorithm = "bellman_ford" then
    (run "bellman_ford" graph).map (fun g => mainFinish g scale_down false)
  else if algorithm = "dijkstra" then
    (run "dijkstra" graph).map (fun g => mainFinish g scale_down false)
  else if algorithm = "dijkstra_heap" then
    (run "dijkstra_heap" graph).map (fun g => mainFinish g scale_down false)
  else if algorithm = "cycle_cancelling" then
    (run "cycle_cancelling" graph).map (fun g => mainFinish g scale_down false)
  else if algorithm = "successive_shortest_path" then
    (run "successive_shortest_path" graph).map (fun g => mainFinish g scale_down false)
  else if algorithm = "successive_shortest_path_potentials" then
    (run "successive_shortest_path_potentials" graph).map
      (fun g => mainFinish g scale_down false)
  else if algorithm = "cost_scaling" then
    (run "cost_scaling" graph).map (fun g => mainFinish g (alpha * (g.num_nodes : Int)) false)
  else some (mainFinish graph scale_down true)

/-- The names that `main` knows for `--algorithm`. -/
def knownAlgorithms : List String :=
  ["bellman_ford", "dijkstra", "dijkstra_heap", "cycle_cancelling", "successive_shortest_path",
    "successive_shortest_path_potentials", "cost_scaling"]

/-! ## Unbalanced instances -/

/-- Modelled from the spec: the `Arc` class that graph.cc uses is not in `src/`; its objects are
built as `Arc(capacity, min_flow, cost, reverse)`, and `writeGraph` reads the members `flow` and
`cost`.  As in the data model of the spec, `cap` and `cost` are the capacity and the cost handed
to the constructor; a new object carries no flow. -/
structure FileArc where
  cap : Int
  min_flow : Int
  cost : Int
  reverse : Bool
  flow : Int
deriving DecidableEq

/-- The `Graph` object as graph.cc has it, with the heap of its `Arc` objects: the members are
those the functions of graph.cc use, with the types its getters return.  A vector is a function
together with its size; `next` is the address the next `new Arc` returns. -/
structure FileGraph where
  num_nodes : Nat
  num_arcs : Nat
  nodes_descriptor : Nat → Int
  nodes_descriptor_size : Nat
  arcs : Nat → ArcMap
  arcs_size : Nat
  supply_nodes : List Nat
  demand_nodes : List Nat
  added_sink_and_source : Bool
  mem : Nat → FileArc
  next : Nat

/-- The graph a default-constructed `Graph` holds. -/
def FileGraph.empty : FileGraph where
  num_nodes := 0
  num_arcs := 0
  nodes_descriptor := fun _ => 0
  nodes_descriptor_size := 0
  arcs := fun _ => []
  arcs_size := 0
  supply_nodes := []
  demand_nodes := []
  added_sink_and_source := false
  mem := fun _ => ⟨0, 0, 0, false, 0⟩
  next := 0

/-- The calls `arcs.resize(n); nodes_descriptor.resize(n)`: the cells below both the old and the
new size keep their values, new cells are empty maps and zeros. -/
def FileGraph.resize (g : FileGraph) (n : Nat) : FileGraph :=
  { g with
    arcs := fun i => if i < g.arcs_size ∧ i < n then g.arcs i else []
    arcs_size := n
    nodes_descriptor := fun i => if i < g.nodes_descriptor_size ∧ i < n then
      g.nodes_descriptor i else 0
    nodes_descriptor_size := n }

/-- `Graph::allocateGraphMemory` (graph.cc, lines 12-15). -/
def allocateGraphMemory (g : FileGraph) (num_nodes : Nat) (_num_arcs : Nat) : FileGraph :=
  g.resize ((num_nodes + 1) % UINT32)

/-- The expression `new Arc(...)`: the object is stored at the address `next`. -/
def FileGraph.alloc (g : FileGraph) (a : FileArc) : FileGraph :=
  { g with mem := Function.update g.mem g.next a, next := g.next + 1 }

/-- The statement `arcs[u][v] = p`. -/
def FileGraph.setArc (g : FileGraph) (u v p : Nat) : FileGraph :=
  { g with arcs := Function.update g.arcs u ((g.arcs u).assign v p) }

/-- The statement `arcs[u].erase(key)`. -/
def FileGraph.eraseArc (g : FileGraph) (u key : Nat) : FileGraph :=
  { g with arcs := Function.update g.arcs u ((g.arcs u).erase key) }

/-- The value of a `uint32_t` stored into an `int32_t`. -/
def toInt32 (x : Nat) : Int :=
  if x % UINT32 < 2147483648 then ((x % UINT32 : Nat) : Int)
  else ((x % UINT32 : Nat) : Int) - 4294967296

/-- A line of the input file, split into its fields: `a src dst min_flow cap cost`, with the
fields read as `uint32_t`; `n id descriptor`; `p num_nodes num_arcs`; a comment; anything
else. -/
inductive DimacsLine where
  | arc (src dst min_flow cap cost : Nat)
  | node (id : Nat) (descriptor : Int)
  | problem (num_nodes num_arcs : Nat)
  | comment
  | other
deriving DecidableEq

/-- The body of the loop of `Graph::readGraph` (graph.cc, lines 29-56) on one line.  `none`: an
index is outside its vector. -/
def readLine (g : FileGraph) : DimacsLine → Option FileGraph
  | DimacsLine.arc src dst min_flow cap cost =>
    if src < g.arcs_size ∧ dst < g.arcs_size then
      let g1 := (g.alloc ⟨(cap : Int), toInt32 min_flow, toInt32 cost, false, 0⟩).setArc
        src dst g.next
      some ((g1.alloc ⟨0, -toInt32 min_flow, -toInt32 cost, true, 0⟩).setArc dst src g1.next)
    else none
  | DimacsLine.node id descriptor =>
    if id < g.nodes_descriptor_size then
      some { g with
        nodes_descriptor := Function.update g.nodes_descriptor id descriptor
        supply_nodes := if descriptor > 0 then g.supply_nodes ++ [id] else g.supply_nodes
        demand_nodes := if descriptor > 0 then g.demand_nodes
          else if descriptor < 0 then g.demand_nodes ++ [id] else g.demand_nodes }
    else none
  | DimacsLine.problem num_nodes num_arcs =>
    some (allocateGraphMemory { g with num_nodes := num_nodes, num_arcs := num_arcs }
      num_nodes num_arcs)
  | DimacsLine.comment => some g
  | DimacsLine.other => some g

/-- `Graph::readGraph` (graph.cc, lines 17-60) on the lines of a file that could be opened. -/
def readGraph : List DimacsLine → FileGraph → Option FileGraph
  | [], g => some g
  | line :: rest, g =>
    match readLine g line with
    | none => none
    | some g1 => readGraph rest g1

/-- The body of the first loop of `Graph::addSinkAndSource` (graph.cc, lines 152-155). -/
def addSupplyArc (g : FileGraph) (it : Nat) : Option FileGraph :=
  let source := (g.num_nodes + UINT32 - 1) % UINT32
  if source < g.arcs_size ∧ it < g.arcs_size ∧ source < g.nodes_descriptor_size ∧
      it < g.nodes_descriptor_size then
    let g1 := (g.alloc ⟨g.nodes_descriptor it, 0, 0, false, 0⟩).setArc source it g.next
    let g2 := (g1.alloc ⟨0, 0, 0, true, 0⟩).setArc it source g1.next
    some { g2 with
      nodes_descriptor := (Function.update g2.nodes_descriptor source
        (g2.nodes_descriptor source + g2.nodes_descriptor it)) }
  else none

/-- The body of the second loop of `Graph::addSinkAndSource` (graph.cc, lines 159-162). -/
def addDemandArc (g : FileGraph) (it : Nat) : Option FileGraph :=
  let sink := g.num_nodes
  if sink < g.arcs_size ∧ it < g.arcs_size ∧ sink < g.nodes_descriptor_size ∧
      it < g.nodes_descriptor_size then
    let g1 := (g.alloc ⟨0, 0, 0, true, 0⟩).setArc sink it g.next
    let g2 := (g1.alloc ⟨-g1.nodes_descriptor it, 0, 0, false, 0⟩).setArc it sink g1.next
    some { g2 with
      nodes_descriptor := (Function.update g2.nodes_descriptor sink
        (g2.nodes_descriptor sink + g2.nodes_descriptor it)) }
  else none

/-- A loop that runs a fallible body over a vector of node ids. -/
def forNodes (body : FileGraph → Nat → Option FileGraph) : List Nat → FileGraph → Option FileGraph
  | [], g => some g
  | it :: rest, g =>
    match body g it with
    | none => none
    | some g1 => forNodes body rest g1

/-- `Graph::addSinkAndSource` (graph.cc, lines 145-164). -/
def addSinkAndSource (g : FileGraph) : Option FileGraph :=
  let num_nodes := (g.num_nodes + 2) % UINT32
  let g0 := ({ g with added_sink_and_source := true, num_nodes := num_nodes }).resize
    ((num_nodes + 1) % UINT32)
  match forNodes addSupplyArc g0.supply_nodes g0 with
  | none => none
  | some g1 => forNodes addDemandArc g1.demand_nodes g1

/-- The body of the loops of `Graph::removeSinkAndSource` (graph.cc, lines 175 and 179). -/
def eraseArcAt (key : Nat) (g : FileGraph) (it : Nat) : Option FileGraph :=
  if it < g.arcs_size then some (g.eraseArc it key) else none

/-- `Graph::removeSinkAndSource` (graph.cc, lines 166-181).  `none`: `pop_back` on an empty
vector, or an index outside its vector. -/
def removeSinkAndSource (g : FileGraph) : Option FileGraph :=
  if 2 ≤ g.arcs_size ∧ 2 ≤ g.nodes_descriptor_size then
    let g0 := { g with
      added_sink_and_source := false
      num_nodes := (g.num_nodes + UINT32 - 2) % UINT32
      arcs_size := g.arcs_size - 2
      nodes_descriptor_size := g.nodes_descriptor_size - 2 }
    match forNodes (eraseArcAt ((g0.num_nodes + 1) % UINT32)) g0.supply_nodes g0 with
    | none => none
    | some g1 => forNodes (eraseArcAt ((g1.num_nodes + 2) % UINT32)) g1.demand_nodes g1
  else none

/-- A line that `readGraph` can take with vectors of the given sizes and that is no `p` line: the
ends of an arc are two different cells of `arcs`, a node is a cell of `nodes_descriptor`. -/
def DimacsLine.InRange (arcs_size nodes_descriptor_size : Nat) : DimacsLine → Prop
  | DimacsLine.arc src dst _ _ _ => src < arcs_size ∧ dst < arcs_size ∧ src ≠ dst
  | DimacsLine.node id _ => id < nodes_descriptor_size
  | DimacsLine.problem _ _ => False
  | DimacsLine.comment => True
  | DimacsLine.other => True

/-- Two lines that are not arcs between the same two nodes, in either direction. -/
def DimacsLine.Apart : DimacsLine → DimacsLine → Prop
  | DimacsLine.arc s1 d1 _ _ _, DimacsLine.arc s2 d2 _ _ _ =>
    ¬ (s1 = s2 ∧ d1 = d2) ∧ ¬ (s1 = d2 ∧ d1 = s2)
  | _, _ => True

/-- The arcs of the lines read so far are all in the graph, each as a pair of entries, and the
graph has no other entry. -/
structure FileGraph.Loaded (g : FileGraph) (lines : List DimacsLine) : Prop where
  pairs : ∀ src dst lo cap cost, DimacsLine.arc src dst lo cap cost ∈ lines →
    ∃ p q, p ≠ q ∧ p < g.next ∧ q < g.next ∧
      ArcMap.find (g.arcs src) dst = some p ∧ ArcMap.find (g.arcs dst) src = some q ∧
      g.mem p = ⟨(cap : Int), toInt32 lo, toInt32 cost, false, 0⟩ ∧
      g.mem q = ⟨0, -toInt32 lo, -toInt32 cost, true, 0⟩
  from_lines : ∀ u v p, (v, p) ∈ g.arcs u →
    ∃ lo cap cost, DimacsLine.arc u v lo cap cost ∈ lines ∨
      DimacsLine.arc v u lo cap cost ∈ lines
  sorted : ∀ u, (g.arcs u).Pairwise (fun a b => a.1 < b.1)

/-- The input with arcs in both directions between the nodes 1 and 2. -/
def antiparallelLines : List DimacsLine :=
  [DimacsLine.problem 2 2, DimacsLine.arc 1 2 0 5 1, DimacsLine.arc 2 1 0 7 3]

/-- The graph after the line `p 3 2` of an input. -/
def threeNodes : FileGraph :=
  allocateGraphMemory { FileGraph.empty with num_nodes := 3, num_arcs := 2 } 3 2

/-- An input with one arc from 1 to 2 and one from 2 to 3, read after the line `p 3 2`. -/
def chainLines : List DimacsLine :=
  [DimacsLine.node 1 4, DimacsLine.arc 1 2 0 5 1, DimacsLine.comment, DimacsLine.arc 2 3 0 7 3,
    DimacsLine.node 3 (-4)]

/-- The graph `g1` is the graph `g` while a source `num_nodes + 1` and a sink `num_nodes + 2`
are being added: the cells of `g` are there, and an entry with one of the two new keys is in the
map of a supply node, or of a demand node. -/
structure FileGraph.Extends (g1 g : FileGraph) : Prop where
  num_nodes : g1.num_nodes = g.num_nodes + 2
  arcs_size : g1.arcs_size = g.num_nodes + 3
  nodes_descriptor_size : g1.nodes_descriptor_size = g.num_nodes + 3
  supply_nodes : g1.supply_nodes = g.supply_nodes
  demand_nodes : g1.demand_nodes = g.demand_nodes
  flag : g1.added_sink_and_source = true
  descriptor : ∀ i ≤ g.num_nodes, g1.nodes_descriptor i = g.nodes_descriptor i
  arcs : ∀ u ≤ g.num_nodes,
    ArcMap.erase (ArcMap.erase (g1.arcs u) (g.num_nodes + 1)) (g.num_nodes + 2) = g.arcs u
  source_keys : ∀ u ≤ g.num_nodes, ∀ p, (g.num_nodes + 1, p) ∈ g1.arcs u → u ∈ g.supply_nodes
  sink_keys : ∀ u ≤ g.num_nodes, ∀ p, (g.num_nodes + 2, p) ∈ g1.arcs u → u ∈ g.demand_nodes

/-- The source of `g1` has an arc to the node `it` of `g`, of capacity the supply of `it`. -/
def FileGraph.SourceArc (g1 g : FileGraph) (it : Nat) : Prop :=
  ∃ p, p < g1.next ∧ ArcMap.find (g1.arcs (g.num_nodes + 1)) it = some p ∧
    (g1.mem p).cap = g.nodes_descriptor it ∧ (g1.mem p).reverse = false

/-- The node `it` of `g` has an arc to the sink of `g1`, of capacity minus the demand of `it`. -/
def FileGraph.SinkArc (g1 g : FileGraph) (it : Nat) : Prop :=
  ∃ p, p < g1.next ∧ ArcMap.find (g1.arcs it) (g.num_nodes + 2) = some p ∧
    (g1.mem p).cap = -g.nodes_descriptor it ∧ (g1.mem p).reverse = false

/-- Two nodes, the arc `1 → 2`, a supply of 5 at node 1 and a demand of 5 at node 2. -/
def suppliedGraph : FileGraph :=
  { FileGraph.empty with
    num_nodes := 2
    num_arcs := 1
    nodes_descriptor := fun i => if i = 1 then 5 else if i = 2 then -5 else 0
    nodes_descriptor_size := 3
    arcs := fun u => if u = 1 then [(2, 0)] else if u = 2 then [(1, 1)] else []
    arcs_size := 3
    supply_nodes := [1]
    demand_nodes := [2]
    mem := fun p => if p = 0 then ⟨5, 0, 1, false, 0⟩ else ⟨0, 0, -1, true, 0⟩
    next := 2 }

/-! ## The excesses during `refine` -/

theorem ArcMap.mem_of_find {m : ArcMap} {k p : Nat} (h : ArcMap.find m k = some p) :
    (k, p) ∈ m := by
  induction m with
  | nil => simp [ArcMap.find] at h
  | cons e m ih =>
    obtain ⟨k', q⟩ := e
    simp only [ArcMap.find] at h
    split at h
    · rename_i hk
      cases h
      subst hk
      exact List.mem_cons_self _ _
    · exact List.mem_cons_of_mem _ (ih h)

theorem ArcMap.find_of_mem {m : ArcMap} {k p : Nat} (hn : (m.map Prod.fst).Nodup)
    (h : (k, p) ∈ m) : ArcMap.find m k = some p := by
  induction m with
  | nil => simp at h
  | cons e m ih =>
    obtain ⟨k', q⟩ := e
    simp only [List.map_cons, List.nodup_cons] at hn
    simp only [ArcMap.find]
    rcases List.mem_cons.mp h with h | h
    · cases h
      simp
    · have hne : k' ≠ k := by
        intro hk
        subst hk
        exact hn.1 (List.mem_map_of_mem Prod.fst h)
      simp [hne, ih hn.2 h]

theorem ArcMap.mem_erase {m : ArcMap} {key k p : Nat} :
    (k, p) ∈ ArcMap.erase m key ↔ (k, p) ∈ m ∧ k ≠ key := by
  induction m with
  | nil => simp [ArcMap.erase]
  | cons e m ih =>
    obtain ⟨k', q⟩ := e
    simp only [ArcMap.erase]
    split
    · rename_i hk
      subst hk
      rw [ih]
      constructor
      · rintro ⟨h1, h2⟩
        exact ⟨List.mem_cons_of_mem _ h1, h2⟩
      · rintro ⟨h1, h2⟩
        rcases List.mem_cons.mp h1 with h | h
        · cases h
          exact absurd rfl h2
        · exact ⟨h, h2⟩
    · rename_i hk
      simp only [List.mem_cons, ih]
      constructor
      · rintro (h | ⟨h1, h2⟩)
        · cases h
          exact ⟨Or.inl rfl, hk⟩
        · exact ⟨Or.inr h1, h2⟩
      · rintro ⟨h | h, h2⟩
        · exact Or.inl h
        · exact Or.inr ⟨h, h2⟩

theorem ArcMap.erase_sublist (m : ArcMap) (key : Nat) : (ArcMap.erase m key).Sublist m := by
  induction m with
  | nil => simp [ArcMap.erase]
  | cons e m ih =>
    obtain ⟨k', q⟩ := e
    simp only [ArcMap.erase]
    split
    · exact ih.trans (List.sublist_cons_self _ _)
    · exact ih.cons₂ _

theorem ArcMap.nodup_erase {m : ArcMap} (key : Nat) (hn : (m.map Prod.fst).Nodup) :
    ((ArcMap.erase m key).map Prod.fst).Nodup :=
  hn.sublist ((ArcMap.erase_sublist m key).map Prod.fst)

/-! ## The elementary statements -/

@[simp] theorem Graph.addCap_arcs (g : Graph) (p : Nat) (d : Int) :
    (g.addCap p d).arcs = g.arcs := rfl
@[simp] theorem Graph.addCap_num_nodes (g : Graph) (p : Nat) (d : Int) :
    (g.addCap p d).num_nodes = g.num_nodes := rfl
@[simp] theorem Graph.addCap_fixed_arcs (g : Graph) (p : Nat) (d : Int) :
    (g.addCap p d).fixed_arcs = g.fixed_arcs := rfl
@[simp] theorem Graph.addCap_nodes_demand (g : Graph) (p : Nat) (d : Int) :
    (g.addCap p d).nodes_demand = g.nodes_demand := rfl
@[simp] theorem Graph.setCap_arcs (g : Graph) (p : Nat) (d : Int) :
    (g.setCap p d).arcs = g.arcs := rfl
@[simp] theorem Graph.setCap_num_nodes (g : Graph) (p : Nat) (d : Int) :
    (g.setCap p d).num_nodes = g.num_nodes := rfl
@[simp] theorem Graph.setCap_fixed_arcs (g : Graph) (p : Nat) (d : Int) :
    (g.setCap p d).fixed_arcs = g.fixed_arcs := rfl
@[simp] theorem Graph.addDemand_arcs (g : Graph) (v : Nat) (d : Int) :
    (g.addDemand v d).arcs = g.arcs := rfl
@[simp] theorem Graph.addDemand_num_nodes (g : Graph) (v : Nat) (d : Int) :
    (g.addDemand v d).num_nodes = g.num_nodes := rfl
@[simp] theorem Graph.addDemand_fixed_arcs (g : Graph) (v : Nat) (d : Int) :
    (g.addDemand v d).fixed_arcs = g.fixed_arcs := rfl
@[simp] theorem Graph.addDemand_mem (g : Graph) (v : Nat) (d : Int) :
    (g.addDemand v d).mem = g.mem := rfl

theorem Graph.addDemand_nodes_demand (g : Graph) (v : Nat) (d : Int) (w : Nat) :
    (g.addDemand v d).nodes_demand w =
      if w = v then g.nodes_demand v + d else g.nodes_demand w := by
  unfold Graph.addDemand
  by_cases h : w = v
  · subst h
    simp
  · simp [Function.update_noteq h, h]

theorem Graph.addCap_cap (g : Graph) (p : Nat) (d : Int) (q : Nat) :
    ((g.addCap p d).mem q).cap = if q = p then (g.mem p).cap + d else (g.mem q).cap := by
  unfold Graph.addCap
  by_cases h : q = p
  · subst h
    simp
  · simp [Function.update_noteq h, h]

theorem Graph.setCap_cap (g : Graph) (p : Nat) (c : Int) (q : Nat) :
    ((g.setCap p c).mem q).cap = if q = p then c else (g.mem q).cap := by
  unfold Graph.setCap
  by_cases h : q = p
  · subst h
    simp
  · simp [Function.update_noteq h, h]

/-- The graph `g'` has the shape of `g`: the two differ at most in the residual capacities and in
the demands. -/
structure Graph.SameShape (g g' : Graph) : Prop where
  num_nodes : g'.num_nodes = g.num_nodes
  arcs : g'.arcs = g.arcs
  fixed_arcs : g'.fixed_arcs = g.fixed_arcs
  src_node_id : ∀ p, (g'.mem p).src_node_id = (g.mem p).src_node_id
  dst_node_id : ∀ p, (g'.mem p).dst_node_id = (g.mem p).dst_node_id
  initial_cap : ∀ p, (g'.mem p).initial_cap = (g.mem p).initial_cap
  cost : ∀ p, (g'.mem p).cost = (g.mem p).cost
  reverse_arc : ∀ p, (g'.mem p).reverse_arc = (g.mem p).reverse_arc

theorem Graph.SameShape.refl (g : Graph) : g.SameShape g :=
  ⟨rfl, rfl, rfl, fun _ => rfl, fun _ => rfl, fun _ => rfl, fun _ => rfl, fun _ => rfl⟩

theorem Graph.SameShape.trans {g1 g2 g3 : Graph} (h12 : g1.SameShape g2)
    (h23 : g2.SameShape g3) : g1.SameShape g3 :=
  ⟨h23.num_nodes.trans h12.num_nodes, h23.arcs.trans h12.arcs,
    h23.fixed_arcs.trans h12.fixed_arcs,
    fun p => (h23.src_node_id p).trans (h12.src_node_id p),
    fun p => (h23.dst_node_id p).trans (h12.dst_node_id p),
    fun p => (h23.initial_cap p).trans (h12.initial_cap p),
    fun p => (h23.cost p).trans (h12.cost p),
    fun p => (h23.reverse_arc p).trans (h12.reverse_arc p)⟩

theorem Graph.sameShape_addCap (g : Graph) (p : Nat) (d : Int) : g.SameShape (g.addCap p d) := by
  refine ⟨rfl, rfl, rfl, ?_, ?_, ?_, ?_, ?_⟩ <;> intro q <;> unfold Graph.addCap <;>
    rcases eq_or_ne q p with rfl | h <;> simp [Function.update_noteq, *]

theorem Graph.sameShape_setCap (g : Graph) (p : Nat) (c : Int) : g.SameShape (g.setCap p c) := by
  refine ⟨rfl, rfl, rfl, ?_, ?_, ?_, ?_, ?_⟩ <;> intro q <;> unfold Graph.setCap <;>
    rcases eq_or_ne q p with rfl | h <;> simp [Function.update_noteq, *]

theorem Graph.sameShape_addDemand (g : Graph) (v : Nat) (d : Int) :
    g.SameShape (g.addDemand v d) :=
  ⟨rfl, rfl, rfl, fun _ => rfl, fun _ => rfl, fun _ => rfl, fun _ => rfl, fun _ => rfl⟩

/-! ## What one step of `discharge` and of the saturation does -/

/-- The effect of the `for` body of `discharge`: either nothing happens, or the arc is admissible
and `min_flow` units are pushed along it. -/
theorem dischargeArc_cases {node_id : Nat} {it : Nat × Nat} {s s1 : Solver} {b b1 : Bool}
    (h : dischargeArc node_id it s b = some (s1, b1)) :
    (¬ (reducedCost s node_id it < 0 ∧ 0 < (s.graph_.mem it.2).cap) ∧ s1 = s ∧ b1 = b) ∨
    (reducedCost s node_id it < 0 ∧ 0 < (s.graph_.mem it.2).cap ∧ b1 = true ∧
      ∃ r, ArcMap.find (s.graph_.arcs it.1) node_id = some r ∧
        s1 = { s with
          graph_ := ((((s.graph_.addCap it.2
            (-(min (s.graph_.nodes_demand node_id) (s.graph_.mem it.2).cap))).addCap r
            (min (s.graph_.nodes_demand node_id) (s.graph_.mem it.2).cap)).addDemand node_id
            (-(min (s.graph_.nodes_demand node_id) (s.graph_.mem it.2).cap))).addDemand it.1
            (min (s.graph_.nodes_demand node_id) (s.graph_.mem it.2).cap))
          pushes_cnt := (s.pushes_cnt + 1) % UINT32
          active_nodes :=
            if (((s.graph_.addCap it.2
              (-(min (s.graph_.nodes_demand node_id) (s.graph_.mem it.2).cap))).addCap r
              (min (s.graph_.nodes_demand node_id) (s.graph_.mem it.2).cap)).addDemand node_id
              (-(min (s.graph_.nodes_demand node_id) (s.graph_.mem it.2).cap))).nodes_demand it.1 ≤ 0
            then s.active_nodes ++ [it.1] else s.active_nodes }) := by
  unfold dischargeArc at h
  by_cases hrc : reducedCost s node_id it < 0
  · by_cases hcap : (s.graph_.mem it.2).cap > 0
    · right
      simp only [hrc, hcap, if_true, Graph.addCap_arcs] at h
      cases hf : ArcMap.find (s.graph_.arcs it.1) node_id with
      | none => simp [hf] at h
      | some r =>
        simp only [hf, Option.some.injEq, Prod.mk.injEq] at h
        exact ⟨hrc, hcap, h.2.symm, r, rfl, h.1.symm⟩
    · left
      simp only [hrc, hcap, if_true, if_false, Option.some.injEq, Prod.mk.injEq] at h
      exact ⟨fun hh => hcap hh.2, h.1.symm, h.2.symm⟩
  · left
    simp only [hrc, if_false, Option.some.injEq, Prod.mk.injEq] at h
    exact ⟨fun hh => hrc hh.1, h.1.symm, h.2.symm⟩

/-- The effect of the saturation body of `refine`. -/
theorem saturateArc_cases {node_id : Nat} {it : Nat × Nat} {s s1 : Solver}
    (h : saturateArc node_id it s = some s1) :
    (¬ reducedCost s node_id it < 0 ∧ s1 = s) ∨
    (reducedCost s node_id it < 0 ∧
      ∃ r, ArcMap.find (s.graph_.arcs it.1) node_id = some r ∧
        s1 = { s with graph_ :=
          ((((s.graph_.addDemand node_id (-(s.graph_.mem it.2).cap)).addDemand it.1
            (s.graph_.mem it.2).cap).addCap r (s.graph_.mem it.2).cap).setCap it.2 0) }) := by
  unfold saturateArc at h
  by_cases hrc : reducedCost s node_id it < 0
  · right
    simp only [hrc, if_true, Graph.addDemand_arcs, Graph.addDemand_mem] at h
    cases hf : ArcMap.find (s.graph_.arcs it.1) node_id with
    | none => simp [hf] at h
    | some r =>
      simp only [hf, Option.some.injEq] at h
      exact ⟨hrc, r, rfl, h.symm⟩
  · left
    simp only [hrc, if_false, Option.some.injEq] at h
    exact ⟨hrc, h.symm⟩

theorem dischargeArc_sameShape {node_id : Nat} {it : Nat × Nat} {s s1 : Solver} {b b1 : Bool}
    (h : dischargeArc node_id it s b = some (s1, b1)) : s.graph_.SameShape s1.graph_ := by
  rcases dischargeArc_cases h with ⟨_, rfl, _⟩ | ⟨_, _, _, r, _, rfl⟩
  · exact Graph.SameShape.refl _
  · exact (((Graph.sameShape_addCap _ _ _).trans (Graph.sameShape_addCap _ _ _)).trans
      (Graph.sameShape_addDemand _ _ _)).trans (Graph.sameShape_addDemand _ _ _)

theorem dischargeArc_potentials {node_id : Nat} {it : Nat × Nat} {s s1 : Solver} {b b1 : Bool}
    (h : dischargeArc node_id it s b = some (s1, b1)) : s1.potentials = s.potentials := by
  rcases dischargeArc_cases h with ⟨_, rfl, _⟩ | ⟨_, _, _, r, _, rfl⟩ <;> rfl

theorem saturateArc_sameShape {node_id : Nat} {it : Nat × Nat} {s s1 : Solver}
    (h : saturateArc node_id it s = some s1) : s.graph_.SameShape s1.graph_ := by
  rcases saturateArc_cases h with ⟨_, rfl⟩ | ⟨_, r, _, rfl⟩
  · exact Graph.SameShape.refl _
  · exact (((Graph.sameShape_addDemand _ _ _).trans (Graph.sameShape_addDemand _ _ _)).trans
      (Graph.sameShape_addCap _ _ _)).trans (Graph.sameShape_setCap _ _ _)

theorem saturateArc_potentials {node_id : Nat} {it : Nat × Nat} {s s1 : Solver}
    (h : saturateArc node_id it s = some s1) : s1.potentials = s.potentials := by
  rcases saturateArc_cases h with ⟨_, rfl⟩ | ⟨_, r, _, rfl⟩ <;> rfl

/-! ## Invariants of the loops -/

/-- An invariant of the `for` body of `discharge` is an invariant of the whole scan. -/
theorem dischargeScan_inv (Inv : Solver → Prop) (node_id : Nat)
    (harc : ∀ it s b s1 b1, it ∈ s.graph_.arcs node_id → Inv s →
      dischargeArc node_id it s b = some (s1, b1) → Inv s1) :
    ∀ l s b s1 b1, (∀ it ∈ l, it ∈ s.graph_.arcs node_id) → Inv s →
      dischargeScan node_id l s b = some (s1, b1) → Inv s1 := by
  intro l
  induction l with
  | nil =>
    intro s b s1 b1 _ hI h
    simp only [dischargeScan, Option.some.injEq, Prod.mk.injEq] at h
    exact h.1 ▸ hI
  | cons it rest ih =>
    intro s b s1 b1 hl hI h
    simp only [dischargeScan] at h
    cases hs : dischargeArc node_id it s b with
    | none => simp [hs] at h
    | some r =>
      obtain ⟨s2, b2⟩ := r
      simp only [hs] at h
      have harcs : s2.graph_.arcs = s.graph_.arcs := (dischargeArc_sameShape hs).arcs
      refine ih s2 b2 s1 b1 ?_ (harc it s b s2 b2 (hl it (List.mem_cons_self _ _)) hI hs) h
      intro e he
      rw [harcs]
      exact hl e (List.mem_cons_of_mem _ he)

/-- A scan that leaves `has_neg_cost_arc` false met no admissible arc and changed nothing. -/
theorem dischargeScan_false {node_id : Nat} :
    ∀ (l : List (Nat × Nat)) (s : Solver) (b : Bool) (s1 : Solver),
      dischargeScan node_id l s b = some (s1, false) →
      s1 = s ∧ b = false ∧
        ∀ it ∈ l, ¬ (reducedCost s node_id it < 0 ∧ 0 < (s.graph_.mem it.2).cap) := by
  intro l
  induction l with
  | nil =>
    intro s b s1 h
    simp only [dischargeScan, Option.some.injEq, Prod.mk.injEq] at h
    exact ⟨h.1.symm, h.2, fun _ hit => absurd hit (List.not_mem_nil _)⟩
  | cons it rest ih =>
    intro s b s1 h
    simp only [dischargeScan] at h
    cases hs : dischargeArc node_id it s b with
    | none => simp [hs] at h
    | some r =>
      obtain ⟨s2, b2⟩ := r
      simp only [hs] at h
      obtain ⟨h1, h2, h3⟩ := ih s2 b2 s1 h
      rcases dischargeArc_cases hs with ⟨hno, hs2, hb2⟩ | ⟨_, _, hb2, _⟩
      · subst hs2
        refine ⟨h1, hb2 ▸ h2, ?_⟩
        intro e he
        rcases List.mem_cons.mp he with rfl | he
        · exact hno
        · exact h3 e he
      · rw [h2] at hb2
        exact absurd hb2 (by decide)

/-- An invariant of the `for` body and of the relabel step is an invariant of the `while` loop of
`discharge`.  The relabel step only has to keep the invariant where the code takes it: the node
has positive excess and none of its arcs is admissible. -/
theorem dischargeLoop_inv (Inv : Solver → Prop) (node_id : Nat) (eps : Int)
    (harc : ∀ it s b s1 b1, it ∈ s.graph_.arcs node_id → Inv s →
      dischargeArc node_id it s b = some (s1, b1) → Inv s1)
    (hrel : ∀ s, Inv s → 0 < s.graph_.nodes_demand node_id →
      (∀ it ∈ s.graph_.arcs node_id,
        ¬ (reducedCost s node_id it < 0 ∧ 0 < (s.graph_.mem it.2).cap)) →
      Inv (relabel node_id eps s)) :
    ∀ fuel s s1, Inv s → dischargeLoop fuel node_id eps s = some s1 → Inv s1 := by
  intro fuel
  induction fuel with
  | zero =>
    intro s s1 hI h
    unfold dischargeLoop at h
    split at h
    · simp at h
    · simp only [Option.some.injEq] at h
      exact h ▸ hI
  | succ fuel ih =>
    intro s s1 hI h
    unfold dischargeLoop at h
    split at h
    · rename_i hpos
      simp only at h
      cases hs : dischargeScan node_id (s.graph_.arcs node_id) s false with
      | none => simp [hs] at h
      | some r =>
        obtain ⟨s2, b2⟩ := r
        simp only [hs] at h
        cases b2 with
        | true =>
          simp only [if_true] at h
          exact ih s2 s1
            (dischargeScan_inv Inv node_id harc _ s false s2 true (fun _ h => h) hI hs) h
        | false =>
          simp only [Bool.false_eq_true, if_false] at h
          obtain ⟨h1, _, h3⟩ := dischargeScan_false _ s false s2 hs
          subst h1
          exact ih _ s1 (hrel s2 hI hpos h3) h
    · simp only [Option.some.injEq] at h
      exact h ▸ hI

/-- An invariant of the steps of `discharge` that does not depend on the queue is an invariant of
the discharge loop of `refine`. -/
theorem refineLoop_inv (Inv : Solver → Prop) (eps : Int)
    (hq : ∀ s q, Inv s → Inv { s with active_nodes := q })
    (harc : ∀ node_id it s b s1 b1, it ∈ s.graph_.arcs node_id → Inv s →
      dischargeArc node_id it s b = some (s1, b1) → Inv s1)
    (hrel : ∀ node_id s, Inv s → 0 < s.graph_.nodes_demand node_id →
      (∀ it ∈ s.graph_.arcs node_id,
        ¬ (reducedCost s node_id it < 0 ∧ 0 < (s.graph_.mem it.2).cap)) →
      Inv (relabel node_id eps s)) :
    ∀ n fuel s s1, Inv s → refineLoop n fuel eps s = some s1 → Inv s1 := by
  intro n
  induction n with
  | zero =>
    intro fuel s s1 hI h
    unfold refineLoop at h
    split at h
    · simp only [Option.some.injEq] at h
      exact h ▸ hI
    · simp at h
  | succ n ih =>
    intro fuel s s1 hI h
    unfold refineLoop at h
    split at h
    · simp only [Option.some.injEq] at h
      exact h ▸ hI
    · simp only at h
      cases hd : discharge fuel eps s with
      | none => simp [hd] at h
      | some s2 =>
        simp only [hd] at h
        refine ih fuel s2 s1 ?_ h
        unfold discharge at hd
        cases hact : s.active_nodes with
        | nil => simp [hact] at hd
        | cons node rest =>
          simp only [hact] at hd
          exact dischargeLoop_inv Inv node eps (harc node) (hrel node) fuel _ s2
            (hq s rest hI) hd

/-- An invariant of the saturation body is an invariant of the saturation of one node. -/
theorem saturateScan_inv (Inv : Solver → Prop) (node_id : Nat)
    (hsat : ∀ it s s1, it ∈ s.graph_.arcs node_id → Inv s →
      saturateArc node_id it s = some s1 → Inv s1) :
    ∀ l s s1, (∀ it ∈ l, it ∈ s.graph_.arcs node_id) → Inv s →
      saturateScan node_id l s = some s1 → Inv s1 := by
  intro l
  induction l with
  | nil =>
    intro s s1 _ hI h
    simp only [saturateScan, Option.some.injEq] at h
    exact h ▸ hI
  | cons it rest ih =>
    intro s s1 hl hI h
    simp only [saturateScan] at h
    cases hs : saturateArc node_id it s with
    | none => simp [hs] at h
    | some s2 =>
      simp only [hs] at h
      have harcs : s2.graph_.arcs = s.graph_.arcs := (saturateArc_sameShape hs).arcs
      refine ih s2 s1 ?_ (hsat it s s2 (hl it (List.mem_cons_self _ _)) hI hs) h
      intro e he
      rw [harcs]
      exact hl e (List.mem_cons_of_mem _ he)

/-- An invariant of the saturation body is an invariant of the saturation phase. -/
theorem saturateNodes_inv (Inv : Solver → Prop)
    (hsat : ∀ node_id it s s1, it ∈ s.graph_.arcs node_id → Inv s →
      saturateArc node_id it s = some s1 → Inv s1) :
    ∀ l s s1, Inv s → saturateNodes l s = some s1 → Inv s1 := by
  intro l
  induction l with
  | nil =>
    intro s s1 hI h
    simp only [saturateNodes, Option.some.injEq] at h
    exact h ▸ hI
  | cons node rest ih =>
    intro s s1 hI h
    simp only [saturateNodes] at h
    cases hs : saturateScan node (s.graph_.arcs node) s with
    | none => simp [hs] at h
    | some s2 =>
      simp only [hs] at h
      exact ih s2 s1 (saturateScan_inv Inv node (hsat node) _ s s2 (fun _ h => h) hI hs) h

/-- An invariant of the elementary steps of `refine` is an invariant of `refine`. -/
theorem refine_inv (Inv : Solver → Prop) (eps : Int)
    (hq : ∀ s q, Inv s → Inv { s with active_nodes := q })
    (hsat : ∀ node_id it s s1, it ∈ s.graph_.arcs node_id → Inv s →
      saturateArc node_id it s = some s1 → Inv s1)
    (harc : ∀ node_id it s b s1 b1, it ∈ s.graph_.arcs node_id → Inv s →
      dischargeArc node_id it s b = some (s1, b1) → Inv s1)
    (hrel : ∀ node_id s, Inv s → 0 < s.graph_.nodes_demand node_id →
      (∀ it ∈ s.graph_.arcs node_id,
        ¬ (reducedCost s node_id it < 0 ∧ 0 < (s.graph_.mem it.2).cap)) →
      Inv (relabel node_id eps s)) :
    ∀ fuel s s1, Inv s → refine fuel eps s = some s1 → Inv s1 := by
  intro fuel s s1 hI h
  unfold refine at h
  simp only at h
  cases hs : saturateNodes (nodeIds ((s.graph_.num_nodes + 1) % UINT32)) s with
  | none => simp [hs] at h
  | some s2 =>
    simp only [hs] at h
    exact refineLoop_inv Inv eps hq harc hrel fuel fuel _ s1
      (hq s2 _ (saturateNodes_inv Inv hsat _ s s2 hI hs)) h

/-! ## The residual-pair invariant -/

theorem ArcMap.eq_of_mem {m : ArcMap} {k p q : Nat} (hn : (m.map Prod.fst).Nodup)
    (hp : (k, p) ∈ m) (hq : (k, q) ∈ m) : p = q := by
  have h1 := ArcMap.find_of_mem hn hp
  have h2 := ArcMap.find_of_mem hn hq
  rw [h1] at h2
  exact Option.some.inj h2

theorem Graph.Paired.of_sameShape {g g1 : Graph} (hp : g.Paired) (hs : g.SameShape g1) :
    g1.Paired := by
  refine ⟨?_, ?_, ?_⟩
  · intro u
    rw [hs.arcs]
    exact hp.keys u
  · intro u v p h
    rw [hs.arcs] at h ⊢
    rw [hs.reverse_arc]
    exact hp.mate u v p h
  · intro u v p h
    rw [hs.arcs] at h
    rw [hs.reverse_arc]
    exact hp.distinct u v p h

/-- The entry that `arcs[v][u]` finds is the mate of the entry for `v` in `arcs[u]`. -/
theorem Graph.Paired.find_mate {g : Graph} (hp : g.Paired) {u v p : Nat}
    (h : (v, p) ∈ g.arcs u) : ArcMap.find (g.arcs v) u = some (g.mem p).reverse_arc :=
  ArcMap.find_of_mem (hp.keys v) (hp.mate u v p h)

/-- The mate of the mate is the arc itself. -/
theorem Graph.Paired.reverse_reverse {g : Graph} (hp : g.Paired) {u v p : Nat}
    (h : (v, p) ∈ g.arcs u) : (g.mem (g.mem p).reverse_arc).reverse_arc = p :=
  ArcMap.eq_of_mem (hp.keys u) (hp.mate v u _ (hp.mate u v p h)) h

/-- Moving `f` units of capacity from an active arc to its mate changes no pair sum. -/
theorem Graph.Paired.pairCap_move {g g1 : Graph} (hp : g.Paired) (hs : g.SameShape g1)
    {u v p : Nat} (h : (v, p) ∈ g.arcs u) (f : Int)
    (hcap : ∀ x, (g1.mem x).cap =
      if x = p then (g.mem p).cap - f
      else if x = (g.mem p).reverse_arc then (g.mem x).cap + f else (g.mem x).cap) :
    ∀ x y q, (y, q) ∈ g.arcs x → g1.pairCap q = g.pairCap q := by
  intro x y q hq
  have hrr := hp.reverse_reverse h
  have hd := hp.distinct u v p h
  unfold Graph.pairCap
  rw [hs.reverse_arc q]
  by_cases hqp : q = p
  · subst hqp
    rw [hcap q, hcap (g.mem q).reverse_arc]
    simp only [if_true, hd, if_false]
    ring
  · by_cases hqr : q = (g.mem p).reverse_arc
    · subst hqr
      rw [hrr, hcap p, hcap (g.mem p).reverse_arc]
      simp only [if_true, hd, if_false]
      ring
    · have h1 : (g.mem q).reverse_arc ≠ p := by
        intro he
        have hm := hp.mate x y q hq
        rw [he] at hm
        have hm2 := hp.mate y x p hm
        exact hqr (ArcMap.eq_of_mem (hp.keys x) hq hm2)
      have h2 : (g.mem q).reverse_arc ≠ (g.mem p).reverse_arc := by
        intro he
        have hm := hp.mate x y q hq
        rw [he] at hm
        have hm2 := hp.mate y x _ hm
        rw [hrr] at hm2
        exact hqp (ArcMap.eq_of_mem (hp.keys x) hq hm2)
      rw [hcap q, hcap (g.mem q).reverse_arc]
      simp only [hqp, hqr, h1, h2, if_false]

/-- The capacities after a push of `discharge`. -/
theorem dischargeArc_cap {node_id : Nat} {it : Nat × Nat} {s s1 : Solver} {b b1 : Bool}
    (hp : s.graph_.Paired) (hit : it ∈ s.graph_.arcs node_id)
    (h : dischargeArc node_id it s b = some (s1, b1))
    (hadm : reducedCost s node_id it < 0 ∧ 0 < (s.graph_.mem it.2).cap) :
    ∀ x, (s1.graph_.mem x).cap =
      if x = it.2 then
        (s.graph_.mem it.2).cap - min (s.graph_.nodes_demand node_id) (s.graph_.mem it.2).cap
      else if x = (s.graph_.mem it.2).reverse_arc then
        (s.graph_.mem x).cap + min (s.graph_.nodes_demand node_id) (s.graph_.mem it.2).cap
      else (s.graph_.mem x).cap := by
  obtain ⟨v, p⟩ := it
  rcases dischargeArc_cases h with ⟨hno, _, _⟩ | ⟨_, _, _, r, hr, rfl⟩
  · exact absurd hadm hno
  · have hr2 := hp.find_mate hit
    simp only at hr hr2 ⊢
    rw [hr2] at hr
    cases hr
    have hd := hp.distinct node_id v p hit
    intro x
    simp only [Graph.addDemand_mem, Graph.addCap_cap]
    by_cases hx : x = p
    · subst hx
      simp only [if_true, if_neg hd.symm]
      ring
    · simp only [hx, if_false, hd]
      by_cases hx2 : x = (s.graph_.mem p).reverse_arc
      · subst hx2
        simp
      · simp [hx2]

/-- The capacities after a saturating push of `refine`. -/
theorem saturateArc_cap {node_id : Nat} {it : Nat × Nat} {s s1 : Solver}
    (hp : s.graph_.Paired) (hit : it ∈ s.graph_.arcs node_id)
    (h : saturateArc node_id it s = some s1) (hadm : reducedCost s node_id it < 0) :
    ∀ x, (s1.graph_.mem x).cap =
      if x = it.2 then (s.graph_.mem it.2).cap - (s.graph_.mem it.2).cap
      else if x = (s.graph_.mem it.2).reverse_arc then
        (s.graph_.mem x).cap + (s.graph_.mem it.2).cap
      else (s.graph_.mem x).cap := by
  obtain ⟨v, p⟩ := it
  rcases saturateArc_cases h with ⟨hno, _⟩ | ⟨_, r, hr, rfl⟩
  · exact absurd hadm hno
  · have hr2 := hp.find_mate hit
    simp only at hr hr2 ⊢
    rw [hr2] at hr
    cases hr
    have hd := hp.distinct node_id v p hit
    intro x
    simp only [Graph.setCap_cap, Graph.addCap_cap, Graph.addDemand_mem]
    by_cases hx : x = p
    · subst hx
      simp
    · simp only [hx, if_false]
      by_cases hx2 : x = (s.graph_.mem p).reverse_arc
      · subst hx2
        simp
      · simp [hx2]

theorem dischargeArc_pairCap {node_id : Nat} {it : Nat × Nat} {s s1 : Solver} {b b1 : Bool}
    (hp : s.graph_.Paired) (hit : it ∈ s.graph_.arcs node_id)
    (h : dischargeArc node_id it s b = some (s1, b1)) :
    ∀ x y q, (y, q) ∈ s.graph_.arcs x → s1.graph_.pairCap q = s.graph_.pairCap q := by
  by_cases hadm : reducedCost s node_id it < 0 ∧ 0 < (s.graph_.mem it.2).cap
  · exact hp.pairCap_move (dischargeArc_sameShape h) hit _ (dischargeArc_cap hp hit h hadm)
  · rcases dischargeArc_cases h with ⟨_, rfl, _⟩ | ⟨h1, h2, _⟩
    · intro _ _ _ _
      rfl
    · exact absurd ⟨h1, h2⟩ hadm

theorem saturateArc_pairCap {node_id : Nat} {it : Nat × Nat} {s s1 : Solver}
    (hp : s.graph_.Paired) (hit : it ∈ s.graph_.arcs node_id)
    (h : saturateArc node_id it s = some s1) :
    ∀ x y q, (y, q) ∈ s.graph_.arcs x → s1.graph_.pairCap q = s.graph_.pairCap q := by
  by_cases hadm : reducedCost s node_id it < 0
  · exact hp.pairCap_move (saturateArc_sameShape h) hit _ (saturateArc_cap hp hit h hadm)
  · rcases saturateArc_cases h with ⟨_, rfl⟩ | ⟨h1, _⟩
    · intro _ _ _ _
      rfl
    · exact absurd h1 hadm

/-- `refine` changes the graph at most in capacities and demands. -/
theorem refine_sameShape {fuel : Nat} {eps : Int} {s s1 : Solver}
    (h : refine fuel eps s = some s1) : s.graph_.SameShape s1.graph_ := by
  refine refine_inv (fun t => s.graph_.SameShape t.graph_) eps ?_ ?_ ?_ ?_ fuel s s1
    (Graph.SameShape.refl _) h
  · intro t q ht
    exact ht
  · intro node_id it t t1 _ ht hs
    exact ht.trans (saturateArc_sameShape hs)
  · intro node_id it t b t1 b1 _ ht hs
    exact ht.trans (dischargeArc_sameShape hs)
  · intro node_id t ht _ _
    exact ht

/-- `refine` keeps every pair sum. -/
theorem refine_pairCap {fuel : Nat} {eps : Int} {s s1 : Solver} (hp : s.graph_.Paired)
    (h : refine fuel eps s = some s1) :
    ∀ x y q, (y, q) ∈ s.graph_.arcs x → s1.graph_.pairCap q = s.graph_.pairCap q := by
  have key := refine_inv (fun t => s.graph_.SameShape t.graph_ ∧
      ∀ x y q, (y, q) ∈ s.graph_.arcs x → t.graph_.pairCap q = s.graph_.pairCap q) eps
    ?_ ?_ ?_ ?_ fuel s s1 ⟨Graph.SameShape.refl _, fun _ _ _ _ => rfl⟩ h
  · exact key.2
  · intro t q ht
    exact ht
  · intro node_id it t t1 hit ht hs
    refine ⟨ht.1.trans (saturateArc_sameShape hs), ?_⟩
    intro x y q hq
    rw [← ht.2 x y q hq]
    exact saturateArc_pairCap (hp.of_sameShape ht.1) hit hs x y q (ht.1.arcs ▸ hq)
  · intro node_id it t b t1 b1 hit ht hs
    refine ⟨ht.1.trans (dischargeArc_sameShape hs), ?_⟩
    intro x y q hq
    rw [← ht.2 x y q hq]
    exact dischargeArc_pairCap (hp.of_sameShape ht.1) hit hs x y q (ht.1.arcs ▸ hq)
  · intro node_id t ht _ _
    exact ht

theorem demoGraph_paired : demoGraph.Paired := by
  refine ⟨?_, ?_, ?_⟩
  · intro u
    rcases u with _ | _ | _ | u <;> simp [demoGraph]
  · intro u v p h
    rcases u with _ | _ | _ | u <;> simp [demoGraph] at h
    · obtain ⟨rfl, rfl⟩ := h
      simp [demoGraph]
    · obtain ⟨rfl, rfl⟩ := h
      simp [demoGraph]
  · intro u v p h
    rcases u with _ | _ | _ | u <;> simp [demoGraph] at h
    · obtain ⟨rfl, rfl⟩ := h
      simp [demoGraph]
    · obtain ⟨rfl, rfl⟩ := h
      simp [demoGraph]

/-- C1. Residual-pair invariant.  In every state in which each active arc `u → v` has its mate
stored at `arcs[v][u]`: a push of `discharge` and a saturating push of `refine` along an arc lower
its `cap` by the pushed amount and raise the `cap` of its mate by the same amount; `refine` keeps
that pairing, keeps `cap + reverse_arc->cap` of every active arc, and keeps
`cap + reverse_arc->cap == initial_cap` wherever it held. -/
theorem refine_residual_pair_invariant (s : Solver) (hp : s.graph_.Paired) :
    (∀ node_id it b s1 b1, it ∈ s.graph_.arcs node_id →
      dischargeArc node_id it s b = some (s1, b1) →
      reducedCost s node_id it < 0 ∧ 0 < (s.graph_.mem it.2).cap →
      (s1.graph_.mem it.2).cap = (s.graph_.mem it.2).cap -
          min (s.graph_.nodes_demand node_id) (s.graph_.mem it.2).cap ∧
        (s1.graph_.mem (s.graph_.mem it.2).reverse_arc).cap =
          (s.graph_.mem (s.graph_.mem it.2).reverse_arc).cap +
            min (s.graph_.nodes_demand node_id) (s.graph_.mem it.2).cap) ∧
    (∀ node_id it s1, it ∈ s.graph_.arcs node_id →
      saturateArc node_id it s = some s1 → reducedCost s node_id it < 0 →
      (s1.graph_.mem it.2).cap = (s.graph_.mem it.2).cap - (s.graph_.mem it.2).cap ∧
        (s1.graph_.mem (s.graph_.mem it.2).reverse_arc).cap =
          (s.graph_.mem (s.graph_.mem it.2).reverse_arc).cap + (s.graph_.mem it.2).cap) ∧
    (∀ fuel eps s1, refine fuel eps s = some s1 →
      s1.graph_.Paired ∧
      ∀ u v p, (v, p) ∈ s.graph_.arcs u →
        (s1.graph_.mem p).cap + (s1.graph_.mem (s1.graph_.mem p).reverse_arc).cap =
          (s.graph_.mem p).cap + (s.graph_.mem (s.graph_.mem p).reverse_arc).cap ∧
        ((s.graph_.mem p).cap + (s.graph_.mem (s.graph_.mem p).reverse_arc).cap =
            (s.graph_.mem p).initial_cap →
          (s1.graph_.mem p).cap + (s1.graph_.mem (s1.graph_.mem p).reverse_arc).cap =
            (s1.graph_.mem p).initial_cap)) := by
  refine ⟨?_, ?_, ?_⟩
  · intro node_id it b s1 b1 hit h hadm
    have hc := dischargeArc_cap hp hit h hadm
    have hd := hp.distinct node_id it.1 it.2 hit
    refine ⟨?_, ?_⟩
    · rw [hc it.2]
      simp
    · rw [hc (s.graph_.mem it.2).reverse_arc]
      simp [hd]
  · intro node_id it s1 hit h hadm
    have hc := saturateArc_cap hp hit h hadm
    have hd := hp.distinct node_id it.1 it.2 hit
    refine ⟨?_, ?_⟩
    · rw [hc it.2]
      simp
    · rw [hc (s.graph_.mem it.2).reverse_arc]
      simp [hd]
  · intro fuel eps s1 h
    have hs := refine_sameShape h
    refine ⟨hp.of_sameShape hs, ?_⟩
    intro u v p hvp
    have hsum := refine_pairCap hp h u v p hvp
    unfold Graph.pairCap at hsum
    refine ⟨hsum, ?_⟩
    intro hinit
    rw [hsum, hs.initial_cap]
    exact hinit

theorem refine_residual_pair_invariant_witness :
    demoSolver.graph_.Paired ∧
      (refine 10 1 demoSolver).map
        (fun s1 => (s1.graph_.mem 0).cap + (s1.graph_.mem (s1.graph_.mem 0).reverse_arc).cap) =
        some 5 := by
  refine ⟨demoGraph_paired, ?_⟩
  cases h : refine 10 1 demoSolver with
  | none =>
    have hsome : (refine 10 1 demoSolver).isSome = true := by decide!
    rw [h] at hsome
    exact absurd hsome (by decide)
  | some s1 =>
    have key := ((refine_residual_pair_invariant demoSolver demoGraph_paired).2.2 10 1 s1 h).2
      1 2 0 (by decide)
    simp only [Option.map_some', Option.some.injEq]
    rw [key.1]
    decide

/-! ## Epsilon-optimality -/

theorem Graph.Residual.residual_of_sameShape {g g1 : Graph} (hr : g.Residual) (hs : g.SameShape g1) :
    g1.Residual := by
  refine ⟨hr.toPaired.of_sameShape hs, ?_, ?_, ?_, ?_⟩
  · intro u v p h
    rw [hs.arcs] at h
    rw [hs.reverse_arc, hs.cost, hs.cost]
    exact hr.antisym u v p h
  · intro u v p u1 v1 h h1
    rw [hs.arcs] at h h1
    exact hr.noalias u v p u1 v1 h h1
  · intro u hu
    rw [hs.arcs]
    rw [hs.num_nodes] at hu
    exact hr.nodes u hu
  · rw [hs.num_nodes]
    exact hr.size

/-- A paired graph has no arc from a node to itself. -/
theorem Graph.Paired.no_loop {g : Graph} (hp : g.Paired) {u p : Nat} :
    (u, p) ∉ g.arcs u := by
  intro h
  exact hp.distinct u u p h (ArcMap.eq_of_mem (hp.keys u) (hp.mate u u p h) h)

theorem reducedCost_congr {s s1 : Solver} (hs : s.graph_.SameShape s1.graph_)
    (hpi : s1.potentials = s.potentials) (u : Nat) (it : Nat × Nat) :
    reducedCost s1 u it = reducedCost s u it := by
  unfold reducedCost
  rw [hs.cost, hpi]

/-- The reduced cost of the mate is the opposite of the reduced cost of the arc. -/
theorem Graph.Residual.reducedCost_mate {s : Solver} (hr : s.graph_.Residual) {u v p : Nat}
    (h : (v, p) ∈ s.graph_.arcs u) :
    reducedCost s v (u, (s.graph_.mem p).reverse_arc) = -reducedCost s u (v, p) := by
  unfold reducedCost
  simp only
  rw [hr.antisym u v p h]
  ring

/-- During the saturation an arc of negative reduced cost keeps its capacity or loses all of it. -/
def SatRel (s t : Solver) : Prop :=
  s.graph_.SameShape t.graph_ ∧ t.potentials = s.potentials ∧
    ∀ x y q, (y, q) ∈ s.graph_.arcs x → reducedCost s x (y, q) < 0 →
      (t.graph_.mem q).cap = (s.graph_.mem q).cap ∨ (t.graph_.mem q).cap = 0

theorem SatRel.satRefl (s : Solver) : SatRel s s :=
  ⟨Graph.SameShape.refl _, rfl, fun _ _ _ _ _ => Or.inl rfl⟩

theorem SatRel.satTrans {s t w : Solver} (h1 : SatRel s t) (h2 : SatRel t w) : SatRel s w := by
  refine ⟨h1.1.trans h2.1, h2.2.1.trans h1.2.1, ?_⟩
  intro x y q hq hrc
  have hq2 : (y, q) ∈ t.graph_.arcs x := h1.1.arcs ▸ hq
  have hrc2 : reducedCost t x (y, q) < 0 := by
    rw [reducedCost_congr h1.1 h1.2.1]
    exact hrc
  rcases h2.2.2 x y q hq2 hrc2 with h | h
  · rw [h]
    exact h1.2.2 x y q hq hrc
  · exact Or.inr h

theorem saturateArc_satRel {node_id : Nat} {it : Nat × Nat} {s s1 : Solver}
    (hr : s.graph_.Residual) (hit : it ∈ s.graph_.arcs node_id)
    (h : saturateArc node_id it s = some s1) :
    SatRel s s1 ∧ (reducedCost s node_id it < 0 → (s1.graph_.mem it.2).cap = 0) := by
  obtain ⟨v, p⟩ := it
  by_cases hadm : reducedCost s node_id (v, p) < 0
  · have hc := saturateArc_cap hr.toPaired hit h hadm
    simp only at hc
    refine ⟨⟨saturateArc_sameShape h, saturateArc_potentials h, ?_⟩, ?_⟩
    · intro x y q hq hrc
      rw [hc q]
      by_cases hqp : q = p
      · right
        simp [hqp]
      · simp only [hqp, if_false]
        by_cases hqr : q = (s.graph_.mem p).reverse_arc
        · exfalso
          have hm := hr.mate node_id v p hit
          rw [← hqr] at hm
          obtain ⟨hx, hy⟩ := hr.noalias x y q v node_id hq hm
          subst hx hy hqr
          rw [hr.reducedCost_mate hit] at hrc
          omega
        · left
          simp [hqr]
    · intro _
      rw [hc p]
      simp
  · rcases saturateArc_cases h with ⟨_, rfl⟩ | ⟨h1, _⟩
    · exact ⟨SatRel.satRefl _, fun hh => absurd hh hadm⟩
    · exact absurd h1 hadm

theorem saturateScan_satRel {node_id : Nat} :
    ∀ (l : List (Nat × Nat)) (s s1 : Solver), s.graph_.Residual →
      (∀ it ∈ l, it ∈ s.graph_.arcs node_id) → saturateScan node_id l s = some s1 →
      SatRel s s1 ∧ ∀ it ∈ l, reducedCost s node_id it < 0 → (s1.graph_.mem it.2).cap = 0 := by
  intro l
  induction l with
  | nil =>
    intro s s1 _ _ h
    simp only [saturateScan, Option.some.injEq] at h
    subst h
    exact ⟨SatRel.satRefl _, fun _ hit => absurd hit (List.not_mem_nil _)⟩
  | cons it rest ih =>
    intro s s1 hr hl h
    simp only [saturateScan] at h
    cases hs : saturateArc node_id it s with
    | none => simp [hs] at h
    | some s2 =>
      simp only [hs] at h
      have hit := hl it (List.mem_cons_self _ _)
      obtain ⟨h12, hz⟩ := saturateArc_satRel hr hit hs
      have hl2 : ∀ e ∈ rest, e ∈ s2.graph_.arcs node_id := by
        intro e he
        rw [h12.1.arcs]
        exact hl e (List.mem_cons_of_mem _ he)
      obtain ⟨h21, hz2⟩ := ih s2 s1 (hr.residual_of_sameShape h12.1) hl2 h
      refine ⟨h12.satTrans h21, ?_⟩
      intro e he hrc
      rcases List.mem_cons.mp he with rfl | he
      · have hrc2 : reducedCost s2 node_id e < 0 := by
          rw [reducedCost_congr h12.1 h12.2.1]
          exact hrc
        rcases h21.2.2 node_id e.1 e.2 (h12.1.arcs ▸ hit) hrc2 with h0 | h0
        · rw [h0]
          exact hz hrc
        · exact h0
      · apply hz2 e he
        rw [reducedCost_congr h12.1 h12.2.1]
        exact hrc

theorem saturateNodes_satRel :
    ∀ (l : List Nat) (s s1 : Solver), s.graph_.Residual → saturateNodes l s = some s1 →
      SatRel s s1 ∧ ∀ u ∈ l, ∀ it ∈ s.graph_.arcs u, reducedCost s u it < 0 →
        (s1.graph_.mem it.2).cap = 0 := by
  intro l
  induction l with
  | nil =>
    intro s s1 _ h
    simp only [saturateNodes, Option.some.injEq] at h
    subst h
    exact ⟨SatRel.satRefl _, fun _ hu => absurd hu (List.not_mem_nil _)⟩
  | cons node rest ih =>
    intro s s1 hr h
    simp only [saturateNodes] at h
    cases hs : saturateScan node (s.graph_.arcs node) s with
    | none => simp [hs] at h
    | some s2 =>
      simp only [hs] at h
      obtain ⟨h12, hz⟩ := saturateScan_satRel _ s s2 hr (fun _ h => h) hs
      obtain ⟨h21, hz2⟩ := ih s2 s1 (hr.residual_of_sameShape h12.1) h
      refine ⟨h12.satTrans h21, ?_⟩
      intro u hu e he hrc
      rcases List.mem_cons.mp hu with rfl | hu
      · have hrc2 : reducedCost s2 u e < 0 := by
          rw [reducedCost_congr h12.1 h12.2.1]
          exact hrc
        rcases h21.2.2 u e.1 e.2 (h12.1.arcs ▸ he) hrc2 with h0 | h0
        · rw [h0]
          exact hz e he hrc
        · exact h0
      · apply hz2 u hu e (h12.1.arcs ▸ he)
        rw [reducedCost_congr h12.1 h12.2.1]
        exact hrc

theorem mem_nodeIds {g : Graph} (hr : g.Residual) {u : Nat} {it : Nat × Nat}
    (h : it ∈ g.arcs u) : u ∈ nodeIds ((g.num_nodes + 1) % UINT32) := by
  have hu : ¬ (u = 0 ∨ g.num_nodes < u) := by
    intro hu
    rw [hr.nodes u hu] at h
    exact absurd h (List.not_mem_nil _)
  rw [Nat.mod_eq_of_lt hr.size]
  unfold nodeIds
  rw [List.mem_range']
  refine ⟨u - 1, ?_, ?_⟩ <;> omega

/-- After the saturation phase no active arc of negative reduced cost has residual capacity. -/
theorem saturateNodes_optimal {s s1 : Solver} (hr : s.graph_.Residual)
    (h : saturateNodes (nodeIds ((s.graph_.num_nodes + 1) % UINT32)) s = some s1) :
    s1.EpsOptimal 0 := by
  obtain ⟨hrel, hz⟩ := saturateNodes_satRel _ s s1 hr h
  intro u v p hvp hcap
  have hvp0 : (v, p) ∈ s.graph_.arcs u := hrel.1.arcs ▸ hvp
  rw [reducedCost_congr hrel.1 hrel.2.1]
  by_contra hneg
  have := hz u (mem_nodeIds hr hvp0) (v, p) hvp0 (by omega)
  simp only at this
  omega

theorem Solver.EpsOptimal.mono {s : Solver} {e1 e2 : Int} (h : s.EpsOptimal e1) (he : e1 ≤ e2) :
    s.EpsOptimal e2 := by
  intro u v p hvp hcap
  have := h u v p hvp hcap
  omega

/-- A push of `discharge` keeps the potentials `eps`-optimal. -/
theorem dischargeArc_epsOptimal {node_id : Nat} {it : Nat × Nat} {s s1 : Solver} {b b1 : Bool}
    {eps : Int} (heps : 0 ≤ eps) (hr : s.graph_.Residual) (hit : it ∈ s.graph_.arcs node_id)
    (ho : s.EpsOptimal eps) (h : dischargeArc node_id it s b = some (s1, b1)) :
    s1.EpsOptimal eps := by
  obtain ⟨v, p⟩ := it
  by_cases hadm : reducedCost s node_id (v, p) < 0 ∧ 0 < (s.graph_.mem (v, p).2).cap
  · have hc := dischargeArc_cap hr.toPaired hit h hadm
    have hs := dischargeArc_sameShape h
    have hpi := dischargeArc_potentials h
    simp only at hc hadm
    intro x y q hq hcap
    rw [hs.arcs] at hq
    rw [reducedCost_congr hs hpi]
    by_cases hqp : q = p
    · subst hqp
      exact ho x y q hq (by
        obtain ⟨hx, hy⟩ := hr.noalias x y q node_id v hq hit
        exact hadm.2)
    · by_cases hqr : q = (s.graph_.mem p).reverse_arc
      · have hm := hr.mate node_id v p hit
        rw [← hqr] at hm
        obtain ⟨hx, hy⟩ := hr.noalias x y q v node_id hq hm
        subst hx hy hqr
        rw [hr.reducedCost_mate hit]
        omega
      · rw [hc q] at hcap
        simp only [hqp, hqr, if_false] at hcap
        exact ho x y q hq hcap
  · rcases dischargeArc_cases h with ⟨_, rfl, _⟩ | ⟨h1, h2, _⟩
    · exact ho
    · exact absurd ⟨h1, h2⟩ hadm

/-- The relabel step keeps the potentials `eps`-optimal when no arc of the node is admissible. -/
theorem relabel_epsOptimal {node_id : Nat} {s : Solver} {eps : Int} (heps : 0 ≤ eps)
    (hp : s.graph_.Paired) (ho : s.EpsOptimal eps)
    (hno : ∀ it ∈ s.graph_.arcs node_id,
      ¬ (reducedCost s node_id it < 0 ∧ 0 < (s.graph_.mem it.2).cap)) :
    (relabel node_id eps s).EpsOptimal eps := by
  intro x y q hq hcap
  have hq0 : (y, q) ∈ s.graph_.arcs x := hq
  have hcap0 : 0 < (s.graph_.mem q).cap := hcap
  have h0 := ho x y q hq0 hcap0
  unfold reducedCost at h0 ⊢
  simp only [relabel] at h0 ⊢
  by_cases hx : x = node_id
  · subst hx
    have hy : y ≠ x := by
      intro hy
      subst hy
      exact hp.no_loop hq0
    have hna := hno (y, q) hq0
    unfold reducedCost at hna
    simp only at hna
    rw [Function.update_same, Function.update_noteq hy]
    by_contra hlt
    exact hna ⟨by omega, hcap0⟩
  · rw [Function.update_noteq hx]
    by_cases hy : y = node_id
    · subst hy
      rw [Function.update_same]
      omega
    · rw [Function.update_noteq hy]
      exact h0

/-- The statement `refine` runs after its saturation phase. -/
theorem refine_eq {fuel : Nat} {eps : Int} {s s1 : Solver} (h : refine fuel eps s = some s1) :
    ∃ s2, saturateNodes (nodeIds ((s.graph_.num_nodes + 1) % UINT32)) s = some s2 ∧
      refineLoop fuel fuel eps { s2 with active_nodes :=
        ((nodeIds ((s.graph_.num_nodes + 1) % UINT32)).filter
          (fun v => s2.graph_.nodes_demand v > 0)) } = some s1 := by
  unfold refine at h
  simp only at h
  cases hs : saturateNodes (nodeIds ((s.graph_.num_nodes + 1) % UINT32)) s with
  | none => simp [hs] at h
  | some s2 =>
    simp only [hs] at h
    exact ⟨s2, rfl, h⟩

/-- `refine` leaves the potentials `eps`-optimal. -/
theorem refine_epsOptimal {fuel : Nat} {eps : Int} {s s1 : Solver} (heps : 0 ≤ eps)
    (hr : s.graph_.Residual) (h : refine fuel eps s = some s1) : s1.EpsOptimal eps := by
  obtain ⟨s2, hsat, hloop⟩ := refine_eq h
  have h2 : s2.EpsOptimal eps := (saturateNodes_optimal hr hsat).mono heps
  have hs2 : s.graph_.SameShape s2.graph_ := (saturateNodes_satRel _ s s2 hr hsat).1.1
  have key := refineLoop_inv (fun t => s.graph_.SameShape t.graph_ ∧ t.EpsOptimal eps) eps
    ?_ ?_ ?_ fuel fuel _ s1 ?_ hloop
  · exact key.2
  · intro t q ht
    exact ht
  · intro node_id it t b t1 b1 hit ht hs
    exact ⟨ht.1.trans (dischargeArc_sameShape hs),
      dischargeArc_epsOptimal heps (hr.residual_of_sameShape ht.1) hit ht.2 hs⟩
  · intro node_id t ht _ hno
    exact ⟨ht.1, relabel_epsOptimal heps (hr.residual_of_sameShape ht.1).toPaired ht.2 hno⟩
  · exact ⟨hs2, h2⟩

theorem demoGraph_residual : demoGraph.Residual := by
  refine ⟨demoGraph_paired, ?_, ?_, ?_, ?_⟩
  · intro u v p h
    rcases u with _ | _ | _ | u <;> simp [demoGraph] at h
    · obtain ⟨rfl, rfl⟩ := h
      simp [demoGraph]
    · obtain ⟨rfl, rfl⟩ := h
      simp [demoGraph]
  · intro u v p u1 v1 h h1
    rcases u with _ | _ | _ | u <;> simp [demoGraph] at h <;>
      rcases u1 with _ | _ | _ | u1 <;> simp [demoGraph] at h1 <;> omega
  · intro u hu
    rcases u with _ | _ | _ | u
    · rfl
    · simp [demoGraph] at hu
    · simp [demoGraph] at hu
    · rfl
  · decide

/-- C2. Epsilon-optimality after `refine`.  For every potential vector, every `eps ≥ 1` and every
well-formed residual graph (paired arcs with opposite costs), if `refine` returns then every
active arc `u → v` with `cap > 0` has `cost + pi(u) - pi(v) ≥ -eps`; no bound on the capacities is
needed. -/
theorem refine_eps_optimal (fuel : Nat) (eps : Int) (s s1 : Solver) (heps : 1 ≤ eps)
    (hr : s.graph_.Residual) (h : refine fuel eps s = some s1) :
    ∀ u v p, (v, p) ∈ s1.graph_.arcs u → 0 < (s1.graph_.mem p).cap →
      -eps ≤ (s1.graph_.mem p).cost + s1.potentials u - s1.potentials v :=
  refine_epsOptimal (by omega) hr h

theorem refine_eps_optimal_witness :
    (1 : Int) ≤ 1 ∧ demoSolver.graph_.Residual ∧
      (refine 10 1 demoSolver).map
        (fun s1 => decide (0 < (s1.graph_.mem 1).cap ∧
          -1 ≤ (s1.graph_.mem 1).cost + s1.potentials 2 - s1.potentials 1)) = some true := by
  refine ⟨le_refl _, demoGraph_residual, ?_⟩
  cases h : refine 10 1 demoSolver with
  | none =>
    have hsome : (refine 10 1 demoSolver).isSome = true := by decide!
    rw [h] at hsome
    exact absurd hsome (by decide)
  | some s1 =>
    have hcap : (refine 10 1 demoSolver).map (fun t => (t.graph_.mem 1).cap) = some 3 := by
      decide!
    rw [h] at hcap
    simp only [Option.map_some', Option.some.injEq] at hcap
    have hmem : (1, 1) ∈ s1.graph_.arcs 2 := by
      rw [(refine_sameShape h).arcs]
      decide
    have key := refine_eps_optimal 10 1 demoSolver s1 (le_refl _) demoGraph_residual h 2 1 1
      hmem (by omega)
    simp only [Option.map_some', Option.some.injEq, decide_eq_true_eq]
    exact ⟨by omega, key⟩

/-! ## The schedule of `eps` and the fixing threshold -/

theorem tdiv_bounds {alpha eps : Int} (ha : 2 ≤ alpha) (he : alpha ≤ eps) :
    1 ≤ Int.tdiv eps alpha ∧ Int.tdiv eps alpha < eps := by
  rw [Int.tdiv_eq_ediv (by omega) (by omega)]
  constructor
  · exact Int.le_ediv_of_mul_le (by omega) (by omega)
  · apply Int.ediv_lt_of_lt_mul (by omega)
    nlinarith

theorem tdiv_one {alpha : Int} (ha : 2 ≤ alpha) : Int.tdiv 1 alpha = 0 := by
  rw [Int.tdiv_eq_ediv (by omega) (by omega)]
  exact Int.ediv_eq_zero_of_lt (by omega) (by omega)

/-- The loop header of `costScaling`, started at `eps ≥ 1` with a divisor `alpha ≥ 2`, runs its
body at `eps`, then at strictly smaller values that are at least 1, last at 1, and stops. -/
theorem costScalingFor_schedule {alpha : Int} (ha : 2 ≤ alpha) :
    ∀ (n : Nat) (eps : Int) (acc : List Int), 1 ≤ eps → eps ≤ n →
      ∃ l, costScalingFor (fun e l => some (l ++ [e])) n alpha eps acc = some (acc ++ eps :: l) ∧
        (∀ e ∈ l, 1 ≤ e ∧ e < eps) ∧ (eps :: l).Pairwise (fun a b => a > b) ∧
        (eps :: l).getLast? = some 1 := by
  intro n
  induction n with
  | zero =>
    intro eps acc h1 h2
    simp only [Nat.cast_zero] at h2
    omega
  | succ n ih =>
    intro eps acc h1 h2
    unfold costScalingFor
    simp only [ge_iff_le, h1, if_true]
    by_cases hone : eps = 1
    · subst hone
      refine ⟨[], ?_, ?_, ?_, ?_⟩
      · have h0 : ¬ ((1 : Int) < alpha ∧ (1 : Int) > 1) := by omega
        rw [if_neg h0, tdiv_one ha]
        unfold costScalingFor
        simp
      · intro e he
        exact absurd he (List.not_mem_nil _)
      · simp
      · simp
    · by_cases hlt : eps < alpha
      · have hc : eps < alpha ∧ eps > 1 := ⟨hlt, by omega⟩
        rw [if_pos hc]
        obtain ⟨l, hl1, hl2, hl3, hl4⟩ := ih 1 (acc ++ [eps]) (le_refl _) (by push_cast at h2; omega)
        refine ⟨1 :: l, ?_, ?_, ?_, ?_⟩
        · rw [hl1]
          simp
        · intro e he
          rcases List.mem_cons.mp he with rfl | he
          · omega
          · have := hl2 e he
            omega
        · rw [List.pairwise_cons]
          refine ⟨?_, hl3⟩
          intro e he
          rcases List.mem_cons.mp he with rfl | he
          · omega
          · have := hl2 e he
            omega
        · rw [List.getLast?_cons_cons]
          exact hl4
      · have hb := tdiv_bounds ha (by omega : alpha ≤ eps)
        have hc : ¬ (eps < alpha ∧ eps > 1) := fun h => hlt h.1
        rw [if_neg hc]
        obtain ⟨l, hl1, hl2, hl3, hl4⟩ := ih (Int.tdiv eps alpha) (acc ++ [eps]) hb.1
          (by push_cast at h2; omega)
        refine ⟨Int.tdiv eps alpha :: l, ?_, ?_, ?_, ?_⟩
        · rw [hl1]
          simp
        · intro e he
          rcases List.mem_cons.mp he with rfl | he
          · exact hb
          · have := hl2 e he
            omega
        · rw [List.pairwise_cons]
          refine ⟨?_, hl3⟩
          intro e he
          rcases List.mem_cons.mp he with rfl | he
          · exact hb.2
          · have := hl2 e he
            omega
        · rw [List.getLast?_cons_cons]
          exact hl4

/-- C9. Epsilon schedule.  For every `alpha ≥ 2` and every start value `start ≥ alpha` returned
by `scaleUpCosts`, the loop of `costScaling` stops (within `start` iterations) and the values of
`eps` its body runs with begin at `start / alpha`, are strictly decreasing, are all at least 1, and
end with exactly 1. -/
theorem costScaling_eps_schedule (alpha start : Int) (ha : 2 ≤ alpha) (hs : alpha ≤ start) :
    ∃ l, epsSchedule start.toNat alpha start = some l ∧
      l.head? = some (Int.tdiv start alpha) ∧
      l.Pairwise (fun a b => a > b) ∧ (∀ e ∈ l, 1 ≤ e) ∧ l.getLast? = some 1 := by
  have hb := tdiv_bounds ha hs
  obtain ⟨l, hl1, hl2, hl3, hl4⟩ := costScalingFor_schedule ha start.toNat (Int.tdiv start alpha)
    [] hb.1 (by rw [Int.toNat_of_nonneg (by omega)]; omega)
  refine ⟨Int.tdiv start alpha :: l, ?_, rfl, hl3, ?_, hl4⟩
  · unfold epsSchedule
    rw [hl1]
    rfl
  · intro e he
    rcases List.mem_cons.mp he with rfl | he
    · exact hb.1
    · exact (hl2 e he).1

theorem costScaling_eps_schedule_witness :
    (2 : Int) ≤ 2 ∧ (2 : Int) ≤ 32 ∧ epsSchedule 32 2 32 = some [16, 8, 4, 2, 1] := by
  refine ⟨by decide, by decide, ?_⟩
  obtain ⟨l, hl, -⟩ := costScaling_eps_schedule 2 32 (by decide) (by decide)
  rw [show epsSchedule 32 2 32 = epsSchedule (32 : Int).toNat 2 32 from rfl, hl]
  have : epsSchedule (32 : Int).toNat 2 32 = some [16, 8, 4, 2, 1] := by decide!
  rw [hl] at this
  exact this

/-- C10, as the code has it.  In every iteration of the loop of `costScaling` at scale `eps`, on a
graph with `N = graph_.get_num_nodes()` nodes (`2 * N` within `uint32_t`), `arcsFixing` is invoked
on the result of `refine` with threshold exactly `2 * N * eps`: the local `num_nodes` of
`costScaling` is `N + 1`. -/
theorem costScaling_fix_threshold (fuel : Nat) (eps : Int) (s : Solver)
    (hN : 2 * s.graph_.num_nodes < UINT32) :
    fixThreshold ((s.graph_.num_nodes + 1) % UINT32) eps = 2 * (s.graph_.num_nodes : Int) * eps ∧
    costScalingBody fuel ((s.graph_.num_nodes + 1) % UINT32) eps s =
      (refine fuel eps s).map (arcsFixing (2 * (s.graph_.num_nodes : Int) * eps)) := by
  have hthr : fixThreshold ((s.graph_.num_nodes + 1) % UINT32) eps =
      2 * (s.graph_.num_nodes : Int) * eps := by
    unfold fixThreshold
    unfold UINT32 at hN ⊢
    have h1 : (s.graph_.num_nodes + 1) % 4294967296 = s.graph_.num_nodes + 1 :=
      Nat.mod_eq_of_lt (by omega)
    have h2 : (s.graph_.num_nodes + 1 + 4294967296 - 1) % 4294967296 = s.graph_.num_nodes := by
      omega
    have h3 : 2 * s.graph_.num_nodes % 4294967296 = 2 * s.graph_.num_nodes :=
      Nat.mod_eq_of_lt hN
    rw [h1, h2, h3]
    push_cast
    ring
  refine ⟨hthr, ?_⟩
  unfold costScalingBody
  rw [hthr]
  cases refine fuel eps s <;> rfl

theorem costScaling_fix_threshold_witness :
    2 * demoSolver.graph_.num_nodes < UINT32 ∧
      fixThreshold ((demoSolver.graph_.num_nodes + 1) % UINT32) 16 = 64 := by
  refine ⟨by decide, ?_⟩
  rw [(costScaling_fix_threshold 0 16 demoSolver (by decide)).1]
  decide

/-- C10, counterexample.  On a graph with `N = 4` nodes and at `eps = 1` the threshold passed to
`arcsFixing` is `8`, not `2 * (N - 1) * eps = 6`.  The difference shows: on the two-node graph
`demoGraph`, where the arc `1 → 2` has reduced cost 3, the threshold of the code at `eps = 1` is 4
and fixes nothing, while `2 * (N - 1) * eps = 2` would fix the pair. -/
theorem costScaling_fix_threshold_counterexample :
    fixThreshold ((4 + 1) % UINT32) 1 = 8 ∧
      fixThreshold ((4 + 1) % UINT32) 1 ≠ 2 * ((4 : Int) - 1) * 1 ∧
      (arcsFixing (fixThreshold ((demoSolverFix.graph_.num_nodes + 1) % UINT32) 1)
        demoSolverFix).graph_.fixed_arcs = [] ∧
      (arcsFixing (2 * ((demoSolverFix.graph_.num_nodes : Int) - 1) * 1)
        demoSolverFix).graph_.fixed_arcs = [1, 0] := by
  decide!

/-! ## `scaleUpCosts` -/

theorem Graph.SameButCost.costRefl (g : Graph) : g.SameButCost g :=
  ⟨rfl, rfl, rfl, rfl, fun _ => rfl, fun _ => rfl, fun _ => rfl, fun _ => rfl, fun _ => rfl⟩

theorem Graph.SameButCost.costTrans {g1 g2 g3 : Graph} (h12 : g1.SameButCost g2)
    (h23 : g2.SameButCost g3) : g1.SameButCost g3 :=
  ⟨h23.num_nodes.trans h12.num_nodes, h23.nodes_demand.trans h12.nodes_demand,
    h23.arcs.trans h12.arcs, h23.fixed_arcs.trans h12.fixed_arcs,
    fun p => (h23.src_node_id p).trans (h12.src_node_id p),
    fun p => (h23.dst_node_id p).trans (h12.dst_node_id p),
    fun p => (h23.cap p).trans (h12.cap p),
    fun p => (h23.initial_cap p).trans (h12.initial_cap p),
    fun p => (h23.reverse_arc p).trans (h12.reverse_arc p)⟩

theorem Graph.sameButCost_mulCost (g : Graph) (p : Nat) (k : Int) :
    g.SameButCost (g.mulCost p k) := by
  refine ⟨rfl, rfl, rfl, rfl, ?_, ?_, ?_, ?_, ?_⟩ <;> intro q <;> unfold Graph.mulCost <;>
    rcases eq_or_ne q p with rfl | h <;> simp [Function.update_noteq, *]

theorem Graph.mulCost_cost (g : Graph) (p : Nat) (k : Int) (q : Nat) :
    ((g.mulCost p k).mem q).cost = if q = p then (g.mem p).cost * k else (g.mem q).cost := by
  unfold Graph.mulCost
  by_cases h : q = p
  · subst h
    simp
  · simp [Function.update_noteq h, h]

theorem scaleUpArc_spec (k : Int) (it : Nat × Nat) (gm : Graph × Int) :
    gm.1.SameButCost (scaleUpArc k it gm).1 ∧
      ∀ q, ((scaleUpArc k it gm).1.mem q).cost =
        (gm.1.mem q).cost * k ^ (List.count q [it.2]) := by
  refine ⟨Graph.sameButCost_mulCost _ _ _, ?_⟩
  intro q
  simp only [scaleUpArc, Graph.mulCost_cost]
  by_cases h : q = it.2
  · subst h
    simp
  · have h2 : it.2 ≠ q := fun e => h e.symm
    simp [h, h2]

theorem scaleUpScan_spec (k : Int) :
    ∀ (l : List (Nat × Nat)) (gm : Graph × Int),
      gm.1.SameButCost (l.foldl (fun acc it => scaleUpArc k it acc) gm).1 ∧
      ∀ q, ((l.foldl (fun acc it => scaleUpArc k it acc) gm).1.mem q).cost =
        (gm.1.mem q).cost * k ^ (List.count q (l.map Prod.snd)) := by
  intro l
  induction l with
  | nil =>
    intro gm
    exact ⟨Graph.SameButCost.costRefl _, fun q => by simp⟩
  | cons it rest ih =>
    intro gm
    obtain ⟨h1, h2⟩ := scaleUpArc_spec k it gm
    obtain ⟨h3, h4⟩ := ih (scaleUpArc k it gm)
    refine ⟨h1.costTrans h3, ?_⟩
    intro q
    rw [List.foldl_cons, h4 q, h2 q, List.map_cons,
      show it.2 :: List.map Prod.snd rest = [it.2] ++ List.map Prod.snd rest from rfl,
      List.count_append, pow_add, mul_assoc]

theorem scaleUpNodes_spec (k : Int) :
    ∀ (nodes : List Nat) (gm : Graph × Int),
      gm.1.SameButCost (scaleUpNodes k nodes gm).1 ∧
      ∀ q, ((scaleUpNodes k nodes gm).1.mem q).cost =
        (gm.1.mem q).cost * k ^ (List.count q (gm.1.visited nodes)) := by
  intro nodes
  induction nodes with
  | nil =>
    intro gm
    exact ⟨Graph.SameButCost.costRefl _, fun q => by simp [scaleUpNodes, Graph.visited]⟩
  | cons u rest ih =>
    intro gm
    obtain ⟨h1, h2⟩ := scaleUpScan_spec k (gm.1.arcs u) gm
    obtain ⟨h3, h4⟩ := ih ((gm.1.arcs u).foldl (fun acc it => scaleUpArc k it acc) gm)
    refine ⟨h1.costTrans h3, ?_⟩
    intro q
    simp only [scaleUpNodes]
    rw [h4 q, h2 q]
    have hv : ∀ (g g1 : Graph), g.SameButCost g1 → g1.visited rest = g.visited rest := by
      intro g g1 h
      unfold Graph.visited
      rw [h.arcs]
    rw [hv _ _ h1]
    unfold Graph.visited
    rw [List.flatMap_cons, List.count_append, pow_add, mul_assoc]

/-- In a well-formed graph `scaleUpCosts` visits every `Arc` object once. -/
theorem Graph.Residual.count_visited {g : Graph} (hr : g.Residual) {u v p : Nat}
    (h : (v, p) ∈ g.arcs u) : List.count p (g.visited (List.range' 1 g.num_nodes)) = 1 := by
  apply List.count_eq_one_of_mem
  · unfold Graph.visited
    rw [List.nodup_flatMap]
    constructor
    · intro x _
      apply List.Nodup.map_on
      · intro a ha b hb hab
        obtain ⟨a1, a2⟩ := a
        obtain ⟨b1, b2⟩ := b
        simp only at hab
        subst hab
        have := (hr.noalias x a1 a2 x b1 ha hb).2
        rw [this]
      · exact List.Nodup.of_map Prod.fst (hr.keys x)
    · apply List.Nodup.pairwise_of_forall_ne (List.nodup_range' 1 g.num_nodes)
      intro a _ b _ hab
      intro q hqa hqb
      simp only [List.mem_map, Prod.exists, exists_eq_right] at hqa hqb
      obtain ⟨ya, hya⟩ := hqa
      obtain ⟨yb, hyb⟩ := hqb
      exact hab (hr.noalias a ya q b yb hya hyb).1
  · unfold Graph.visited
    rw [List.mem_flatMap]
    refine ⟨u, ?_, ?_⟩
    · have hu : ¬ (u = 0 ∨ g.num_nodes < u) := by
        intro hu
        rw [hr.nodes u hu] at h
        exact absurd h (List.not_mem_nil _)
      rw [List.mem_range']
      refine ⟨u - 1, ?_, ?_⟩ <;> omega
    · exact List.mem_map_of_mem Prod.snd h

/-- `scaleUpCosts` keeps the graph but for the costs, and multiplies the cost of every active arc
by `alpha * num_nodes`. -/
theorem scaleUpCosts_spec (powCeilLog : Int → Int → Int) (alpha : Int) (s : Solver) :
    s.graph_.SameButCost (scaleUpCosts powCeilLog alpha s).1.graph_ ∧
      (scaleUpCosts powCeilLog alpha s).1.potentials = s.potentials ∧
      (s.graph_.Residual → ∀ u v p, (v, p) ∈ s.graph_.arcs u →
        ((scaleUpCosts powCeilLog alpha s).1.graph_.mem p).cost =
          (s.graph_.mem p).cost * (alpha * (s.graph_.num_nodes : Int))) := by
  obtain ⟨h1, h2⟩ := scaleUpNodes_spec (alpha * (s.graph_.num_nodes : Int))
    (List.range' 1 s.graph_.num_nodes) (s.graph_, INT64_MIN)
  refine ⟨h1, rfl, ?_⟩
  intro hr u v p hvp
  have := h2 p
  simp only at this
  rw [hr.count_visited hvp, pow_one] at this
  exact this

/-! ## `arcsFixing`, `arcsUnfixing` and the loop of `costScaling` -/

/-- What one step of `arcsFixing` does: it touches neither the `Arc` objects, the demands nor the
potentials, and when the arc is fixed the active arcs lose exactly the two slots of the pair. -/
theorem arcsFixingArc_spec (u : Nat) (theta : Int) (it : Nat × Nat) (s : Solver) :
    (arcsFixingArc u theta it s).graph_.mem = s.graph_.mem ∧
    (arcsFixingArc u theta it s).potentials = s.potentials ∧
    (arcsFixingArc u theta it s).graph_.num_nodes = s.graph_.num_nodes ∧
    (arcsFixingArc u theta it s).graph_.nodes_demand = s.graph_.nodes_demand ∧
    (∀ x, ((arcsFixingArc u theta it s).graph_.arcs x).Sublist (s.graph_.arcs x)) ∧
    (∀ x y q, (y, q) ∈ (arcsFixingArc u theta it s).graph_.arcs x ↔
      ((y, q) ∈ s.graph_.arcs x ∧
        (reducedCost s u it > theta → ¬ (x = u ∧ y = it.1) ∧ ¬ (x = it.1 ∧ y = u)))) := by
  unfold arcsFixingArc
  by_cases hfix : reducedCost s u it > theta
  · rw [if_pos hfix]
    have himp : ∀ A : Prop, ((reducedCost s u it > theta → A) ↔ A) :=
      fun A => ⟨fun h => h hfix, fun h _ => h⟩
    refine ⟨rfl, rfl, rfl, rfl, ?_, ?_⟩
    · intro x
      dsimp only
      by_cases hx1 : x = it.1
      · subst hx1
        rw [Function.update_same]
        by_cases hx2 : it.1 = u
        · rw [hx2, Function.update_same]
          exact (ArcMap.erase_sublist _ _).trans (ArcMap.erase_sublist _ _)
        · rw [Function.update_noteq hx2]
          exact ArcMap.erase_sublist _ _
      · rw [Function.update_noteq hx1]
        by_cases hx2 : x = u
        · subst hx2
          rw [Function.update_same]
          exact ArcMap.erase_sublist _ _
        · rw [Function.update_noteq hx2]
    · intro x y q
      rw [himp]
      dsimp only
      by_cases hx1 : x = it.1
      · subst hx1
        rw [Function.update_same, ArcMap.mem_erase]
        by_cases hx2 : it.1 = u
        · rw [hx2, Function.update_same, ArcMap.mem_erase]
          constructor
          · rintro ⟨⟨h1, h2⟩, _⟩
            refine ⟨h1, ?_, ?_⟩ <;> intro hh <;> omega
          · rintro ⟨h1, h2, _⟩
            refine ⟨⟨h1, ?_⟩, ?_⟩ <;> omega
        · rw [Function.update_noteq hx2]
          constructor
          · rintro ⟨h1, h2⟩
            refine ⟨h1, ?_, ?_⟩ <;> intro hh <;> omega
          · rintro ⟨h1, _, h3⟩
            refine ⟨h1, ?_⟩
            omega
      · rw [Function.update_noteq hx1]
        by_cases hx2 : x = u
        · subst hx2
          rw [Function.update_same, ArcMap.mem_erase]
          constructor
          · rintro ⟨h1, h2⟩
            refine ⟨h1, ?_, ?_⟩ <;> intro hh <;> omega
          · rintro ⟨h1, h2, _⟩
            refine ⟨h1, ?_⟩
            omega
        · rw [Function.update_noteq hx2]
          constructor
          · intro h1
            refine ⟨h1, ?_, ?_⟩ <;> intro hh <;> omega
          · rintro ⟨h1, _⟩
            exact h1
  · rw [if_neg hfix]
    refine ⟨rfl, rfl, rfl, rfl, fun _ => List.Sublist.refl _, ?_⟩
    intro x y q
    exact ⟨fun h => ⟨h, fun hh => absurd hh hfix⟩, fun h => h.1⟩

/-- Fixing a pair keeps the residual graph well formed. -/
theorem arcsFixingArc_residual (u : Nat) (theta : Int) (it : Nat × Nat) (s : Solver)
    (hr : s.graph_.Residual) : (arcsFixingArc u theta it s).graph_.Residual := by
  obtain ⟨hmem, _, hnum, _, hsub, hiff⟩ := arcsFixingArc_spec u theta it s
  refine ⟨⟨?_, ?_, ?_⟩, ?_, ?_, ?_, ?_⟩
  · intro x
    exact (hr.keys x).sublist ((hsub x).map Prod.fst)
  · intro x y q h
    rw [hmem]
    obtain ⟨h1, h2⟩ := (hiff x y q).mp h
    refine (hiff y x _).mpr ⟨hr.mate x y q h1, ?_⟩
    intro hfix
    obtain ⟨h3, h4⟩ := h2 hfix
    exact ⟨fun hh => h4 ⟨hh.2, hh.1⟩, fun hh => h3 ⟨hh.2, hh.1⟩⟩
  · intro x y q h
    rw [hmem]
    exact hr.distinct x y q ((hiff x y q).mp h).1
  · intro x y q h
    rw [hmem]
    exact hr.antisym x y q ((hiff x y q).mp h).1
  · intro x y q x1 y1 h h1
    exact hr.noalias x y q x1 y1 ((hiff x y q).mp h).1 ((hiff x1 y1 q).mp h1).1
  · intro x hx
    rw [hnum] at hx
    have := hsub x
    rw [hr.nodes x hx] at this
    exact List.eq_nil_of_sublist_nil this
  · rw [hnum]
    exact hr.size

/-- An invariant of the steps of `arcsFixing` is an invariant of `arcsFixing`. -/
theorem arcsFixing_inv (Inv : Solver → Prop) (theta : Int)
    (hstep : ∀ u it s, Inv s → Inv (arcsFixingArc u theta it s)) :
    ∀ s, Inv s → Inv (arcsFixing theta s) := by
  have hscan : ∀ u (l : List (Nat × Nat)) s, Inv s → Inv (arcsFixingScan u theta l s) := by
    intro u l
    induction l with
    | nil =>
      intro s hI
      exact hI
    | cons it rest ih =>
      intro s hI
      exact ih _ (hstep u it s hI)
  have hnodes : ∀ (l : List Nat) s, Inv s → Inv (arcsFixingNodes theta l s) := by
    intro l
    induction l with
    | nil =>
      intro s hI
      exact hI
    | cons u rest ih =>
      intro s hI
      exact ih _ (hscan u _ s hI)
  intro s hI
  exact hnodes _ s hI

/-- `arcsFixing` keeps the residual graph well formed and the potentials `eps`-optimal, and leaves
the `Arc` objects and the potentials alone. -/
theorem arcsFixing_spec (theta : Int) (s : Solver) :
    (arcsFixing theta s).graph_.mem = s.graph_.mem ∧
    (arcsFixing theta s).potentials = s.potentials ∧
    (arcsFixing theta s).graph_.num_nodes = s.graph_.num_nodes ∧
    (arcsFixing theta s).graph_.nodes_demand = s.graph_.nodes_demand ∧
    (∀ x y q, (y, q) ∈ (arcsFixing theta s).graph_.arcs x → (y, q) ∈ s.graph_.arcs x) ∧
    (s.graph_.Residual → (arcsFixing theta s).graph_.Residual) := by
  refine arcsFixing_inv (fun t => t.graph_.mem = s.graph_.mem ∧ t.potentials = s.potentials ∧
    t.graph_.num_nodes = s.graph_.num_nodes ∧ t.graph_.nodes_demand = s.graph_.nodes_demand ∧
    (∀ x y q, (y, q) ∈ t.graph_.arcs x → (y, q) ∈ s.graph_.arcs x) ∧
    (s.graph_.Residual → t.graph_.Residual)) theta ?_ s
    ⟨rfl, rfl, rfl, rfl, fun _ _ _ h => h, fun h => h⟩
  intro u it t ht
  obtain ⟨h1, h2, h3, h4, _, h6⟩ := arcsFixingArc_spec u theta it t
  refine ⟨h1.trans ht.1, h2.trans ht.2.1, h3.trans ht.2.2.1, h4.trans ht.2.2.2.1, ?_, ?_⟩
  · intro x y q h
    exact ht.2.2.2.2.1 x y q ((h6 x y q).mp h).1
  · intro hr
    exact arcsFixingArc_residual u theta it t (ht.2.2.2.2.2 hr)

/-- `arcsUnfixing` leaves the `Arc` objects, the demands and the potentials alone. -/
theorem arcsUnfixing_spec (theta : Int) (s : Solver) :
    (arcsUnfixing theta s).graph_.mem = s.graph_.mem ∧
    (arcsUnfixing theta s).potentials = s.potentials ∧
    (arcsUnfixing theta s).graph_.num_nodes = s.graph_.num_nodes ∧
    (arcsUnfixing theta s).graph_.nodes_demand = s.graph_.nodes_demand := by
  have hscan : ∀ (l : List Nat) (t : Solver),
      (arcsUnfixingScan theta l t).1.graph_.mem = t.graph_.mem ∧
      (arcsUnfixingScan theta l t).1.potentials = t.potentials ∧
      (arcsUnfixingScan theta l t).1.graph_.num_nodes = t.graph_.num_nodes ∧
      (arcsUnfixingScan theta l t).1.graph_.nodes_demand = t.graph_.nodes_demand := by
    intro l
    induction l with
    | nil =>
      intro t
      exact ⟨rfl, rfl, rfl, rfl⟩
    | cons p rest ih =>
      intro t
      simp only [arcsUnfixingScan]
      split
      · obtain ⟨h1, h2, h3, h4⟩ := ih { t with graph_ := { t.graph_ with
          arcs := Function.update t.graph_.arcs (t.graph_.mem p).src_node_id
            ((t.graph_.arcs (t.graph_.mem p).src_node_id).assign
              (t.graph_.mem p).dst_node_id p) } }
        exact ⟨h1, h2, h3, h4⟩
      · exact ih t
  obtain ⟨h1, h2, h3, h4⟩ := hscan s.graph_.fixed_arcs s
  exact ⟨h1, h2, h3, h4⟩

/-- An invariant of the body is an invariant of the loop of `costScaling`. -/
theorem costScalingFor_inv {σ : Type} (body : Int → σ → Option σ) (Inv : σ → Prop)
    (hbody : ∀ eps st st1, Inv st → body eps st = some st1 → Inv st1) :
    ∀ (n : Nat) (alpha eps : Int) (st st1 : σ), Inv st →
      costScalingFor body n alpha eps st = some st1 → Inv st1 := by
  intro n
  induction n with
  | zero =>
    intro alpha eps st st1 hI h
    unfold costScalingFor at h
    split at h
    · simp at h
    · simp only [Option.some.injEq] at h
      exact h ▸ hI
  | succ n ih =>
    intro alpha eps st st1 hI h
    unfold costScalingFor at h
    split at h
    · simp only at h
      cases hb : body eps st with
      | none => simp [hb] at h
      | some st2 =>
        simp only [hb] at h
        exact ih alpha _ st2 st1 (hbody eps st st2 hI hb) h
    · simp only [Option.some.injEq] at h
      exact h ▸ hI

/-- The steps `costScaling` goes through when it returns. -/
theorem costScaling_eq {powCeilLog : Int → Int → Int} {alpha : Int} {fuel : Nat}
    {s s1 : Solver} (h : costScaling powCeilLog alpha fuel s = some s1) :
    alpha ≠ 0 ∧ ∃ s2,
      costScalingLoop powCeilLog alpha fuel s = some s2 ∧
      costScalingFor (costScalingBody fuel ((s.graph_.num_nodes + 1) % UINT32)) fuel alpha
        (Int.tdiv (scaleUpCosts powCeilLog alpha s).2 alpha)
        (scaleUpCosts powCeilLog alpha
          { s with potentials := fun _ => 0, relabel_cnt := 0, pushes_cnt := 0 }).1 = some s2 ∧
      s1 = arcsUnfixing INT64_MAX s2 := by
  unfold costScaling at h
  cases hl : costScalingLoop powCeilLog alpha fuel s with
  | none => simp [hl] at h
  | some s2 =>
    simp only [hl, Option.some.injEq] at h
    have hl2 := hl
    unfold costScalingLoop at hl2
    simp only at hl2
    by_cases ha : alpha = 0
    · simp [ha] at hl2
    · rw [if_neg ha] at hl2
      exact ⟨ha, s2, rfl, hl2, h.symm⟩

theorem costScalingBody_eq {fuel num_nodes : Nat} {eps : Int} {s s1 : Solver}
    (h : costScalingBody fuel num_nodes eps s = some s1) :
    ∃ s2, refine fuel eps s = some s2 ∧ s1 = arcsFixing (fixThreshold num_nodes eps) s2 := by
  unfold costScalingBody at h
  cases hr : refine fuel eps s with
  | none => simp [hr] at h
  | some s2 =>
    simp only [hr, Option.some.injEq] at h
    exact ⟨s2, rfl, h.symm⟩

/-- After `scaleUpCosts` no statement of `costScaling` changes a cost. -/
theorem costScaling_cost {powCeilLog : Int → Int → Int} {alpha : Int} {fuel : Nat}
    {s s1 : Solver} (h : costScaling powCeilLog alpha fuel s = some s1) (p : Nat) :
    (s1.graph_.mem p).cost = ((scaleUpCosts powCeilLog alpha s).1.graph_.mem p).cost := by
  obtain ⟨_, s2, _, hloop, rfl⟩ := costScaling_eq h
  rw [(arcsUnfixing_spec INT64_MAX s2).1]
  have key := costScalingFor_inv (costScalingBody fuel ((s.graph_.num_nodes + 1) % UINT32))
    (fun t => ∀ q, (t.graph_.mem q).cost = ((scaleUpCosts powCeilLog alpha s).1.graph_.mem q).cost)
    ?_ fuel alpha _ _ s2 ?_ hloop
  · exact key p
  · intro eps st st1 hI hb
    obtain ⟨st2, hr, rfl⟩ := costScalingBody_eq hb
    intro q
    rw [(arcsFixing_spec _ st2).1, (refine_sameShape hr).cost]
    exact hI q
  · intro q
    rfl

/-- C7. Cost scaling and its inverse agree.  On a well-formed graph `scaleUpCosts` multiplies
the cost of every arc entry, forward and reverse alike, by `alpha * N` once; the `scale_down` that
`main` passes to `writeGraph` is `alpha * N` for `cost_scaling` and 1 for every other algorithm;
so when `costScaling` returns, the stored cost of every arc divided by `scale_down` is its
original cost. -/
theorem cost_scaling_round_trip (powCeilLog : Int → Int → Int) (alpha : Int) (s : Solver)
    (hr : s.graph_.Residual) :
    (∀ u v p, (v, p) ∈ s.graph_.arcs u →
      ((scaleUpCosts powCeilLog alpha s).1.graph_.mem p).cost =
        (s.graph_.mem p).cost * (alpha * (s.graph_.num_nodes : Int))) ∧
    mainScaleDown "cost_scaling" alpha s.graph_ = alpha * (s.graph_.num_nodes : Int) ∧
    (∀ algorithm, algorithm ≠ "cost_scaling" → mainScaleDown algorithm alpha s.graph_ = 1) ∧
    (∀ fuel s1, costScaling powCeilLog alpha fuel s = some s1 →
      ∀ u v p, (v, p) ∈ s.graph_.arcs u →
        Int.tdiv (s1.graph_.mem p).cost (mainScaleDown "cost_scaling" alpha s.graph_) =
          (s.graph_.mem p).cost) := by
  have hscale := (scaleUpCosts_spec powCeilLog alpha s).2.2 hr
  have hmain : mainScaleDown "cost_scaling" alpha s.graph_ =
      alpha * (s.graph_.num_nodes : Int) := by
    unfold mainScaleDown
    simp
  refine ⟨hscale, hmain, ?_, ?_⟩
  · intro algorithm hne
    unfold mainScaleDown
    split_ifs <;> rfl
  · intro fuel s1 h u v p hvp
    obtain ⟨ha, _⟩ := costScaling_eq h
    rw [costScaling_cost h p, hscale u v p hvp, hmain]
    apply Int.mul_tdiv_cancel
    have hu : ¬ (u = 0 ∨ s.graph_.num_nodes < u) := by
      intro hu
      rw [hr.nodes u hu] at hvp
      exact absurd hvp (List.not_mem_nil _)
    have hN : (s.graph_.num_nodes : Int) ≠ 0 := by omega
    exact mul_ne_zero ha hN

theorem cost_scaling_round_trip_witness :
    demoSolver.graph_.Residual ∧
      (costScaling (fun _ _ => 4) 2 20 demoSolver).map
        (fun t => Int.tdiv (t.graph_.mem 0).cost
          (mainScaleDown "cost_scaling" 2 demoSolver.graph_)) = some 1 := by
  refine ⟨demoGraph_residual, ?_⟩
  cases h : costScaling (fun _ _ => 4) 2 20 demoSolver with
  | none =>
    have hsome : (costScaling (fun _ _ => 4) 2 20 demoSolver).isSome = true := by decide!
    rw [h] at hsome
    exact absurd hsome (by decide)
  | some s1 =>
    have key := (cost_scaling_round_trip (fun _ _ => 4) 2 demoSolver demoGraph_residual).2.2.2
      20 s1 h 1 2 0 (by decide)
    simp only [Option.map_some', Option.some.injEq]
    rw [key]
    rfl

/-- The excess of the discharged node after the `for` body of `discharge`. -/
theorem dischargeArc_demand {node_id : Nat} {it : Nat × Nat} {s s1 : Solver} {b b1 : Bool}
    (hp : s.graph_.Paired) (hit : it ∈ s.graph_.arcs node_id)
    (h : dischargeArc node_id it s b = some (s1, b1))
    (hadm : reducedCost s node_id it < 0 ∧ 0 < (s.graph_.mem it.2).cap) :
    s1.graph_.nodes_demand node_id = s.graph_.nodes_demand node_id -
      min (s.graph_.nodes_demand node_id) (s.graph_.mem it.2).cap := by
  obtain ⟨v, p⟩ := it
  have hv : node_id ≠ v := by
    intro hv
    subst hv
    exact hp.no_loop hit
  rcases dischargeArc_cases h with ⟨hno, _, _⟩ | ⟨_, _, _, r, _, rfl⟩
  · exact absurd hadm hno
  · simp only [Graph.addDemand_nodes_demand, Graph.addCap_nodes_demand, hv, if_false, if_true]
    ring

/-- The `for` body of `discharge`, entered with an excess that is not negative, keeps the
capacities and the excess of the discharged node from becoming negative. -/
theorem dischargeArc_capsNonneg {node_id : Nat} {it : Nat × Nat} {s s1 : Solver} {b b1 : Bool}
    (hp : s.graph_.Paired) (hit : it ∈ s.graph_.arcs node_id)
    (hc : s.CapsNonneg) (hd : 0 ≤ s.graph_.nodes_demand node_id)
    (h : dischargeArc node_id it s b = some (s1, b1)) :
    s1.CapsNonneg ∧ 0 ≤ s1.graph_.nodes_demand node_id := by
  by_cases hadm : reducedCost s node_id it < 0 ∧ 0 < (s.graph_.mem it.2).cap
  · have hcap := dischargeArc_cap hp hit h hadm
    have hdem := dischargeArc_demand hp hit h hadm
    have hs := dischargeArc_sameShape h
    refine ⟨?_, ?_⟩
    · intro x y q hq
      rw [hs.arcs] at hq
      have hq0 := hc x y q hq
      rw [hcap q]
      split_ifs <;> omega
    · rw [hdem]
      omega
  · rcases dischargeArc_cases h with ⟨_, rfl, _⟩ | ⟨h1, h2, _⟩
    · exact ⟨hc, hd⟩
    · exact absurd ⟨h1, h2⟩ hadm

/-- A saturating push keeps the capacities from becoming negative. -/
theorem saturateArc_capsNonneg {node_id : Nat} {it : Nat × Nat} {s s1 : Solver}
    (hp : s.graph_.Paired) (hit : it ∈ s.graph_.arcs node_id) (hc : s.CapsNonneg)
    (h : saturateArc node_id it s = some s1) : s1.CapsNonneg := by
  by_cases hadm : reducedCost s node_id it < 0
  · have hcap := saturateArc_cap hp hit h hadm
    have hs := saturateArc_sameShape h
    intro x y q hq
    rw [hs.arcs] at hq
    have hq0 := hc x y q hq
    have hp0 := hc node_id it.1 it.2 hit
    rw [hcap q]
    split_ifs <;> omega
  · rcases saturateArc_cases h with ⟨_, rfl⟩ | ⟨h1, _⟩
    · exact hc
    · exact absurd h1 hadm

/-- A scan of `discharge` entered with an excess that is not negative. -/
theorem dischargeScan_capsNonneg {node_id : Nat} {l : List (Nat × Nat)} {s s1 : Solver}
    {b b1 : Bool} (hp : s.graph_.Paired) (hl : ∀ it ∈ l, it ∈ s.graph_.arcs node_id)
    (hc : s.CapsNonneg) (hd : 0 ≤ s.graph_.nodes_demand node_id)
    (h : dischargeScan node_id l s b = some (s1, b1)) :
    s.graph_.SameShape s1.graph_ ∧ s1.CapsNonneg ∧ 0 ≤ s1.graph_.nodes_demand node_id := by
  refine dischargeScan_inv (fun t => s.graph_.SameShape t.graph_ ∧ t.CapsNonneg ∧
    0 ≤ t.graph_.nodes_demand node_id) node_id ?_ l s b s1 b1 hl
    ⟨Graph.SameShape.refl _, hc, hd⟩ h
  intro it t b2 t1 b3 hit ht hs
  obtain ⟨h1, h2⟩ := dischargeArc_capsNonneg (hp.of_sameShape ht.1) hit ht.2.1 ht.2.2 hs
  exact ⟨ht.1.trans (dischargeArc_sameShape hs), h1, h2⟩

/-- The `while` loop of `discharge` keeps the capacities from becoming negative. -/
theorem dischargeLoop_capsNonneg {node_id : Nat} {eps : Int} :
    ∀ (fuel : Nat) (s s1 : Solver), s.graph_.Paired → s.CapsNonneg →
      dischargeLoop fuel node_id eps s = some s1 →
      s.graph_.SameShape s1.graph_ ∧ s1.CapsNonneg := by
  intro fuel
  induction fuel with
  | zero =>
    intro s s1 _ hc h
    unfold dischargeLoop at h
    split at h
    · simp at h
    · simp only [Option.some.injEq] at h
      subst h
      exact ⟨Graph.SameShape.refl _, hc⟩
  | succ fuel ih =>
    intro s s1 hp hc h
    unfold dischargeLoop at h
    split at h
    · rename_i hpos
      simp only at h
      cases hs : dischargeScan node_id (s.graph_.arcs node_id) s false with
      | none => simp [hs] at h
      | some r =>
        obtain ⟨s2, b2⟩ := r
        simp only [hs] at h
        obtain ⟨h1, h2, _⟩ := dischargeScan_capsNonneg hp (fun _ hh => hh) hc (by omega) hs
        have hstep : ∀ t : Solver, t.graph_ = s2.graph_ →
            dischargeLoop fuel node_id eps t = some s1 →
            s.graph_.SameShape s1.graph_ ∧ s1.CapsNonneg := by
          intro t ht hloop
          have hs2 : s.graph_.SameShape t.graph_ := ht ▸ h1
          have hc2 : t.CapsNonneg := by
            intro x y q hq
            rw [ht] at hq ⊢
            exact h2 x y q hq
          obtain ⟨h3, h4⟩ := ih t s1 (hp.of_sameShape hs2) hc2 hloop
          exact ⟨hs2.trans h3, h4⟩
        cases b2 with
        | true => exact hstep s2 rfl h
        | false => exact hstep (relabel node_id eps s2) rfl h
    · simp only [Option.some.injEq] at h
      subst h
      exact ⟨Graph.SameShape.refl _, hc⟩

/-- An invariant of `discharge` that does not depend on the queue is an invariant of the
discharge loop of `refine`. -/
theorem refineLoop_inv_discharge (Inv : Solver → Prop) (eps : Int)
    (hq : ∀ s q, Inv s → Inv { s with active_nodes := q })
    (hdis : ∀ node_id fuel s s1, Inv s → dischargeLoop fuel node_id eps s = some s1 → Inv s1) :
    ∀ n fuel s s1, Inv s → refineLoop n fuel eps s = some s1 → Inv s1 := by
  intro n
  induction n with
  | zero =>
    intro fuel s s1 hI h
    unfold refineLoop at h
    split at h
    · simp only [Option.some.injEq] at h
      exact h ▸ hI
    · simp at h
  | succ n ih =>
    intro fuel s s1 hI h
    unfold refineLoop at h
    split at h
    · simp only [Option.some.injEq] at h
      exact h ▸ hI
    · simp only at h
      cases hd : discharge fuel eps s with
      | none => simp [hd] at h
      | some s2 =>
        simp only [hd] at h
        refine ih fuel s2 s1 ?_ h
        unfold discharge at hd
        cases hact : s.active_nodes with
        | nil => simp [hact] at hd
        | cons node rest =>
          simp only [hact] at hd
          exact hdis node fuel _ s2 (hq s rest hI) hd

/-- `refine` keeps the capacities from becoming negative. -/
theorem refine_capsNonneg {fuel : Nat} {eps : Int} {s s1 : Solver} (hp : s.graph_.Paired)
    (hc : s.CapsNonneg) (h : refine fuel eps s = some s1) : s1.CapsNonneg := by
  obtain ⟨s2, hsat, hloop⟩ := refine_eq h
  have h2 := saturateNodes_inv (fun t => s.graph_.SameShape t.graph_ ∧ t.CapsNonneg) ?_ _ s s2
    ⟨Graph.SameShape.refl _, hc⟩ hsat
  · have key := refineLoop_inv_discharge
      (fun t => s.graph_.SameShape t.graph_ ∧ t.CapsNonneg) eps ?_ ?_ fuel fuel _ s1 ?_ hloop
    · exact key.2
    · intro t q ht
      exact ht
    · intro node_id fuel1 t t1 ht hd
      obtain ⟨h3, h4⟩ := dischargeLoop_capsNonneg fuel1 t t1 (hp.of_sameShape ht.1) ht.2 hd
      exact ⟨ht.1.trans h3, h4⟩
    · exact h2
  · intro node_id it t t1 hit ht hs
    exact ⟨ht.1.trans (saturateArc_sameShape hs),
      saturateArc_capsNonneg (hp.of_sameShape ht.1) hit ht.2 hs⟩

/-- C6. Push bounds.  In a paired residual graph: (1) the `for` body of `discharge`, entered at
an arc of node `u` with `excess(u) ≥ 0`, either changes nothing or finds `cap > 0` and reduced
cost `< 0` and pushes `f = min(excess(u), cap)` units, with `0 ≤ f ≤ cap`, and leaves
`excess(u) - f ≥ 0`; (2) in a scan that `discharge` starts with `excess(u) > 0` and capacities
`≥ 0`, the excess of `u` and all capacities are `≥ 0` before every arc of the scan; (3) a
saturating push of `refine`, `discharge` and `refine` keep all capacities `≥ 0`. -/
theorem discharge_push_bounds (s : Solver) (hp : s.graph_.Paired) :
    (∀ node_id it b s1 b1, it ∈ s.graph_.arcs node_id → 0 ≤ s.graph_.nodes_demand node_id →
      dischargeArc node_id it s b = some (s1, b1) →
      (¬ (reducedCost s node_id it < 0 ∧ 0 < (s.graph_.mem it.2).cap) ∧ s1 = s) ∨
      (reducedCost s node_id it < 0 ∧ 0 < (s.graph_.mem it.2).cap ∧
        0 ≤ min (s.graph_.nodes_demand node_id) (s.graph_.mem it.2).cap ∧
        min (s.graph_.nodes_demand node_id) (s.graph_.mem it.2).cap ≤ (s.graph_.mem it.2).cap ∧
        (s1.graph_.mem it.2).cap = (s.graph_.mem it.2).cap -
          min (s.graph_.nodes_demand node_id) (s.graph_.mem it.2).cap ∧
        (s1.graph_.mem (s.graph_.mem it.2).reverse_arc).cap =
          (s.graph_.mem (s.graph_.mem it.2).reverse_arc).cap +
            min (s.graph_.nodes_demand node_id) (s.graph_.mem it.2).cap ∧
        s1.graph_.nodes_demand node_id = s.graph_.nodes_demand node_id -
          min (s.graph_.nodes_demand node_id) (s.graph_.mem it.2).cap ∧
        0 ≤ s1.graph_.nodes_demand node_id)) ∧
    (∀ node_id l1 it l2 b t, s.graph_.arcs node_id = l1 ++ it :: l2 →
      0 < s.graph_.nodes_demand node_id → s.CapsNonneg →
      dischargeScan node_id l1 s false = some (t, b) →
      0 ≤ t.graph_.nodes_demand node_id ∧ t.CapsNonneg) ∧
    (s.CapsNonneg →
      (∀ node_id it s1, it ∈ s.graph_.arcs node_id → saturateArc node_id it s = some s1 →
        s1.CapsNonneg) ∧
      (∀ fuel eps s1, discharge fuel eps s = some s1 → s1.CapsNonneg) ∧
      (∀ fuel eps s1, refine fuel eps s = some s1 → s1.CapsNonneg)) := by
  refine ⟨?_, ?_, ?_⟩
  · intro node_id it b s1 b1 hit hd h
    by_cases hadm : reducedCost s node_id it < 0 ∧ 0 < (s.graph_.mem it.2).cap
    · right
      have hcap := dischargeArc_cap hp hit h hadm
      have hdem := dischargeArc_demand hp hit h hadm
      have hdist := hp.distinct node_id it.1 it.2 hit
      refine ⟨hadm.1, hadm.2, by omega, by omega, ?_, ?_, hdem, by omega⟩
      · rw [hcap it.2]
        simp
      · rw [hcap (s.graph_.mem it.2).reverse_arc]
        simp [hdist]
    · left
      rcases dischargeArc_cases h with ⟨_, rfl, _⟩ | ⟨h1, h2, _⟩
      · exact ⟨hadm, rfl⟩
      · exact absurd ⟨h1, h2⟩ hadm
  · intro node_id l1 it l2 b t hl hd hc h
    have hl1 : ∀ e ∈ l1, e ∈ s.graph_.arcs node_id := by
      intro e he
      rw [hl]
      exact List.mem_append_left _ he
    obtain ⟨_, h1, h2⟩ := dischargeScan_capsNonneg hp hl1 hc (by omega) h
    exact ⟨h2, h1⟩
  · intro hc
    refine ⟨?_, ?_, ?_⟩
    · intro node_id it s1 hit h
      exact saturateArc_capsNonneg hp hit hc h
    · intro fuel eps s1 h
      unfold discharge at h
      cases hact : s.active_nodes with
      | nil => simp [hact] at h
      | cons node rest =>
        simp only [hact] at h
        exact (dischargeLoop_capsNonneg fuel { s with active_nodes := rest } s1 hp hc h).2
    · intro fuel eps s1 h
      exact refine_capsNonneg hp hc h

theorem discharge_push_bounds_witness :
    demoSolver.graph_.Paired ∧
      (refine 10 1 demoSolver).map
        (fun t => decide (0 ≤ (t.graph_.mem 0).cap ∧ 0 ≤ (t.graph_.mem 1).cap)) = some true := by
  refine ⟨demoGraph_paired, ?_⟩
  have hc : demoSolver.CapsNonneg := by
    intro u v p h
    rcases u with _ | _ | _ | u <;> simp [demoSolver, demoGraph] at h
    · obtain ⟨rfl, rfl⟩ := h
      decide
    · obtain ⟨rfl, rfl⟩ := h
      decide
  cases h : refine 10 1 demoSolver with
  | none =>
    have hsome : (refine 10 1 demoSolver).isSome = true := by decide!
    rw [h] at hsome
    exact absurd hsome (by decide)
  | some s1 =>
    have key := (discharge_push_bounds demoSolver demoGraph_paired).2.2 hc
    have hcaps := key.2.2 10 1 s1 h
    have harcs := (refine_sameShape h).arcs
    simp only [Option.map_some', Option.some.injEq, decide_eq_true_eq]
    refine ⟨hcaps 1 2 0 ?_, hcaps 2 1 1 ?_⟩
    · rw [harcs]
      decide
    · rw [harcs]
      decide

/-! ## Instances -/

/-- C3, failing input.  On the feasible instance `zeroCostGraph` the largest scaled cost is 0, so
the start value `pow(2, ceil(log(0) / log(2)))` is `pow(2, -inf) = 0`, the loop of `costScaling`
never runs and `costScaling` returns with no flow on the arc `1 → 2`, although node 1 has
supply 1: the outflow of node 1 is 0 and its `nodes_demand` is still 1. -/
theorem costScaling_zero_cost_no_flow :
    (scaleUpCosts (fun _ m => m) 2 zeroCostSolver).2 = 0 ∧
    (costScaling (fun _ _ => 0) 2 10 zeroCostSolver).map
      (fun t => (t.graph_.arcs 1, (t.graph_.mem 0).initial_cap - (t.graph_.mem 0).cap,
        t.graph_.nodes_demand 1)) = some ([(2, 0)], 0, 1) := by
  decide!

/-- The transportation instance with `alpha = 2`, largest scaled cost 24 and start value 32:
`costScaling` returns with flow 4 on `(1,3)`, 1 on `(1,4)`, 0 on `(2,3)` and 3 on `(2,4)`, no
excess, and total cost `4 * 1 + 1 * 2 + 0 * 3 + 3 * 1 = 9` in the original costs. -/
theorem costScaling_transport :
    (scaleUpCosts (fun _ m => m) 2 transportSolver).2 = 24 ∧
    (costScaling (fun _ _ => 32) 2 100 transportSolver).map
      (fun t => ([0, 2, 4, 6].map (fun p => (t.graph_.mem p).initial_cap - (t.graph_.mem p).cap),
        [1, 2, 3, 4].map t.graph_.nodes_demand,
        ([0, 2, 4, 6].map (fun p => ((t.graph_.mem p).initial_cap - (t.graph_.mem p).cap) *
          Int.tdiv (t.graph_.mem p).cost (mainScaleDown "cost_scaling" 2 t.graph_))).sum)) =
      some ([4, 1, 0, 3], [0, 0, 0, 0], 9) := by
  decide!

/-! ## Sums over the arc entries -/

theorem Graph.Residual.node_range {g : Graph} (hr : g.Residual) {u v p : Nat}
    (h : (v, p) ∈ g.arcs u) : 1 ≤ u ∧ u ≤ g.num_nodes := by
  have hu : ¬ (u = 0 ∨ g.num_nodes < u) := by
    intro hu
    rw [hr.nodes u hu] at h
    exact absurd h (List.not_mem_nil _)
  omega

theorem mem_range_one {n u : Nat} : u ∈ List.range' 1 n ↔ 1 ≤ u ∧ u ≤ n := by
  rw [List.mem_range']
  constructor
  · rintro ⟨i, hi, rfl⟩
    omega
  · rintro ⟨h1, h2⟩
    exact ⟨u - 1, by omega, by omega⟩

theorem Graph.Residual.nodup_arcs {g : Graph} (hr : g.Residual) (u : Nat) :
    (g.arcs u).Nodup :=
  List.Nodup.of_map Prod.fst (hr.keys u)

theorem Graph.Residual.nodup_entryList {g : Graph} (hr : g.Residual) : g.entryList.Nodup := by
  unfold Graph.entryList
  rw [List.nodup_flatMap]
  constructor
  · intro u _
    apply List.Nodup.map_on
    · intro a _ b _ hab
      simp only [Prod.mk.injEq, true_and] at hab
      exact Prod.ext hab.1 hab.2
    · exact hr.nodup_arcs u
  · apply List.Nodup.pairwise_of_forall_ne (List.nodup_range' 1 g.num_nodes)
    intro a _ b _ hab
    intro e hea heb
    simp only [List.mem_map] at hea heb
    obtain ⟨_, _, rfl⟩ := hea
    obtain ⟨_, _, heq⟩ := heb
    simp only [Prod.mk.injEq] at heq
    exact hab heq.1.symm

theorem Walk.arcs {A : Nat → Nat → Nat → Prop} {u w : Nat} {l : List (Nat × Nat × Nat)}
    (h : Walk A u w l) : ∀ e ∈ l, A e.1 e.2.1 e.2.2 := by
  induction h with
  | nil u =>
    intro e he
    exact absurd he (List.not_mem_nil _)
  | cons h1 _ ih =>
    intro e he
    rcases List.mem_cons.mp he with rfl | he
    · exact h1
    · exact ih e he

/-- The demands after a push of `discharge`. -/
theorem dischargeArc_nodes_demand {node_id : Nat} {it : Nat × Nat} {s s1 : Solver} {b b1 : Bool}
    (hp : s.graph_.Paired) (hit : it ∈ s.graph_.arcs node_id)
    (h : dischargeArc node_id it s b = some (s1, b1))
    (hadm : reducedCost s node_id it < 0 ∧ 0 < (s.graph_.mem it.2).cap) (z : Nat) :
    s1.graph_.nodes_demand z = s.graph_.nodes_demand z -
      (if node_id = z then min (s.graph_.nodes_demand node_id) (s.graph_.mem it.2).cap else 0) +
      (if it.1 = z then min (s.graph_.nodes_demand node_id) (s.graph_.mem it.2).cap else 0) := by
  obtain ⟨v, p⟩ := it
  have hv : node_id ≠ v := by
    intro hv
    subst hv
    exact hp.no_loop hit
  rcases dischargeArc_cases h with ⟨hno, _, _⟩ | ⟨_, _, _, r, _, rfl⟩
  · exact absurd hadm hno
  · simp only [Graph.addDemand_nodes_demand, Graph.addCap_nodes_demand]
    by_cases h1 : z = v
    · subst h1
      simp only [if_true, if_neg hv.symm, if_neg hv]
      ring
    · by_cases h2 : z = node_id
      · subst h2
        simp only [if_true, if_neg h1, if_neg (Ne.symm h1)]
        ring
      · simp only [if_neg h1, if_neg h2, if_neg (Ne.symm h1), if_neg (Ne.symm h2)]
        ring

theorem singleNodeGraph_residual : singleNodeGraph.Residual := by
  refine ⟨⟨?_, ?_, ?_⟩, ?_, ?_, ?_, ?_⟩
  · intro u
    simp [singleNodeGraph]
  · intro u v p h
    simp [singleNodeGraph] at h
  · intro u v p h
    simp [singleNodeGraph] at h
  · intro u v p h
    simp [singleNodeGraph] at h
  · intro u v p u1 v1 h
    simp [singleNodeGraph] at h
  · intro u _
    rfl
  · decide

theorem singleNodeGraph_fresh : singleNodeGraph.Fresh := by
  refine ⟨?_, ?_⟩
  · intro u v p h
    simp [singleNodeGraph] at h
  · intro u v p h
    simp [singleNodeGraph] at h

/-- A step of `arcsFixing` keeps the arcs paired. -/
theorem arcsFixingArc_paired (u : Nat) (theta : Int) (it : Nat × Nat) (s : Solver)
    (hp : s.graph_.Paired) : (arcsFixingArc u theta it s).graph_.Paired := by
  obtain ⟨hmem, _, _, _, hsub, hiff⟩ := arcsFixingArc_spec u theta it s
  refine ⟨?_, ?_, ?_⟩
  · intro x
    exact (hp.keys x).sublist ((hsub x).map Prod.fst)
  · intro x y q h
    rw [hmem]
    obtain ⟨h1, h2⟩ := (hiff x y q).mp h
    refine (hiff y x _).mpr ⟨hp.mate x y q h1, ?_⟩
    intro hfix
    obtain ⟨h3, h4⟩ := h2 hfix
    exact ⟨fun hh => h4 ⟨hh.2, hh.1⟩, fun hh => h3 ⟨hh.2, hh.1⟩⟩
  · intro x y q h
    rw [hmem]
    exact hp.distinct x y q ((hiff x y q).mp h).1

/-- The list `fixed_arcs` after a step of `arcsFixing`. -/
theorem arcsFixingArc_fixed (u : Nat) (theta : Int) (it : Nat × Nat) (s : Solver) :
    (arcsFixingArc u theta it s).graph_.fixed_arcs =
      if reducedCost s u it > theta then
        (s.graph_.mem it.2).reverse_arc :: it.2 :: s.graph_.fixed_arcs
      else s.graph_.fixed_arcs := by
  unfold arcsFixingArc
  split_ifs <;> rfl

/-- A step of `arcsFixing` does not change a reduced cost. -/
theorem arcsFixingArc_reducedCost (u : Nat) (theta : Int) (it : Nat × Nat) (s : Solver)
    (x : Nat) (e : Nat × Nat) :
    reducedCost (arcsFixingArc u theta it s) x e = reducedCost s x e := by
  obtain ⟨hmem, hpot, _⟩ := arcsFixingArc_spec u theta it s
  unfold reducedCost
  rw [hmem, hpot]

/-- An invariant of the steps of `arcsFixing` at entries that are active when they are visited, on
states with paired arcs, is an invariant of `arcsFixing`. -/
theorem arcsFixing_inv_paired (Inv : Solver → Prop) (theta : Int)
    (hpair : ∀ s, Inv s → s.graph_.Paired)
    (hstep : ∀ u it s, it ∈ s.graph_.arcs u → Inv s → Inv (arcsFixingArc u theta it s)) :
    ∀ s, Inv s → Inv (arcsFixing theta s) := by
  have hscan : ∀ u (l : List (Nat × Nat)) s, Inv s → (l.map Prod.fst).Nodup →
      (∀ it ∈ l, it ∈ s.graph_.arcs u) → Inv (arcsFixingScan u theta l s) := by
    intro u l
    induction l with
    | nil =>
      intro s hI _ _
      exact hI
    | cons it rest ih =>
      intro s hI hnd hmem
      have hit := hmem it (List.mem_cons_self _ _)
      rw [List.map_cons, List.nodup_cons] at hnd
      refine ih _ (hstep u it s hit hI) hnd.2 ?_
      intro it1 h1
      obtain ⟨_, _, _, _, _, hiff⟩ := arcsFixingArc_spec u theta it s
      obtain ⟨v1, p1⟩ := it1
      refine (hiff u v1 p1).mpr ⟨hmem _ (List.mem_cons_of_mem _ h1), ?_⟩
      intro _
      refine ⟨?_, ?_⟩
      · rintro ⟨_, hv⟩
        apply hnd.1
        rw [← hv]
        exact List.mem_map.mpr ⟨(v1, p1), h1, rfl⟩
      · rintro ⟨hu, _⟩
        have hh := hit
        rw [hu] at hh
        exact (hpair s hI).no_loop hh
  have hnodes : ∀ (l : List Nat) s, Inv s → Inv (arcsFixingNodes theta l s) := by
    intro l
    induction l with
    | nil =>
      intro s hI
      exact hI
    | cons u rest ih =>
      intro s hI
      exact ih _ (hscan u _ s hI ((hpair s hI).keys u) (fun _ h => h))
  intro s hI
  exact hnodes _ s hI

/-- The scan of `arcsFixing` at a node leaves no visited entry of reduced cost above the
threshold active. -/
theorem arcsFixingScan_done (u : Nat) (theta : Int) :
    ∀ (l : List (Nat × Nat)) (s : Solver),
      (∀ x e, reducedCost (arcsFixingScan u theta l s) x e = reducedCost s x e) ∧
      (∀ x y q, (y, q) ∈ (arcsFixingScan u theta l s).graph_.arcs x → (y, q) ∈ s.graph_.arcs x) ∧
      (∀ it ∈ l, reducedCost s u it > theta → it ∉ (arcsFixingScan u theta l s).graph_.arcs u) := by
  intro l
  induction l with
  | nil =>
    intro s
    exact ⟨fun _ _ => rfl, fun _ _ _ h => h, fun it hit => absurd hit (List.not_mem_nil _)⟩
  | cons it0 rest ih =>
    intro s
    obtain ⟨h1, h2, h3⟩ := ih (arcsFixingArc u theta it0 s)
    obtain ⟨_, _, _, _, _, hiff⟩ := arcsFixingArc_spec u theta it0 s
    have hrc := arcsFixingArc_reducedCost u theta it0 s
    refine ⟨fun x e => (h1 x e).trans (hrc x e), ?_, ?_⟩
    · intro x y q h
      exact ((hiff x y q).mp (h2 x y q h)).1
    · intro it hit hfix hmem
      rcases List.mem_cons.mp hit with rfl | hr
      · have := h2 u it.1 it.2 hmem
        exact ((hiff u it.1 it.2).mp this).2 hfix |>.1 ⟨rfl, rfl⟩
      · exact h3 it hr (by rw [hrc]; exact hfix) hmem

/-- The loop of `arcsFixing` leaves, at the nodes it visited, no entry of reduced cost above the
threshold active. -/
theorem arcsFixingNodes_done (theta : Int) :
    ∀ (nodes : List Nat) (s : Solver),
      (∀ x e, reducedCost (arcsFixingNodes theta nodes s) x e = reducedCost s x e) ∧
      (∀ x y q, (y, q) ∈ (arcsFixingNodes theta nodes s).graph_.arcs x →
        (y, q) ∈ s.graph_.arcs x) ∧
      (∀ u ∈ nodes, ∀ it ∈ (arcsFixingNodes theta nodes s).graph_.arcs u,
        ¬ reducedCost s u it > theta) := by
  intro nodes
  induction nodes with
  | nil =>
    intro s
    exact ⟨fun _ _ => rfl, fun _ _ _ h => h, fun u hu => absurd hu (List.not_mem_nil _)⟩
  | cons u0 rest ih =>
    intro s
    obtain ⟨h1, h2, h3⟩ := ih (arcsFixingScan u0 theta (s.graph_.arcs u0) s)
    obtain ⟨g1, g2, g3⟩ := arcsFixingScan_done u0 theta (s.graph_.arcs u0) s
    refine ⟨fun x e => (h1 x e).trans (g1 x e), fun x y q h => g2 x y q (h2 x y q h), ?_⟩
    intro u hu it hit hfix
    obtain ⟨v, p⟩ := it
    have hin := h2 u v p hit
    by_cases hu0 : u = u0
    · subst hu0
      exact g3 (v, p) (g2 u v p hin) hfix hin
    · rcases List.mem_cons.mp hu with rfl | hr
      · exact hu0 rfl
      · exact h3 u hr (v, p) hit (by rw [g1]; exact hfix)

/-- What `arcsFixing` keeps, seen from the state `s` it started in: the `Arc` objects and the
potentials, the pairing, every pair neither half of which has a reduced cost above the
threshold; and it appends to `fixed_arcs` each `Arc` object it removes, once. -/
theorem arcsFixing_keeps (theta : Int) (s : Solver) (hp : s.graph_.Paired)
    (hna : ∀ u v p u1 v1, (v, p) ∈ s.graph_.arcs u → (v1, p) ∈ s.graph_.arcs u1 →
      u = u1 ∧ v = v1) :
    (arcsFixing theta s).graph_.mem = s.graph_.mem ∧
    (arcsFixing theta s).potentials = s.potentials ∧
    (arcsFixing theta s).graph_.Paired ∧
    (∀ x y q, (y, q) ∈ (arcsFixing theta s).graph_.arcs x → (y, q) ∈ s.graph_.arcs x) ∧
    (∀ x y q, (y, q) ∈ s.graph_.arcs x → ¬ reducedCost s x (y, q) > theta →
      ¬ reducedCost s y (x, (s.graph_.mem q).reverse_arc) > theta →
      (y, q) ∈ (arcsFixing theta s).graph_.arcs x) ∧
    (∀ x y q, (y, q) ∈ s.graph_.arcs x → (y, q) ∉ (arcsFixing theta s).graph_.arcs x →
      List.count q (arcsFixing theta s).graph_.fixed_arcs =
        List.count q s.graph_.fixed_arcs + 1) ∧
    (∀ x y q, (y, q) ∈ (arcsFixing theta s).graph_.arcs x →
      List.count q (arcsFixing theta s).graph_.fixed_arcs = List.count q s.graph_.fixed_arcs) ∧
    (∀ q, q ∈ (arcsFixing theta s).graph_.fixed_arcs → q ∈ s.graph_.fixed_arcs ∨
      ∃ x y, (y, q) ∈ s.graph_.arcs x ∧ (y, q) ∉ (arcsFixing theta s).graph_.arcs x) := by
  refine arcsFixing_inv_paired (fun t =>
    t.graph_.mem = s.graph_.mem ∧ t.potentials = s.potentials ∧ t.graph_.Paired ∧
    (∀ x y q, (y, q) ∈ t.graph_.arcs x → (y, q) ∈ s.graph_.arcs x) ∧
    (∀ x y q, (y, q) ∈ s.graph_.arcs x → ¬ reducedCost s x (y, q) > theta →
      ¬ reducedCost s y (x, (s.graph_.mem q).reverse_arc) > theta →
      (y, q) ∈ t.graph_.arcs x) ∧
    (∀ x y q, (y, q) ∈ s.graph_.arcs x → (y, q) ∉ t.graph_.arcs x →
      List.count q t.graph_.fixed_arcs = List.count q s.graph_.fixed_arcs + 1) ∧
    (∀ x y q, (y, q) ∈ t.graph_.arcs x →
      List.count q t.graph_.fixed_arcs = List.count q s.graph_.fixed_arcs) ∧
    (∀ q, q ∈ t.graph_.fixed_arcs → q ∈ s.graph_.fixed_arcs ∨
      ∃ x y, (y, q) ∈ s.graph_.arcs x ∧ (y, q) ∉ t.graph_.arcs x)) theta
    (fun t ht => ht.2.2.1) ?_ s
    ⟨rfl, rfl, hp, fun _ _ _ h => h, fun _ _ _ h _ _ => h, fun _ _ _ h hn => absurd h hn,
      fun _ _ _ _ => rfl, fun q hq => Or.inl hq⟩
  intro u it t hit ⟨hmem, hpot, hpt, hsub, hkeep, hcnt, hact, hfx⟩
  obtain ⟨v, p⟩ := it
  obtain ⟨gmem, gpot, _, _, _, hiff⟩ := arcsFixingArc_spec u theta (v, p) t
  have hfixed := arcsFixingArc_fixed u theta (v, p) t
  have hrcs : ∀ x e, reducedCost t x e = reducedCost s x e := by
    intro x e
    unfold reducedCost
    rw [hmem, hpot]
  by_cases hfix : reducedCost t u (v, p) > theta
  · rw [if_pos hfix] at hfixed
    have hmate := hpt.mate u v p hit
    have hd := hpt.distinct u v p hit
    -- an entry of `s` whose object is `p` or its mate sits in one of the two slots removed
    have hslot : ∀ x y q, (y, q) ∈ s.graph_.arcs x →
        (q = p → x = u ∧ y = v) ∧ (q = (t.graph_.mem p).reverse_arc → x = v ∧ y = u) := by
      intro x y q hq
      constructor
      · rintro rfl
        exact hna _ _ _ _ _ hq (hsub _ _ _ hit)
      · rintro rfl
        exact hna _ _ _ _ _ hq (hsub _ _ _ hmate)
    have hnew : ∀ x y q, (y, q) ∈ (arcsFixingArc u theta (v, p) t).graph_.arcs x ↔
        ((y, q) ∈ t.graph_.arcs x ∧ ¬ (x = u ∧ y = v) ∧ ¬ (x = v ∧ y = u)) := by
      intro x y q
      rw [hiff]
      exact ⟨fun h => ⟨h.1, h.2 hfix⟩, fun h => ⟨h.1, fun _ => h.2⟩⟩
    refine ⟨gmem.trans hmem, gpot.trans hpot, arcsFixingArc_paired u theta (v, p) t hpt,
      ?_, ?_, ?_, ?_, ?_⟩
    · intro x y q h
      exact hsub x y q ((hnew x y q).mp h).1
    · intro x y q hq h1 h2
      refine (hnew x y q).mpr ⟨hkeep x y q hq h1 h2, ?_, ?_⟩
      · rintro ⟨rfl, rfl⟩
        have : q = p := ArcMap.eq_of_mem (hpt.keys x) (hkeep x y q hq h1 h2) hit
        subst this
        exact h1 (by rw [← hrcs]; exact hfix)
      · rintro ⟨rfl, rfl⟩
        have hm2 := hpt.mate x y q (hkeep x y q hq h1 h2)
        have : (t.graph_.mem q).reverse_arc = p := ArcMap.eq_of_mem (hpt.keys y) hm2 hit
        rw [hmem] at this
        rw [this] at h2
        exact h2 (by rw [← hrcs]; exact hfix)
    · intro x y q hq hnot
      rw [hfixed, List.count_cons, List.count_cons]
      by_cases hact1 : (y, q) ∈ t.graph_.arcs x
      · have hcase : (x = u ∧ y = v) ∨ (x = v ∧ y = u) := by
          by_contra hno
          exact hnot ((hnew x y q).mpr ⟨hact1, fun hh => hno (Or.inl hh),
            fun hh => hno (Or.inr hh)⟩)
        rw [hact x y q hact1]
        rcases hcase with ⟨rfl, rfl⟩ | ⟨rfl, rfl⟩
        · have : q = p := ArcMap.eq_of_mem (hpt.keys x) hact1 hit
          subst this
          have h1 : ((t.graph_.mem q).reverse_arc == q) = false := by simpa using hd
          simp [h1]
        · have : q = (t.graph_.mem p).reverse_arc := ArcMap.eq_of_mem (hpt.keys x) hact1 hmate
          subst this
          have h1 : (p == (t.graph_.mem p).reverse_arc) = false := by
            simpa using fun hh : p = (t.graph_.mem p).reverse_arc => hd hh.symm
          simp [h1]
      · rw [hcnt x y q hq hact1]
        have h1 : q ≠ p := by
          intro hh
          obtain ⟨rfl, rfl⟩ := (hslot x y q hq).1 hh
          subst hh
          exact hact1 hit
        have h2 : q ≠ (t.graph_.mem p).reverse_arc := by
          intro hh
          obtain ⟨rfl, rfl⟩ := (hslot x y q hq).2 hh
          subst hh
          exact hact1 hmate
        have e1 : ((t.graph_.mem p).reverse_arc == q) = false := by
          simpa using fun hh : (t.graph_.mem p).reverse_arc = q => h2 hh.symm
        have e2 : (p == q) = false := by simpa using fun hh : p = q => h1 hh.symm
        simp [e1, e2]
    · intro x y q hq
      obtain ⟨hq1, hn1, hn2⟩ := (hnew x y q).mp hq
      rw [hfixed, List.count_cons, List.count_cons, hact x y q hq1]
      have h1 : q ≠ p := by
        intro hh
        exact hn1 ((hslot x y q (hsub x y q hq1)).1 hh)
      have h2 : q ≠ (t.graph_.mem p).reverse_arc := by
        intro hh
        exact hn2 ((hslot x y q (hsub x y q hq1)).2 hh)
      have e1 : ((t.graph_.mem p).reverse_arc == q) = false := by
        simpa using fun hh : (t.graph_.mem p).reverse_arc = q => h2 hh.symm
      have e2 : (p == q) = false := by simpa using fun hh : p = q => h1 hh.symm
      simp [e1, e2]
    · intro q hq
      rw [hfixed] at hq
      rcases List.mem_cons.mp hq with rfl | hq
      · right
        exact ⟨v, u, hsub _ _ _ hmate, fun hh => ((hnew _ _ _).mp hh).2.2 ⟨rfl, rfl⟩⟩
      · rcases List.mem_cons.mp hq with rfl | hq
        · right
          exact ⟨u, v, hsub _ _ _ hit, fun hh => ((hnew _ _ _).mp hh).2.1 ⟨rfl, rfl⟩⟩
        · rcases hfx q hq with h1 | ⟨x, y, h1, h2⟩
          · exact Or.inl h1
          · exact Or.inr ⟨x, y, h1, fun hh => h2 ((hnew _ _ _).mp hh).1⟩
  · have hsame : arcsFixingArc u theta (v, p) t = t := by
      unfold arcsFixingArc
      rw [if_neg hfix]
    rw [hsame]
    exact ⟨hmem, hpot, hpt, hsub, hkeep, hcnt, hact, hfx⟩

/-- C11. Postcondition of `arcsFixing`.  On a graph with paired active arcs (the mate of every
active arc is active), whose arcs sit at the nodes `1, ..., num_nodes` and whose `Arc` objects
sit in one slot each, for every potential vector and threshold `theta`: after
`arcsFixing(potentials, theta)` an arc is active if and only if it was active before and neither
it nor its reverse had a reduced cost above `theta`; each half of a removed pair occurs in
`fixed_arcs` once more than before (once, if it was not there); and no active arc is left with a
reduced cost above `theta`. -/
theorem arcsFixing_postcondition (theta : Int) (s : Solver) (hp : s.graph_.Paired)
    (hna : ∀ u v p u1 v1, (v, p) ∈ s.graph_.arcs u → (v1, p) ∈ s.graph_.arcs u1 →
      u = u1 ∧ v = v1)
    (hnodes : ∀ u, u = 0 ∨ s.graph_.num_nodes < u → s.graph_.arcs u = []) :
    (∀ u v p, (v, p) ∈ (arcsFixing theta s).graph_.arcs u ↔
      ((v, p) ∈ s.graph_.arcs u ∧ ¬ reducedCost s u (v, p) > theta ∧
        ¬ reducedCost s v (u, (s.graph_.mem p).reverse_arc) > theta)) ∧
    (∀ u v p, (v, p) ∈ s.graph_.arcs u → (v, p) ∉ (arcsFixing theta s).graph_.arcs u →
      List.count p (arcsFixing theta s).graph_.fixed_arcs =
        List.count p s.graph_.fixed_arcs + 1 ∧
      List.count (s.graph_.mem p).reverse_arc (arcsFixing theta s).graph_.fixed_arcs =
        List.count (s.graph_.mem p).reverse_arc s.graph_.fixed_arcs + 1) ∧
    (∀ u v p, (v, p) ∈ (arcsFixing theta s).graph_.arcs u →
      ¬ reducedCost (arcsFixing theta s) u (v, p) > theta) := by
  obtain ⟨kmem, kpot, kpair, ksub, kkeep, kcnt, _, _⟩ := arcsFixing_keeps theta s hp hna
  obtain ⟨d1, _, d3⟩ := arcsFixingNodes_done theta (List.range' 1 s.graph_.num_nodes) s
  have hdone : ∀ u v p, (v, p) ∈ (arcsFixing theta s).graph_.arcs u →
      ¬ reducedCost s u (v, p) > theta := by
    intro u v p h
    have hin := ksub u v p h
    have hu : u ∈ List.range' 1 s.graph_.num_nodes := by
      rw [List.mem_range']
      have hu : ¬ (u = 0 ∨ s.graph_.num_nodes < u) := by
        intro hu
        rw [hnodes u hu] at hin
        exact absurd hin (List.not_mem_nil _)
      refine ⟨u - 1, ?_, ?_⟩ <;> omega
    exact d3 u hu (v, p) h
  refine ⟨?_, ?_, ?_⟩
  · intro u v p
    constructor
    · intro h
      refine ⟨ksub u v p h, hdone u v p h, ?_⟩
      have hm := kpair.mate u v p h
      rw [kmem] at hm
      exact hdone v u _ hm
    · rintro ⟨h1, h2, h3⟩
      exact kkeep u v p h1 h2 h3
  · intro u v p h hn
    refine ⟨kcnt u v p h hn, kcnt v u _ (hp.mate u v p h) ?_⟩
    intro hh
    have hm := kpair.mate v u _ hh
    rw [kmem, hp.reverse_reverse h] at hm
    exact hn hm
  · intro u v p h
    have : reducedCost (arcsFixing theta s) u (v, p) = reducedCost s u (v, p) := d1 u (v, p)
    rw [this]
    exact hdone u v p h

theorem arcsFixing_postcondition_witness :
    demoSolverFix.graph_.Paired ∧
    (2, 0) ∈ demoSolverFix.graph_.arcs 1 ∧
    (2, 0) ∉ (arcsFixing 2 demoSolverFix).graph_.arcs 1 ∧
    List.count 0 (arcsFixing 2 demoSolverFix).graph_.fixed_arcs = 1 ∧
    (arcsFixing 2 demoSolverFix).graph_.fixed_arcs = [1, 0] := by
  have key := arcsFixing_postcondition 2 demoSolverFix demoGraph_paired
    demoGraph_residual.noalias demoGraph_residual.nodes
  have hin : (2, 0) ∈ demoSolverFix.graph_.arcs 1 := by decide
  have hout : (2, 0) ∉ (arcsFixing 2 demoSolverFix).graph_.arcs 1 :=
    fun h => ((key.1 1 2 0).mp h).2.1 (by decide)
  exact ⟨demoGraph_paired, hin, hout, (key.2.1 1 2 0 hin hout).1, by decide!⟩

/-! ## `arcsFixing` keeps `fixed_arcs` well formed -/

/-- A graph with paired, located arcs in one slot each and no fixed arc is well formed. -/
theorem Graph.FixedWF.of_empty {g : Graph} (hp : g.Paired)
    (hna : ∀ u v p u1 v1, (v, p) ∈ g.arcs u → (v1, p) ∈ g.arcs u1 → u = u1 ∧ v = v1)
    (hl : g.Located) (he : g.fixed_arcs = []) : g.FixedWF := by
  refine ⟨hp, hna, hl, ?_, ?_, ?_, ?_, ?_⟩
  · rw [he]
    exact List.nodup_nil
  all_goals
    intro p hp1
    rw [he] at hp1
    exact absurd hp1 (List.not_mem_nil _)

/-- A step of `arcsFixing` at an active entry keeps the active arcs and `fixed_arcs` well
formed. -/
theorem arcsFixingArc_fixedWF (u : Nat) (theta : Int) (it : Nat × Nat) (s : Solver)
    (hit : it ∈ s.graph_.arcs u) (hw : s.graph_.FixedWF) :
    (arcsFixingArc u theta it s).graph_.FixedWF := by
  obtain ⟨v, p⟩ := it
  obtain ⟨gmem, _, _, _, _, hiff⟩ := arcsFixingArc_spec u theta (v, p) s
  have hfixed := arcsFixingArc_fixed u theta (v, p) s
  by_cases hfix : reducedCost s u (v, p) > theta
  · rw [if_pos hfix] at hfixed
    have hmate := hw.paired.mate u v p hit
    have hd := hw.paired.distinct u v p hit
    have hrr := hw.paired.reverse_reverse hit
    obtain ⟨hsp, hdp⟩ := hw.located u v p hit
    obtain ⟨hsr, hdr⟩ := hw.located v u _ hmate
    have huv : u ≠ v := by
      rintro rfl
      exact hw.paired.no_loop hit
    have hnew : ∀ x y q, (y, q) ∈ (arcsFixingArc u theta (v, p) s).graph_.arcs x ↔
        ((y, q) ∈ s.graph_.arcs x ∧ ¬ (x = u ∧ y = v) ∧ ¬ (x = v ∧ y = u)) := by
      intro x y q
      rw [hiff]
      exact ⟨fun h => ⟨h.1, h.2 hfix⟩, fun h => ⟨h.1, fun _ => h.2⟩⟩
    have hpold : p ∉ s.graph_.fixed_arcs := fun h => hw.apart p h u v hit
    have hrold : (s.graph_.mem p).reverse_arc ∉ s.graph_.fixed_arcs :=
      fun h => hw.apart _ h v u hmate
    refine ⟨arcsFixingArc_paired u theta (v, p) s hw.paired, ?_, ?_, ?_, ?_, ?_, ?_, ?_⟩
    · intro x y q x1 y1 h h1
      exact hw.noalias x y q x1 y1 ((hnew _ _ _).mp h).1 ((hnew _ _ _).mp h1).1
    · intro x y q h
      rw [gmem]
      exact hw.located x y q ((hnew _ _ _).mp h).1
    · rw [hfixed]
      refine List.nodup_cons.mpr ⟨?_, List.nodup_cons.mpr ⟨hpold, hw.nodup⟩⟩
      intro h
      rcases List.mem_cons.mp h with h | h
      · exact hd h
      · exact hrold h
    · intro q hq x y h
      rw [hfixed] at hq
      obtain ⟨h1, h2, h3⟩ := (hnew x y q).mp h
      rcases List.mem_cons.mp hq with rfl | hq
      · exact h3 (hw.noalias _ _ _ _ _ h1 hmate)
      · rcases List.mem_cons.mp hq with rfl | hq
        · exact h2 (hw.noalias _ _ _ _ _ h1 hit)
        · exact hw.apart q hq x y h1
    · intro q hq
      rw [hfixed] at hq ⊢
      rw [gmem]
      rcases List.mem_cons.mp hq with rfl | hq
      · rw [hrr]
        refine ⟨List.mem_cons_of_mem _ (List.mem_cons_self _ _), fun h => hd h.symm, rfl, ?_, ?_⟩
        · rw [hsp, hdr]
        · rw [hdp, hsr]
      · rcases List.mem_cons.mp hq with rfl | hq
        · refine ⟨List.mem_cons_self _ _, hd, hrr, ?_, ?_⟩
          · rw [hsr, hdp]
          · rw [hdr, hsp]
        · obtain ⟨m1, m2, m3, m4, m5⟩ := hw.mate q hq
          exact ⟨List.mem_cons_of_mem _ (List.mem_cons_of_mem _ m1), m2, m3, m4, m5⟩
    · intro q hq q1 h
      rw [hfixed] at hq
      rw [gmem] at h
      obtain ⟨h1, h2, h3⟩ := (hnew _ _ _).mp h
      rcases List.mem_cons.mp hq with rfl | hq
      · exact h3 ⟨hsr, hdr⟩
      · rcases List.mem_cons.mp hq with rfl | hq
        · exact h2 ⟨hsp, hdp⟩
        · exact hw.vacant q hq q1 h1
    · intro q hq q1 hq1 e1 e2
      rw [hfixed] at hq hq1
      rw [gmem] at e1 e2
      have hcls : ∀ a, a ∈ (s.graph_.mem p).reverse_arc :: p :: s.graph_.fixed_arcs →
          (a = (s.graph_.mem p).reverse_arc ∧ (s.graph_.mem a).src_node_id = v ∧
            (s.graph_.mem a).dst_node_id = u) ∨
          (a = p ∧ (s.graph_.mem a).src_node_id = u ∧ (s.graph_.mem a).dst_node_id = v) ∨
          (a ∈ s.graph_.fixed_arcs ∧
            ¬ ((s.graph_.mem a).src_node_id = u ∧ (s.graph_.mem a).dst_node_id = v) ∧
            ¬ ((s.graph_.mem a).src_node_id = v ∧ (s.graph_.mem a).dst_node_id = u)) := by
        intro a ha
        rcases List.mem_cons.mp ha with h | ha
        · left
          exact ⟨h, by rw [h, hsr], by rw [h, hdr]⟩
        · rcases List.mem_cons.mp ha with h | ha
          · right
            left
            exact ⟨h, by rw [h, hsp], by rw [h, hdp]⟩
          · right
            right
            refine ⟨ha, ?_, ?_⟩
            · rintro ⟨h1, h2⟩
              have := hw.vacant a ha p
              rw [h1, h2] at this
              exact this hit
            · rintro ⟨h1, h2⟩
              have := hw.vacant a ha (s.graph_.mem p).reverse_arc
              rw [h1, h2] at this
              exact this hmate
      rcases hcls q hq with ⟨a1, a2, a3⟩ | ⟨a1, a2, a3⟩ | ⟨a1, a2, a3⟩ <;>
        rcases hcls q1 hq1 with ⟨b1, b2, b3⟩ | ⟨b1, b2, b3⟩ | ⟨b1, b2, b3⟩
      · rw [a1, b1]
      · omega
      · omega
      · omega
      · rw [a1, b1]
      · omega
      · omega
      · omega
      · exact hw.slots q a1 q1 b1 e1 e2
  · have hsame : arcsFixingArc u theta (v, p) s = s := by
      unfold arcsFixingArc
      rw [if_neg hfix]
    rw [hsame]
    exact hw

/-- `arcsFixing` keeps the active arcs and `fixed_arcs` well formed. -/
theorem arcsFixing_fixedWF (theta : Int) (s : Solver) (hw : s.graph_.FixedWF) :
    (arcsFixing theta s).graph_.FixedWF :=
  arcsFixing_inv_paired (fun t => t.graph_.FixedWF) theta (fun _ h => h.paired)
    (fun u it t hit h => arcsFixingArc_fixedWF u theta it t hit h) s hw

/-! ## What `arcsUnfixing` re-inserts -/

/-- Assigning to a key that is not in the map adds one entry. -/
theorem ArcMap.assign_perm {m : ArcMap} {key p : Nat} (hv : key ∉ m.map Prod.fst) :
    (ArcMap.assign m key p).Perm ((key, p) :: m) := by
  induction m with
  | nil => exact List.Perm.refl _
  | cons e m ih =>
    obtain ⟨k, q⟩ := e
    have hk : k ≠ key := by
      intro h
      apply hv
      rw [h]
      exact List.mem_cons_self _ _
    have hv1 : key ∉ m.map Prod.fst := fun h => hv (List.mem_cons_of_mem _ h)
    unfold ArcMap.assign
    rw [if_neg hk]
    split_ifs
    · exact List.Perm.refl _
    · exact ((ih hv1).cons (k, q)).trans (List.Perm.swap _ _ _)

/-- The state and the list that the loop of `arcsUnfixing` leaves: the `Arc` objects and the
potentials are kept, the objects whose stored reduced cost is not below the threshold stay in
the list, in order, and, when the slots named by the objects of the list are free and pairwise
different, the others are added to the active arcs, each at the slot it names. -/
theorem arcsUnfixingScan_spec (theta : Int) :
    ∀ (l : List Nat) (s : Solver),
      (∀ p ∈ l, ∀ q, ((s.graph_.mem p).dst_node_id, q) ∉ s.graph_.arcs (s.graph_.mem p).src_node_id) →
      l.Pairwise (fun p q => ¬ ((s.graph_.mem p).src_node_id = (s.graph_.mem q).src_node_id ∧
        (s.graph_.mem p).dst_node_id = (s.graph_.mem q).dst_node_id)) →
      (arcsUnfixingScan theta l s).1.graph_.mem = s.graph_.mem ∧
      (arcsUnfixingScan theta l s).1.potentials = s.potentials ∧
      (arcsUnfixingScan theta l s).2 = l.filter (fun p => decide (¬ s.storedCost p < theta)) ∧
      (∀ u v q, (v, q) ∈ (arcsUnfixingScan theta l s).1.graph_.arcs u ↔
        ((v, q) ∈ s.graph_.arcs u ∨ (q ∈ l ∧ s.storedCost q < theta ∧
          (s.graph_.mem q).src_node_id = u ∧ (s.graph_.mem q).dst_node_id = v))) ∧
      ((∀ u, ((s.graph_.arcs u).map Prod.fst).Nodup) →
        ∀ u, (((arcsUnfixingScan theta l s).1.graph_.arcs u).map Prod.fst).Nodup) := by
  intro l
  induction l with
  | nil =>
    intro s _ _
    refine ⟨rfl, rfl, rfl, ?_, fun h => h⟩
    intro u v q
    simp [arcsUnfixingScan]
  | cons p rest ih =>
    intro s hvac hpw
    rw [List.pairwise_cons] at hpw
    by_cases hlt : s.storedCost p < theta
    · obtain ⟨t, ht⟩ : ∃ t : Solver, t = { s with graph_ := { s.graph_ with
          arcs := Function.update s.graph_.arcs (s.graph_.mem p).src_node_id
            ((s.graph_.arcs (s.graph_.mem p).src_node_id).assign
              (s.graph_.mem p).dst_node_id p) } } := ⟨_, rfl⟩
      have hscan : arcsUnfixingScan theta (p :: rest) s = arcsUnfixingScan theta rest t := by
        rw [ht]
        simp only [arcsUnfixingScan]
        have hlt1 : (s.graph_.mem p).cost + s.potentials (s.graph_.mem p).src_node_id -
            s.potentials (s.graph_.mem p).dst_node_id < theta := hlt
        rw [if_pos hlt1]
      have htm : t.graph_.mem = s.graph_.mem := by rw [ht]
      have htp : t.potentials = s.potentials := by rw [ht]
      have hvp : (s.graph_.mem p).dst_node_id ∉
          (s.graph_.arcs (s.graph_.mem p).src_node_id).map Prod.fst := by
        intro h
        obtain ⟨e, he, hk⟩ := List.mem_map.mp h
        obtain ⟨k, q⟩ := e
        simp only at hk
        subst hk
        exact hvac p (List.mem_cons_self _ _) q he
      have hperm := ArcMap.assign_perm (p := p) hvp
      have hta : ∀ u v q, (v, q) ∈ t.graph_.arcs u ↔ ((v, q) ∈ s.graph_.arcs u ∨
          (q = p ∧ (s.graph_.mem p).src_node_id = u ∧ (s.graph_.mem p).dst_node_id = v)) := by
        intro u v q
        rw [ht]
        dsimp only
        by_cases hu : u = (s.graph_.mem p).src_node_id
        · subst hu
          rw [Function.update_same, hperm.mem_iff, List.mem_cons]
          constructor
          · rintro (h | h)
            · right
              rw [Prod.mk.injEq] at h
              exact ⟨h.2, rfl, h.1.symm⟩
            · exact Or.inl h
          · rintro (h | ⟨h1, _, h3⟩)
            · exact Or.inr h
            · left
              rw [h1, h3]
        · rw [Function.update_noteq hu]
          constructor
          · intro h
            exact Or.inl h
          · rintro (h | ⟨_, h2, _⟩)
            · exact h
            · exact absurd h2.symm hu
      have hsc : ∀ q, t.storedCost q = s.storedCost q := by
        intro q
        unfold Solver.storedCost
        rw [htm, htp]
      obtain ⟨i1, i2, i3, i4, i5⟩ := ih t (by
          intro q hq q1 h
          rw [htm] at h
          rcases (hta _ _ _).mp h with h | ⟨_, h2, h3⟩
          · exact hvac q (List.mem_cons_of_mem _ hq) q1 h
          · exact hpw.1 q hq ⟨h2, h3⟩) (by
          rw [htm]
          exact hpw.2)
      rw [hscan]
      refine ⟨i1.trans htm, i2.trans htp, ?_, ?_, ?_⟩
      · rw [i3, List.filter_cons]
        have : decide (¬ s.storedCost p < theta) = false := by simpa using hlt
        rw [this]
        simp only [Bool.false_eq_true, if_false]
        refine List.filter_congr ?_
        intro q _
        rw [hsc]
      · intro u v q
        rw [i4, hta, htm]
        constructor
        · rintro ((h | ⟨h1, h2, h3⟩) | ⟨h1, h2, h3, h4⟩)
          · exact Or.inl h
          · right
            rw [h1]
            exact ⟨List.mem_cons_self _ _, hlt, h2, h3⟩
          · right
            exact ⟨List.mem_cons_of_mem _ h1, by rw [← hsc]; exact h2, h3, h4⟩
        · rintro (h | ⟨h1, h2, h3, h4⟩)
          · exact Or.inl (Or.inl h)
          · rcases List.mem_cons.mp h1 with h1 | h1
            · left
              right
              rw [h1] at h3 h4
              exact ⟨h1, h3, h4⟩
            · right
              exact ⟨h1, by rw [hsc]; exact h2, h3, h4⟩
      · intro hn
        apply i5
        intro u
        rw [ht]
        dsimp only
        by_cases hu : u = (s.graph_.mem p).src_node_id
        · subst hu
          rw [Function.update_same]
          have := (hperm.map Prod.fst).nodup_iff.mpr
            (List.nodup_cons.mpr ⟨hvp, hn _⟩)
          exact this
        · rw [Function.update_noteq hu]
          exact hn u
    · have hscan : arcsUnfixingScan theta (p :: rest) s =
          ((arcsUnfixingScan theta rest s).1, p :: (arcsUnfixingScan theta rest s).2) := by
        simp only [arcsUnfixingScan]
        have hlt1 : ¬ (s.graph_.mem p).cost + s.potentials (s.graph_.mem p).src_node_id -
            s.potentials (s.graph_.mem p).dst_node_id < theta := hlt
        rw [if_neg hlt1]
      obtain ⟨i1, i2, i3, i4, i5⟩ := ih s
        (fun q hq => hvac q (List.mem_cons_of_mem _ hq)) hpw.2
      rw [hscan]
      refine ⟨i1, i2, ?_, ?_, i5⟩
      · show p :: (arcsUnfixingScan theta rest s).2 = _
        rw [i3, List.filter_cons]
        have : decide (¬ s.storedCost p < theta) = true := by simpa using hlt
        rw [this]
        simp
      · intro u v q
        show (v, q) ∈ (arcsUnfixingScan theta rest s).1.graph_.arcs u ↔ _
        rw [i4]
        constructor
        · rintro (h | ⟨h1, h2, h3, h4⟩)
          · exact Or.inl h
          · exact Or.inr ⟨List.mem_cons_of_mem _ h1, h2, h3, h4⟩
        · rintro (h | ⟨h1, h2, h3, h4⟩)
          · exact Or.inl h
          · rcases List.mem_cons.mp h1 with h1 | h1
            · rw [h1] at h2
              exact absurd h2 hlt
            · exact Or.inr ⟨h1, h2, h3, h4⟩

/-- On well-formed active and fixed arcs `arcsUnfixing` keeps the `Arc` objects and the
potentials, leaves in `fixed_arcs` the objects whose stored reduced cost is not below the
threshold, and adds the others to the active arcs, each at the slot it names. -/
theorem arcsUnfixing_wf (theta : Int) (s : Solver) (hw : s.graph_.FixedWF) :
    (arcsUnfixing theta s).graph_.mem = s.graph_.mem ∧
    (arcsUnfixing theta s).graph_.fixed_arcs =
      s.graph_.fixed_arcs.filter (fun p => decide (¬ s.storedCost p < theta)) ∧
    (∀ u v q, (v, q) ∈ (arcsUnfixing theta s).graph_.arcs u ↔
      ((v, q) ∈ s.graph_.arcs u ∨ (q ∈ s.graph_.fixed_arcs ∧ s.storedCost q < theta ∧
        (s.graph_.mem q).src_node_id = u ∧ (s.graph_.mem q).dst_node_id = v))) ∧
    (∀ u, (((arcsUnfixing theta s).graph_.arcs u).map Prod.fst).Nodup) := by
  obtain ⟨h1, _, h3, h4, h5⟩ := arcsUnfixingScan_spec theta s.graph_.fixed_arcs s hw.vacant
    (hw.nodup.pairwise_of_forall_ne (fun p hp q hq hne hh => hne (hw.slots p hp q hq hh.1 hh.2)))
  exact ⟨h1, h3, h4, h5 hw.paired.keys⟩

/-- C12, as the code has it.  On well-formed active and fixed arcs, as `arcsFixing` leaves them,
`arcsUnfixing(potentials, theta)` takes an `Arc` object out of `fixed_arcs` and re-inserts it
exactly when its own reduced cost is below `theta`.  For every threshold and potential vector
under which the two halves of every fixed pair are on the same side of `theta`, an arc is
re-inserted if and only if its reverse is; afterwards every active arc `u → v` has its mate at
`arcs[v][u]`, and every arc left in `fixed_arcs` has its mate in `fixed_arcs`. -/
theorem arcsUnfixing_pairs (theta : Int) (s : Solver) (hw : s.graph_.FixedWF)
    (hag : ∀ p ∈ s.graph_.fixed_arcs,
      (s.storedCost p < theta ↔ s.storedCost (s.graph_.mem p).reverse_arc < theta)) :
    (∀ p ∈ s.graph_.fixed_arcs,
      (p ∉ (arcsUnfixing theta s).graph_.fixed_arcs ↔ s.storedCost p < theta) ∧
      (((s.graph_.mem p).dst_node_id, p) ∈
          (arcsUnfixing theta s).graph_.arcs (s.graph_.mem p).src_node_id ↔
        s.storedCost p < theta)) ∧
    (∀ p ∈ s.graph_.fixed_arcs,
      (((s.graph_.mem p).dst_node_id, p) ∈
          (arcsUnfixing theta s).graph_.arcs (s.graph_.mem p).src_node_id ↔
        ((s.graph_.mem p).src_node_id, (s.graph_.mem p).reverse_arc) ∈
          (arcsUnfixing theta s).graph_.arcs (s.graph_.mem p).dst_node_id)) ∧
    (arcsUnfixing theta s).graph_.Paired ∧
    (∀ p ∈ (arcsUnfixing theta s).graph_.fixed_arcs,
      ((arcsUnfixing theta s).graph_.mem p).reverse_arc ∈
        (arcsUnfixing theta s).graph_.fixed_arcs) := by
  obtain ⟨kmem, kfix, karcs, kkeys⟩ := arcsUnfixing_wf theta s hw
  have hin : ∀ p ∈ s.graph_.fixed_arcs,
      (((s.graph_.mem p).dst_node_id, p) ∈
          (arcsUnfixing theta s).graph_.arcs (s.graph_.mem p).src_node_id ↔
        s.storedCost p < theta) := by
    intro p hp
    rw [karcs]
    constructor
    · rintro (h | h)
      · exact absurd h (hw.apart p hp _ _)
      · exact h.2.1
    · intro h
      exact Or.inr ⟨hp, h, rfl, rfl⟩
  refine ⟨?_, ?_, ?_, ?_⟩
  · intro p hp
    refine ⟨?_, hin p hp⟩
    rw [kfix, List.mem_filter]
    constructor
    · intro h
      by_contra hlt
      exact h ⟨hp, by simpa using hlt⟩
    · rintro h ⟨_, h2⟩
      simp only [decide_eq_true_eq] at h2
      exact h2 h
  · intro p hp
    obtain ⟨m1, _, _, m4, m5⟩ := hw.mate p hp
    have := hin _ m1
    rw [m4, m5] at this
    rw [hin p hp, this]
    exact hag p hp
  · refine ⟨kkeys, ?_, ?_⟩
    · intro u v q h
      rw [kmem]
      rcases (karcs u v q).mp h with h | ⟨h1, h2, h3, h4⟩
      · exact (karcs v u _).mpr (Or.inl (hw.paired.mate u v q h))
      · obtain ⟨m1, _, _, m4, m5⟩ := hw.mate q h1
        refine (karcs v u _).mpr (Or.inr ⟨m1, (hag q h1).mp h2, ?_, ?_⟩)
        · rw [m4, h4]
        · rw [m5, h3]
    · intro u v q h
      rw [kmem]
      rcases (karcs u v q).mp h with h | ⟨h1, _, _, _⟩
      · exact hw.paired.distinct u v q h
      · exact (hw.mate q h1).2.1
  · intro p hp
    rw [kmem]
    rw [kfix, List.mem_filter] at hp ⊢
    obtain ⟨hp1, hp2⟩ := hp
    simp only [decide_eq_true_eq] at hp2 ⊢
    exact ⟨(hw.mate p hp1).1, fun h => hp2 ((hag p hp1).mpr h)⟩

theorem demoGraph_located : demoGraph.Located := by
  intro u v p h
  rcases u with _ | _ | _ | u <;> simp [demoGraph] at h
  · obtain ⟨rfl, rfl⟩ := h
    simp [demoGraph]
  · obtain ⟨rfl, rfl⟩ := h
    simp [demoGraph]

theorem arcsUnfixing_pairs_witness :
    (arcsFixing 2 demoSolverFix).graph_.FixedWF ∧
    (arcsFixing 2 demoSolverFix).graph_.fixed_arcs = [1, 0] ∧
    (∀ p ∈ (arcsFixing 2 demoSolverFix).graph_.fixed_arcs,
      ((arcsFixing 2 demoSolverFix).storedCost p < 10 ↔
        (arcsFixing 2 demoSolverFix).storedCost
          ((arcsFixing 2 demoSolverFix).graph_.mem p).reverse_arc < 10)) ∧
    (arcsUnfixing 10 (arcsFixing 2 demoSolverFix)).graph_.Paired ∧
    (arcsUnfixing 10 (arcsFixing 2 demoSolverFix)).graph_.arcs 1 = [(2, 0)] ∧
    (arcsUnfixing 10 (arcsFixing 2 demoSolverFix)).graph_.fixed_arcs = [] := by
  have hw : (arcsFixing 2 demoSolverFix).graph_.FixedWF :=
    arcsFixing_fixedWF 2 demoSolverFix
      (Graph.FixedWF.of_empty demoGraph_paired demoGraph_residual.noalias demoGraph_located rfl)
  have hfix : (arcsFixing 2 demoSolverFix).graph_.fixed_arcs = [1, 0] := by decide!
  have hag : ∀ p ∈ (arcsFixing 2 demoSolverFix).graph_.fixed_arcs,
      ((arcsFixing 2 demoSolverFix).storedCost p < 10 ↔
        (arcsFixing 2 demoSolverFix).storedCost
          ((arcsFixing 2 demoSolverFix).graph_.mem p).reverse_arc < 10) := by
    rw [hfix]
    decide!
  exact ⟨hw, hfix, hag, (arcsUnfixing_pairs 10 (arcsFixing 2 demoSolverFix) hw hag).2.2.1,
    by decide!, by decide!⟩

/-- C12, counterexample.  On `demoGraph` with the potential of node 1 at `2`, the arc `1 → 2`
has reduced cost `3` and `arcsFixing` with threshold `2` fixes the pair.  `arcsUnfixing` with
threshold `0` then re-inserts the reverse half (reduced cost `-3`) at `arcs[2][1]` and leaves
the forward half (reduced cost `3`) in `fixed_arcs`: the active arc `2 → 1` has no mate at
`arcs[1][2]`, and the arc left in `fixed_arcs` has its mate outside. -/
theorem arcsUnfixing_pairs_counterexample :
    (arcsFixing 2 demoSolverFix).graph_.fixed_arcs = [1, 0] ∧
    (arcsUnfixing 0 (arcsFixing 2 demoSolverFix)).graph_.arcs 2 = [(1, 1)] ∧
    (arcsUnfixing 0 (arcsFixing 2 demoSolverFix)).graph_.arcs 1 = [] ∧
    (arcsUnfixing 0 (arcsFixing 2 demoSolverFix)).graph_.fixed_arcs = [0] ∧
    ((arcsUnfixing 0 (arcsFixing 2 demoSolverFix)).graph_.mem 0).reverse_arc = 1 := by
  decide!

/-! ## Fixing and unfixing everything gives the arcs back -/

/-- The entries of a map after an assignment are the new entry or old ones. -/
theorem ArcMap.mem_assign_sub {m : ArcMap} {key p : Nat} {e : Nat × Nat}
    (h : e ∈ ArcMap.assign m key p) : e = (key, p) ∨ e ∈ m := by
  induction m with
  | nil =>
    left
    simpa [ArcMap.assign] using h
  | cons e0 m ih =>
    obtain ⟨k, q⟩ := e0
    unfold ArcMap.assign at h
    split_ifs at h
    · rcases List.mem_cons.mp h with h | h
      · exact Or.inl h
      · exact Or.inr (List.mem_cons_of_mem _ h)
    · rcases List.mem_cons.mp h with h | h
      · exact Or.inl h
      · exact Or.inr h
    · rcases List.mem_cons.mp h with h | h
      · exact Or.inr (h ▸ List.mem_cons_self _ _)
      · rcases ih h with h | h
        · exact Or.inl h
        · exact Or.inr (List.mem_cons_of_mem _ h)

/-- An assignment keeps a map in key order. -/
theorem ArcMap.assign_sorted {m : ArcMap} (key p : Nat)
    (hs : m.Pairwise (fun a b => a.1 < b.1)) :
    (ArcMap.assign m key p).Pairwise (fun a b => a.1 < b.1) := by
  induction m with
  | nil => simp [ArcMap.assign]
  | cons e0 m ih =>
    obtain ⟨k, q⟩ := e0
    rw [List.pairwise_cons] at hs
    unfold ArcMap.assign
    split_ifs with h1 h2
    · rw [List.pairwise_cons]
      refine ⟨?_, hs.2⟩
      intro b hb
      have := hs.1 b hb
      simp only at this ⊢
      omega
    · rw [List.pairwise_cons, List.pairwise_cons]
      refine ⟨?_, hs.1, hs.2⟩
      intro b hb
      rcases List.mem_cons.mp hb with rfl | hb
      · exact h2
      · have := hs.1 b hb
        simp only at this ⊢
        omega
    · rw [List.pairwise_cons]
      refine ⟨?_, ih hs.2⟩
      intro b hb
      rcases ArcMap.mem_assign_sub hb with rfl | hb
      · simp only
        omega
      · exact hs.1 b hb

/-- The loop of `arcsUnfixing` keeps every map in key order. -/
theorem arcsUnfixingScan_sorted (theta : Int) :
    ∀ (l : List Nat) (s : Solver),
      (∀ u, (s.graph_.arcs u).Pairwise (fun a b => a.1 < b.1)) →
      ∀ u, ((arcsUnfixingScan theta l s).1.graph_.arcs u).Pairwise (fun a b => a.1 < b.1) := by
  intro l
  induction l with
  | nil =>
    intro s hs
    exact hs
  | cons p rest ih =>
    intro s hs
    simp only [arcsUnfixingScan]
    split
    · apply ih
      intro u
      dsimp only
      by_cases hu : u = (s.graph_.mem p).src_node_id
      · subst hu
        rw [Function.update_same]
        exact ArcMap.assign_sorted _ _ (hs _)
      · rw [Function.update_noteq hu]
        exact hs u
    · exact ih s hs

/-- Two maps in key order with the same entries are the same list. -/
theorem ArcMap.eq_of_sorted {m1 m2 : ArcMap} (h1 : m1.Pairwise (fun a b => a.1 < b.1))
    (h2 : m2.Pairwise (fun a b => a.1 < b.1)) (h : ∀ e, e ∈ m1 ↔ e ∈ m2) : m1 = m2 := by
  haveI : IsAntisymm (Nat × Nat) (fun a b => a.1 < b.1) :=
    ⟨fun a b hab hba => absurd hab (Nat.lt_asymm hba)⟩
  have hn : ∀ m : ArcMap, m.Pairwise (fun a b => a.1 < b.1) → m.Nodup := by
    intro m hm
    refine hm.imp ?_
    intro a b hab heq
    rw [heq] at hab
    exact Nat.lt_irrefl _ hab
  exact List.eq_of_perm_of_sorted ((List.perm_ext_iff_of_nodup (hn m1 h1) (hn m2 h2)).mpr h)
    h1 h2

/-- C13. Fix/unfix round trip.  On a graph with empty `fixed_arcs` whose active arcs are paired,
sit in one slot each and store their node ids, for all potentials and every threshold `theta`:
`arcsFixing(potentials, theta)` followed by `arcsUnfixing(potentials1, INT64_MAX)`, for any
potentials under which all reduced costs are below `INT64_MAX`, leaves `fixed_arcs` empty and
every map `arcs[u]` with the entries it had before the fixing, one per key; the maps are the
same lists when they were in key order. -/
theorem arcsFixing_arcsUnfixing_round_trip (theta : Int) (s : Solver) (potentials1 : Nat → Int)
    (hp : s.graph_.Paired)
    (hna : ∀ u v p u1 v1, (v, p) ∈ s.graph_.arcs u → (v1, p) ∈ s.graph_.arcs u1 →
      u = u1 ∧ v = v1)
    (hl : s.graph_.Located) (he : s.graph_.fixed_arcs = [])
    (hlt : ∀ u v p, (v, p) ∈ s.graph_.arcs u →
      (s.graph_.mem p).cost + potentials1 u - potentials1 v < INT64_MAX) :
    (arcsUnfixing INT64_MAX
      { arcsFixing theta s with potentials := potentials1 }).graph_.fixed_arcs = [] ∧
    (∀ u v p, (v, p) ∈ (arcsUnfixing INT64_MAX
        { arcsFixing theta s with potentials := potentials1 }).graph_.arcs u ↔
      (v, p) ∈ s.graph_.arcs u) ∧
    (∀ u, (((arcsUnfixing INT64_MAX
      { arcsFixing theta s with potentials := potentials1 }).graph_.arcs u).map Prod.fst).Nodup) ∧
    ((∀ u, (s.graph_.arcs u).Pairwise (fun a b => a.1 < b.1)) →
      ∀ u, (arcsUnfixing INT64_MAX
        { arcsFixing theta s with potentials := potentials1 }).graph_.arcs u =
          s.graph_.arcs u) := by
  obtain ⟨kmem, _, _, ksub, _, kcnt, _, kfx⟩ := arcsFixing_keeps theta s hp hna
  have hw : (arcsFixing theta s).graph_.FixedWF :=
    arcsFixing_fixedWF theta s (Graph.FixedWF.of_empty hp hna hl he)
  obtain ⟨t, ht⟩ : ∃ t : Solver, t = { arcsFixing theta s with potentials := potentials1 } :=
    ⟨_, rfl⟩
  rw [← ht]
  have htg : t.graph_ = (arcsFixing theta s).graph_ := by rw [ht]
  have htp : t.potentials = potentials1 := by rw [ht]
  have hwt : t.graph_.FixedWF := by
    rw [htg]
    exact hw
  obtain ⟨umem, ufix, uarcs, ukeys⟩ := arcsUnfixing_wf INT64_MAX t hwt
  have hremoved : ∀ q, q ∈ t.graph_.fixed_arcs →
      ∃ x y, (y, q) ∈ s.graph_.arcs x ∧ (y, q) ∉ t.graph_.arcs x := by
    intro q hq
    rw [htg] at hq ⊢
    rcases kfx q hq with h | h
    · rw [he] at h
      exact absurd h (List.not_mem_nil _)
    · exact h
  have hcost : ∀ q, q ∈ t.graph_.fixed_arcs → t.storedCost q < INT64_MAX := by
    intro q hq
    obtain ⟨x, y, h1, _⟩ := hremoved q hq
    obtain ⟨e1, e2⟩ := hl x y q h1
    unfold Solver.storedCost
    rw [htp, htg, kmem, e1, e2]
    exact hlt x y q h1
  have hiff : ∀ u v p, (v, p) ∈ (arcsUnfixing INT64_MAX t).graph_.arcs u ↔
      (v, p) ∈ s.graph_.arcs u := by
    intro u v p
    rw [uarcs]
    constructor
    · rintro (h | ⟨h1, _, h3, h4⟩)
      · rw [htg] at h
        exact ksub u v p h
      · obtain ⟨x, y, g1, _⟩ := hremoved p h1
        obtain ⟨e1, e2⟩ := hl x y p g1
        rw [htg, kmem] at h3 h4
        rw [← h3, ← h4, e1, e2]
        exact g1
    · intro h
      by_cases hact : (v, p) ∈ t.graph_.arcs u
      · exact Or.inl hact
      · right
        have hc := kcnt u v p h (by rw [← htg]; exact hact)
        have hmem : p ∈ t.graph_.fixed_arcs := by
          rw [htg]
          apply List.count_pos_iff.mp
          omega
        obtain ⟨e1, e2⟩ := hl u v p h
        refine ⟨hmem, hcost p hmem, ?_, ?_⟩
        · rw [htg, kmem]
          exact e1
        · rw [htg, kmem]
          exact e2
  refine ⟨?_, hiff, ukeys, ?_⟩
  · rw [ufix, List.filter_eq_nil_iff]
    intro q hq
    simpa using hcost q hq
  · intro hs u
    refine ArcMap.eq_of_sorted ?_ (hs u) (fun e => hiff u e.1 e.2)
    have hsub : ∀ x, ((arcsFixing theta s).graph_.arcs x).Sublist (s.graph_.arcs x) :=
      arcsFixing_inv (fun w => ∀ x, (w.graph_.arcs x).Sublist (s.graph_.arcs x)) theta
        (fun a it w hw1 x => ((arcsFixingArc_spec a theta it w).2.2.2.2.1 x).trans (hw1 x))
        s (fun x => List.Sublist.refl _)
    have hst : ∀ x, (t.graph_.arcs x).Pairwise (fun a b => a.1 < b.1) := by
      intro x
      rw [htg]
      exact (hs x).sublist (hsub x)
    exact arcsUnfixingScan_sorted INT64_MAX t.graph_.fixed_arcs t hst u

theorem arcsFixing_arcsUnfixing_round_trip_witness :
    demoSolverFix.graph_.Paired ∧ demoSolverFix.graph_.Located ∧
    demoSolverFix.graph_.fixed_arcs = [] ∧
    (arcsFixing 2 demoSolverFix).graph_.arcs 1 = [] ∧
    (arcsUnfixing INT64_MAX
      { arcsFixing 2 demoSolverFix with potentials := fun _ => 0 }).graph_.fixed_arcs = [] ∧
    (arcsUnfixing INT64_MAX
      { arcsFixing 2 demoSolverFix with potentials := fun _ => 0 }).graph_.arcs 1 =
        demoSolverFix.graph_.arcs 1 := by
  have key := arcsFixing_arcsUnfixing_round_trip 2 demoSolverFix (fun _ => 0) demoGraph_paired
    demoGraph_residual.noalias demoGraph_located rfl (by
      intro u v p h
      rcases u with _ | _ | _ | u <;> simp [demoSolverFix, demoGraph] at h
      · obtain ⟨rfl, rfl⟩ := h
        decide
      · obtain ⟨rfl, rfl⟩ := h
        decide)
  refine ⟨demoGraph_paired, demoGraph_located, rfl, by decide!, key.1, key.2.2.2 ?_ 1⟩
  intro u
  rcases u with _ | _ | _ | u <;> simp [demoSolverFix, demoGraph]

/-! ## Relabels -/

/-- The scan of `discharge` leaves the potentials alone. -/
theorem dischargeScan_potentials {node_id : Nat} :
    ∀ (l : List (Nat × Nat)) (s : Solver) (b : Bool) (s1 : Solver) (b1 : Bool),
      dischargeScan node_id l s b = some (s1, b1) → s1.potentials = s.potentials := by
  intro l
  induction l with
  | nil =>
    intro s b s1 b1 h
    simp only [dischargeScan, Option.some.injEq, Prod.mk.injEq] at h
    rw [← h.1]
  | cons it rest ih =>
    intro s b s1 b1 h
    simp only [dischargeScan] at h
    cases hd : dischargeArc node_id it s b with
    | none => simp [hd] at h
    | some r =>
      obtain ⟨t, c⟩ := r
      simp only [hd] at h
      rw [ih t c s1 b1 h, dischargeArc_potentials hd]

/-- One iteration of the loop of `discharge`, at a node with an excess. -/
theorem dischargeLoop_step {fuel node_id : Nat} {eps : Int} {s s1 : Solver} {b : Bool}
    (hd : s.graph_.nodes_demand node_id > 0)
    (hs : dischargeScan node_id (s.graph_.arcs node_id) s false = some (s1, b)) :
    dischargeLoop (fuel + 1) node_id eps s =
      dischargeLoop fuel node_id eps (if b then s1 else relabel node_id eps s1) := by
  rw [dischargeLoop]
  simp only [hd, if_true, hs]

/-- The loop of `discharge` returns at once at a node without an excess. -/
theorem dischargeLoop_exit {fuel node_id : Nat} {eps : Int} {s : Solver}
    (hd : ¬ s.graph_.nodes_demand node_id > 0) :
    dischargeLoop fuel node_id eps s = some s := by
  unfold dischargeLoop
  simp only [hd, if_false]

/-- C20. Relabels are monotone and local.  An iteration of the loop of `discharge` at node `u`
relabels only after a full scan of the active arcs of `u` in which no arc had both `cap > 0` and
a reduced cost below 0 (the scan then changed nothing), and the relabel lowers the potential of
`u` by exactly `eps` and changes no other; a scan that pushes leaves all potentials alone.  So
`discharge` of `u` changes no potential but that of `u`, which it lowers by a multiple of `eps`,
and for `eps ≥ 1` no potential of any node is higher after `refine` than before. -/
theorem discharge_relabel_local (eps : Int) (s : Solver) :
    (∀ fuel node_id s1 b, s.graph_.nodes_demand node_id > 0 →
      dischargeScan node_id (s.graph_.arcs node_id) s false = some (s1, b) →
      s1.potentials = s.potentials ∧
      dischargeLoop (fuel + 1) node_id eps s =
        dischargeLoop fuel node_id eps (if b then s1 else relabel node_id eps s1) ∧
      (b = false → s1 = s ∧
        (∀ it ∈ s.graph_.arcs node_id,
          ¬ (reducedCost s node_id it < 0 ∧ 0 < (s.graph_.mem it.2).cap)) ∧
        (relabel node_id eps s1).potentials node_id = s.potentials node_id - eps ∧
        ∀ w, w ≠ node_id → (relabel node_id eps s1).potentials w = s.potentials w)) ∧
    (∀ fuel node_id rest s1, s.active_nodes = node_id :: rest →
      discharge fuel eps s = some s1 →
      (∀ w, w ≠ node_id → s1.potentials w = s.potentials w) ∧
      ∃ k : Nat, s1.potentials node_id = s.potentials node_id - k * eps) ∧
    (1 ≤ eps → ∀ fuel s1, refine fuel eps s = some s1 →
      ∀ w, s1.potentials w ≤ s.potentials w) := by
  refine ⟨?_, ?_, ?_⟩
  · intro fuel node_id s1 b hd hs
    refine ⟨dischargeScan_potentials _ _ _ _ _ hs, dischargeLoop_step hd hs, ?_⟩
    intro hb
    subst hb
    obtain ⟨h1, _, h3⟩ := dischargeScan_false _ _ _ _ hs
    subst h1
    refine ⟨rfl, h3, ?_, ?_⟩
    · simp [relabel]
    · intro w hw
      simp [relabel, Function.update_noteq hw]
  · intro fuel node_id rest s1 hact h
    unfold discharge at h
    rw [hact] at h
    simp only at h
    have key := dischargeLoop_inv
      (fun t => (∀ w, w ≠ node_id → t.potentials w = s.potentials w) ∧
        ∃ k : Nat, t.potentials node_id = s.potentials node_id - k * eps) node_id eps
      ?_ ?_ fuel { s with active_nodes := rest } s1 ⟨fun _ _ => rfl, 0, by simp⟩ h
    · exact key
    · intro it t b t1 b1 _ ht hs
      rw [dischargeArc_potentials hs]
      exact ht
    · intro t ht _ _
      obtain ⟨h1, k, h2⟩ := ht
      refine ⟨?_, k + 1, ?_⟩
      · intro w hw
        simp only [relabel, Function.update_noteq hw]
        exact h1 w hw
      · simp only [relabel, Function.update_same]
        rw [h2]
        push_cast
        ring
  · intro heps fuel s1 h
    exact refine_inv (fun t => ∀ w, t.potentials w ≤ s.potentials w) eps
      (fun t q ht => ht)
      (fun node_id it t t1 _ ht hs w => by rw [saturateArc_potentials hs]; exact ht w)
      (fun node_id it t b t1 b1 _ ht hs w => by rw [dischargeArc_potentials hs]; exact ht w)
      (fun node_id t ht _ _ w => by
        by_cases hw : w = node_id
        · subst hw
          simp only [relabel, Function.update_same]
          have := ht w
          omega
        · simp only [relabel, Function.update_noteq hw]
          exact ht w)
      fuel s s1 (fun _ => le_refl _) h

theorem discharge_relabel_local_witness :
    demoSolverActive.active_nodes = 1 :: [] ∧
    (discharge 10 1 demoSolverActive).map
      (fun t => (t.potentials 1, t.potentials 2, t.relabel_cnt)) = some (-2, 0, 2) ∧
    (∀ t, discharge 10 1 demoSolverActive = some t → t.potentials 2 = 0) := by
  refine ⟨rfl, by decide!, ?_⟩
  intro t ht
  exact ((discharge_relabel_local 1 demoSolverActive).2.1 10 1 [] t rfl ht).1 2 (by decide)

/-! ## Termination of `discharge` -/

/-- A sum over a list does not grow when no term grows. -/
theorem list_sum_le_sum {α : Type} (l : List α) (f g : α → Nat) (h : ∀ x ∈ l, f x ≤ g x) :
    (l.map f).sum ≤ (l.map g).sum := by
  induction l with
  | nil => simp
  | cons a l ih =>
    have h1 := h a (List.mem_cons_self _ _)
    have h2 := ih (fun x hx => h x (List.mem_cons_of_mem _ hx))
    simp only [List.map_cons, List.sum_cons]
    omega

/-- A sum over a list shrinks when no term grows and one shrinks. -/
theorem list_sum_lt_sum {α : Type} (l : List α) (f g : α → Nat) (h : ∀ x ∈ l, f x ≤ g x)
    {a : α} (ha : a ∈ l) (hlt : f a < g a) : (l.map f).sum < (l.map g).sum := by
  induction l with
  | nil => exact absurd ha (List.not_mem_nil _)
  | cons b l ih =>
    have h1 := h b (List.mem_cons_self _ _)
    have h2 := list_sum_le_sum l f g (fun x hx => h x (List.mem_cons_of_mem _ hx))
    simp only [List.map_cons, List.sum_cons]
    rcases List.mem_cons.mp ha with rfl | ha
    · omega
    · have := ih (fun x hx => h x (List.mem_cons_of_mem _ hx)) ha
      omega

/-- A sum over a list without repetition when one term changes. -/
theorem list_sum_change {α : Type} (l : List α) (hn : l.Nodup) (f g : α → Int) {a : α}
    (ha : a ∈ l) (h : ∀ x ∈ l, x ≠ a → g x = f x) :
    (l.map g).sum = (l.map f).sum + (g a - f a) := by
  induction l with
  | nil => exact absurd ha (List.not_mem_nil _)
  | cons b l ih =>
    rw [List.nodup_cons] at hn
    simp only [List.map_cons, List.sum_cons]
    rcases List.mem_cons.mp ha with rfl | ha
    · have : (l.map g).sum = (l.map f).sum := by
        congr 1
        refine List.map_congr_left ?_
        intro x hx
        refine h x (List.mem_cons_of_mem _ hx) ?_
        rintro rfl
        exact hn.1 hx
      rw [this]
      ring
    · have hb : g b = f b := by
        refine h b (List.mem_cons_self _ _) ?_
        rintro rfl
        exact hn.1 ha
      rw [ih hn.2 ha (fun x hx => h x (List.mem_cons_of_mem _ hx)), hb]
      ring

/-- The body of the scan of `discharge` returns when the arcs are paired. -/
theorem dischargeArc_total {node_id : Nat} {it : Nat × Nat} {s : Solver} (b : Bool)
    (hp : s.graph_.Paired) (hit : it ∈ s.graph_.arcs node_id) :
    ∃ r, dischargeArc node_id it s b = some r := by
  obtain ⟨v, p⟩ := it
  have hm := hp.find_mate hit
  unfold dischargeArc
  split_ifs
  · simp only [Graph.addCap_arcs]
    rw [hm]
    exact ⟨_, rfl⟩
  · exact ⟨_, rfl⟩
  · exact ⟨_, rfl⟩

/-- What the body of the scan of `discharge` does to the measure, the outgoing capacity and the
excess of the node being discharged, when the excess is not negative: the measure does not grow,
the capacity and the excess fall by the same amount, and when the flag is raised the excess is
used up or the measure has fallen. -/
theorem dischargeArc_progress {node_id : Nat} {it : Nat × Nat} {s s1 : Solver} {b b1 : Bool}
    (hp : s.graph_.Paired)
    (hna : ∀ u v p u1 v1, (v, p) ∈ s.graph_.arcs u → (v1, p) ∈ s.graph_.arcs u1 →
      u = u1 ∧ v = v1)
    (hit : it ∈ s.graph_.arcs node_id) (he : 0 ≤ s.graph_.nodes_demand node_id)
    (h : dischargeArc node_id it s b = some (s1, b1)) :
    0 ≤ s1.graph_.nodes_demand node_id ∧
    s1.graph_.nodes_demand node_id ≤ s.graph_.nodes_demand node_id ∧
    dischargeMeasure s1 node_id ≤ dischargeMeasure s node_id ∧
    s1.outCap node_id - s1.graph_.nodes_demand node_id =
      s.outCap node_id - s.graph_.nodes_demand node_id ∧
    (b1 = true → b = true ∨ s1.graph_.nodes_demand node_id = 0 ∨
      dischargeMeasure s1 node_id < dischargeMeasure s node_id) := by
  by_cases hadm : reducedCost s node_id it < 0 ∧ 0 < (s.graph_.mem it.2).cap
  · have hsh := dischargeArc_sameShape h
    have hpot := dischargeArc_potentials h
    have hcap := dischargeArc_cap hp hit h hadm
    have hdem := dischargeArc_demand hp hit h hadm
    obtain ⟨v, p⟩ := it
    simp only at hcap hdem hadm
    obtain ⟨f, hf⟩ : ∃ f, f = min (s.graph_.nodes_demand node_id) (s.graph_.mem p).cap :=
      ⟨_, rfl⟩
    rw [← hf] at hcap hdem
    have hf0 : 0 ≤ f := by
      rw [hf]
      exact le_min he (le_of_lt hadm.2)
    have hfe : f ≤ s.graph_.nodes_demand node_id := by
      rw [hf]
      exact min_le_left _ _
    have hfc : f ≤ (s.graph_.mem p).cap := by
      rw [hf]
      exact min_le_right _ _
    have hrc : ∀ e, reducedCost s1 node_id e = reducedCost s node_id e :=
      fun e => reducedCost_congr hsh hpot node_id e
    -- the capacity of another active arc of the node does not change
    have hother : ∀ e ∈ s.graph_.arcs node_id, e ≠ (v, p) →
        (s1.graph_.mem e.2).cap = (s.graph_.mem e.2).cap := by
      intro e hmem hne
      obtain ⟨v1, q⟩ := e
      have h1 : q ≠ p := by
        rintro rfl
        exact hne (by rw [(hna _ _ _ _ _ hmem hit).2])
      have h2 : q ≠ (s.graph_.mem p).reverse_arc := by
        rintro rfl
        have := (hna _ _ _ _ _ hmem (hp.mate _ _ _ hit)).1
        rw [this] at hit
        exact hp.no_loop hit
      rw [hcap q, if_neg h1, if_neg h2]
    have hself : (s1.graph_.mem p).cap = (s.graph_.mem p).cap - f := by
      rw [hcap p, if_pos rfl]
    have hwle : ∀ e ∈ s.graph_.arcs node_id,
        dischargeWeight s1 node_id e ≤ dischargeWeight s node_id e := by
      intro e hmem
      unfold dischargeWeight
      rw [hrc]
      by_cases hne : e = (v, p)
      · subst hne
        simp only
        rw [hself]
        split_ifs <;> omega
      · rw [hother e hmem hne]
    have hM : dischargeMeasure s1 node_id ≤ dischargeMeasure s node_id := by
      unfold dischargeMeasure
      rw [hsh.arcs]
      exact list_sum_le_sum _ _ _ hwle
    have hC : s1.outCap node_id = s.outCap node_id - f := by
      unfold Solver.outCap
      rw [hsh.arcs]
      rw [list_sum_change (s.graph_.arcs node_id) (List.Nodup.of_map Prod.fst (hp.keys node_id))
        (fun e => max (s.graph_.mem e.2).cap 0) (fun e => max (s1.graph_.mem e.2).cap 0) hit
        (fun e hmem hne => by simp only; rw [hother e hmem hne])]
      simp only
      rw [hself, max_eq_left (by omega : (0 : Int) ≤ (s.graph_.mem p).cap - f),
        max_eq_left (le_of_lt hadm.2)]
      ring
    refine ⟨by omega, by omega, hM, by rw [hC, hdem]; ring, ?_⟩
    intro _
    right
    by_cases hcase : s.graph_.nodes_demand node_id ≤ (s.graph_.mem p).cap
    · left
      rw [hdem, hf, min_eq_left hcase]
      ring
    · right
      have hfeq : f = (s.graph_.mem p).cap := by
        rw [hf]
        exact min_eq_right (by omega)
      unfold dischargeMeasure
      rw [hsh.arcs]
      refine list_sum_lt_sum _ _ _ hwle hit ?_
      unfold dischargeWeight
      simp only
      rw [hself, hfeq, if_pos hadm.2]
      simp
  · rcases dischargeArc_cases h with ⟨_, rfl, rfl⟩ | ⟨h1, h2, _⟩
    · exact ⟨he, le_refl _, le_refl _, rfl, fun hb => Or.inl hb⟩
    · exact absurd ⟨h1, h2⟩ hadm

/-- The scan of `discharge` returns on paired arcs; it keeps the shape of the graph and the
potentials, and when the excess of the node is not negative the measure does not grow, the
outgoing capacity and the excess fall by the same amount, and a raised flag means that the excess
is used up or the measure has fallen. -/
theorem dischargeScan_progress {node_id : Nat} :
    ∀ (l : List (Nat × Nat)) (s : Solver) (b : Bool), s.graph_.Paired →
      (∀ u v p u1 v1, (v, p) ∈ s.graph_.arcs u → (v1, p) ∈ s.graph_.arcs u1 →
        u = u1 ∧ v = v1) →
      (∀ it ∈ l, it ∈ s.graph_.arcs node_id) → 0 ≤ s.graph_.nodes_demand node_id →
      ∃ s1 b1, dischargeScan node_id l s b = some (s1, b1) ∧
        s.graph_.SameShape s1.graph_ ∧ s1.potentials = s.potentials ∧
        0 ≤ s1.graph_.nodes_demand node_id ∧
        s1.graph_.nodes_demand node_id ≤ s.graph_.nodes_demand node_id ∧
        dischargeMeasure s1 node_id ≤ dischargeMeasure s node_id ∧
        s1.outCap node_id - s1.graph_.nodes_demand node_id =
          s.outCap node_id - s.graph_.nodes_demand node_id ∧
        (b1 = true → b = true ∨ s1.graph_.nodes_demand node_id = 0 ∨
          dischargeMeasure s1 node_id < dischargeMeasure s node_id) := by
  intro l
  induction l with
  | nil =>
    intro s b _ _ _ he
    exact ⟨s, b, rfl, Graph.SameShape.refl _, rfl, he, le_refl _, le_refl _, rfl,
      fun hb => Or.inl hb⟩
  | cons it rest ih =>
    intro s b hp hna hl he
    have hit := hl it (List.mem_cons_self _ _)
    obtain ⟨r, hr⟩ := dischargeArc_total b hp hit
    obtain ⟨t, c⟩ := r
    obtain ⟨a1, a2, a3, a4, a5⟩ := dischargeArc_progress hp hna hit he hr
    have hsh := dischargeArc_sameShape hr
    have hpot := dischargeArc_potentials hr
    obtain ⟨s1, b1, g0, g1, g2, g3, g4, g5, g6, g7⟩ := ih t c (hp.of_sameShape hsh)
      (by rw [hsh.arcs]; exact hna)
      (by
        intro e he1
        rw [hsh.arcs]
        exact hl e (List.mem_cons_of_mem _ he1)) a1
    refine ⟨s1, b1, ?_, hsh.trans g1, g2.trans hpot, g3, le_trans g4 a2, le_trans g5 a3,
      g6.trans a4, ?_⟩
    · simp only [dischargeScan, hr]
      exact g0
    · intro hb1
      rcases g7 hb1 with h | h | h
      · rcases a5 h with h | h | h
        · exact Or.inl h
        · right
          left
          omega
        · right
          right
          omega
      · exact Or.inr (Or.inl h)
      · right
        right
        omega

/-- A relabel at a node with an excess, outgoing capacity for it and no admissible arc lowers
the measure. -/
theorem relabel_measure {node_id : Nat} {eps : Int} {s : Solver} (heps : 1 ≤ eps)
    (hp : s.graph_.Paired) (hd : 0 < s.graph_.nodes_demand node_id)
    (hcap : s.graph_.nodes_demand node_id ≤ s.outCap node_id)
    (hno : ∀ it ∈ s.graph_.arcs node_id,
      ¬ (reducedCost s node_id it < 0 ∧ 0 < (s.graph_.mem it.2).cap)) :
    dischargeMeasure (relabel node_id eps s) node_id < dischargeMeasure s node_id := by
  have hrc : ∀ it ∈ s.graph_.arcs node_id,
      reducedCost (relabel node_id eps s) node_id it = reducedCost s node_id it - eps := by
    intro it hit
    obtain ⟨v, p⟩ := it
    have hv : v ≠ node_id := by
      rintro rfl
      exact hp.no_loop hit
    simp only [reducedCost, relabel, Function.update_same, Function.update_noteq hv]
    ring
  have hle : ∀ it ∈ s.graph_.arcs node_id,
      dischargeWeight (relabel node_id eps s) node_id it ≤ dischargeWeight s node_id it := by
    intro it hit
    unfold dischargeWeight
    rw [hrc it hit]
    show (if (s.graph_.mem it.2).cap > 0 then _ else _) ≤ _
    split_ifs <;> omega
  -- some active arc of the node has capacity left
  have hex : ∃ it ∈ s.graph_.arcs node_id, 0 < (s.graph_.mem it.2).cap := by
    by_contra hcon
    push_neg at hcon
    have : s.outCap node_id = 0 := by
      unfold Solver.outCap
      refine List.sum_eq_zero ?_
      intro y hy
      obtain ⟨e, he, rfl⟩ := List.mem_map.mp hy
      exact max_eq_right (hcon e he)
    omega
  obtain ⟨it, hit, hc⟩ := hex
  have hnn : ¬ reducedCost s node_id it < 0 := fun h => hno it hit ⟨h, hc⟩
  show ((relabel node_id eps s).graph_.arcs node_id |>.map _).sum < _
  refine list_sum_lt_sum _ _ _ hle hit ?_
  unfold dischargeWeight
  rw [hrc it hit]
  show (if (s.graph_.mem it.2).cap > 0 then _ else _) < _
  rw [if_pos hc, if_pos hc]
  omega

/-- The loop of `discharge` returns, with no excess at the node, within as many iterations as the
measure plus one, when the arcs are paired and the outgoing capacity covers the excess. -/
theorem dischargeLoop_terminates {node_id : Nat} {eps : Int} (heps : 1 ≤ eps) :
    ∀ (n : Nat) (s : Solver), s.graph_.Paired →
      (∀ u v p u1 v1, (v, p) ∈ s.graph_.arcs u → (v1, p) ∈ s.graph_.arcs u1 →
        u = u1 ∧ v = v1) →
      s.graph_.nodes_demand node_id ≤ s.outCap node_id →
      dischargeMeasure s node_id ≤ n →
      ∀ fuel, n < fuel → ∃ s1, dischargeLoop fuel node_id eps s = some s1 ∧
        s1.graph_.nodes_demand node_id ≤ 0 := by
  intro n
  induction n using Nat.strong_induction_on with
  | _ n ih =>
    intro s hp hna hcap hM fuel hfuel
    by_cases hd : s.graph_.nodes_demand node_id > 0
    · obtain ⟨k, rfl⟩ : ∃ k, fuel = k + 1 := ⟨fuel - 1, by omega⟩
      obtain ⟨t, b, g0, g1, g2, g3, g4, g5, g6, g7⟩ :=
        dischargeScan_progress (s.graph_.arcs node_id) s false hp hna (fun _ h => h)
          (le_of_lt hd)
      rw [dischargeLoop_step hd g0]
      cases b with
      | false =>
        obtain ⟨h1, _, h3⟩ := dischargeScan_false _ _ _ _ g0
        subst h1
        have hlt := relabel_measure heps hp hd hcap h3
        simp only [Bool.false_eq_true, if_false]
        refine ih (dischargeMeasure (relabel node_id eps t) node_id) (by omega)
          (relabel node_id eps t) hp hna hcap (le_refl _) k (by omega)
      | true =>
        simp only [if_true]
        have hpt := hp.of_sameShape g1
        have hnat : ∀ u v p u1 v1, (v, p) ∈ t.graph_.arcs u → (v1, p) ∈ t.graph_.arcs u1 →
            u = u1 ∧ v = v1 := by
          rw [g1.arcs]
          exact hna
        rcases g7 rfl with h | h | h
        · exact absurd h (by decide)
        · exact ⟨t, dischargeLoop_exit (by omega), by omega⟩
        · exact ih (dischargeMeasure t node_id) (by omega) t hpt hnat (by omega) (le_refl _)
            k (by omega)
    · exact ⟨s, dischargeLoop_exit hd, by omega⟩

/-- The loop of `discharge` never returns at a node whose excess is above the residual capacity
of its active arcs. -/
theorem dischargeLoop_diverges {node_id : Nat} {eps : Int} :
    ∀ (fuel : Nat) (s : Solver), s.graph_.Paired →
      (∀ u v p u1 v1, (v, p) ∈ s.graph_.arcs u → (v1, p) ∈ s.graph_.arcs u1 →
        u = u1 ∧ v = v1) →
      s.outCap node_id < s.graph_.nodes_demand node_id →
      dischargeLoop fuel node_id eps s = none := by
  intro fuel
  induction fuel with
  | zero =>
    intro s _ _ hcap
    have h0 : 0 ≤ s.outCap node_id := by
      unfold Solver.outCap
      apply List.sum_nonneg
      intro y hy
      obtain ⟨e, _, rfl⟩ := List.mem_map.mp hy
      exact le_max_right _ _
    have hd : s.graph_.nodes_demand node_id > 0 := by omega
    unfold dischargeLoop
    simp only [hd, if_true]
  | succ k ih =>
    intro s hp hna hcap
    have h0 : 0 ≤ s.outCap node_id := by
      unfold Solver.outCap
      apply List.sum_nonneg
      intro y hy
      obtain ⟨e, _, rfl⟩ := List.mem_map.mp hy
      exact le_max_right _ _
    have hd : s.graph_.nodes_demand node_id > 0 := by omega
    obtain ⟨t, b, g0, g1, _, _, _, _, g6, _⟩ :=
      dischargeScan_progress (s.graph_.arcs node_id) s false hp hna (fun _ h => h)
        (le_of_lt hd)
    rw [dischargeLoop_step hd g0]
    have hpt := hp.of_sameShape g1
    have hnat : ∀ u v p u1 v1, (v, p) ∈ t.graph_.arcs u → (v1, p) ∈ t.graph_.arcs u1 →
        u = u1 ∧ v = v1 := by
      rw [g1.arcs]
      exact hna
    cases b with
    | false =>
      simp only [Bool.false_eq_true, if_false]
      exact ih (relabel node_id eps t) hpt hnat (by
        show t.outCap node_id < t.graph_.nodes_demand node_id
        omega)
    | true =>
      simp only [if_true]
      exact ih t hpt hnat (by omega)

/-- C19, as the code has it.  For every state with paired active arcs in one slot each, every
potential vector, every `eps ≥ 1` and every node `u` at the front of the queue: when the residual
capacities of the active arcs of `u` sum to at least the excess of `u`, `discharge` returns
within `dischargeMeasure + 1` iterations of its loop, each one scan and at most one relabel, and
on return the excess of `u` is at most 0; when they sum to less, `discharge` does not return. -/
theorem discharge_terminates (eps : Int) (s : Solver) (node_id : Nat) (rest : List Nat)
    (heps : 1 ≤ eps) (hp : s.graph_.Paired)
    (hna : ∀ u v p u1 v1, (v, p) ∈ s.graph_.arcs u → (v1, p) ∈ s.graph_.arcs u1 →
      u = u1 ∧ v = v1)
    (hact : s.active_nodes = node_id :: rest) :
    (s.graph_.nodes_demand node_id ≤ s.outCap node_id →
      ∀ fuel, dischargeMeasure s node_id < fuel →
        ∃ s1, discharge fuel eps s = some s1 ∧ s1.graph_.nodes_demand node_id ≤ 0) ∧
    (s.outCap node_id < s.graph_.nodes_demand node_id →
      ∀ fuel, discharge fuel eps s = none) := by
  constructor
  · intro hcap fuel hfuel
    unfold discharge
    rw [hact]
    exact dischargeLoop_terminates heps (dischargeMeasure s node_id)
      { s with active_nodes := rest } hp hna hcap (le_refl _) fuel hfuel
  · intro hcap fuel
    unfold discharge
    rw [hact]
    exact dischargeLoop_diverges fuel { s with active_nodes := rest } hp hna hcap

theorem discharge_terminates_witness :
    (1 : Int) ≤ 1 ∧ demoSolverActive.graph_.Paired ∧
    demoSolverActive.active_nodes = 1 :: [] ∧
    demoSolverActive.graph_.nodes_demand 1 ≤ demoSolverActive.outCap 1 ∧
    dischargeMeasure demoSolverActive 1 = 3 ∧
    (∃ s1, discharge 4 1 demoSolverActive = some s1 ∧ s1.graph_.nodes_demand 1 ≤ 0) ∧
    (discharge 4 1 demoSolverActive).map
      (fun t => (t.graph_.nodes_demand 1, t.graph_.nodes_demand 2, t.relabel_cnt)) =
      some (0, 0, 2) := by
  have hcap : demoSolverActive.graph_.nodes_demand 1 ≤ demoSolverActive.outCap 1 := by decide
  have hm : dischargeMeasure demoSolverActive 1 = 3 := by decide
  refine ⟨by decide, demoGraph_paired, rfl, hcap, hm, ?_, by decide!⟩
  exact (discharge_terminates 1 demoSolverActive 1 [] (by decide) demoGraph_paired
    demoGraph_residual.noalias rfl).1 hcap 4 (by rw [hm]; decide)

/-- C19, counterexample.  On the graph with one node of supply 1 and no arcs, with node 1 at the
front of the queue, the scan of `discharge` finds no arc, so every iteration of the loop relabels
node 1 and leaves its excess at 1: `discharge` returns for no number of iterations. -/
theorem discharge_terminates_counterexample :
    stuckSolver.active_nodes = [1] ∧ stuckSolver.graph_.nodes_demand 1 = 1 ∧
    stuckSolver.graph_.arcs 1 = [] ∧
    (∀ fuel, discharge fuel 1 stuckSolver = none) ∧
    ¬ ∃ fuel s1, discharge fuel 1 stuckSolver = some s1 := by
  have hp : stuckSolver.graph_.Paired := by
    refine ⟨?_, ?_, ?_⟩
    · intro u
      exact List.nodup_nil
    · intro u v p h
      exact absurd h (List.not_mem_nil _)
    · intro u v p h
      exact absurd h (List.not_mem_nil _)
  have hnone : ∀ fuel, discharge fuel 1 stuckSolver = none := by
    intro fuel
    unfold discharge
    exact dischargeLoop_diverges fuel { stuckSolver with active_nodes := [] } hp
      (fun u v p u1 v1 h => absurd h (List.not_mem_nil _)) (by decide)
  refine ⟨rfl, rfl, rfl, hnone, ?_⟩
  rintro ⟨fuel, s1, h⟩
  rw [hnone fuel] at h
  exact absurd h (by simp)

/-! ## The exit code of `main` -/

/-- C14, as the code has it.  For every value of `--algorithm`, known or not, a run of `main` that
returns ends with exit code 0 after calling `writeGraph`.  For a value other than the seven known
names `main` calls no solver and returns: it logs `Unknown algorithm`, calls `writeGraph` on the
graph as read with `scale_down = 1`, and exits with 0.  For each of the seven names it exits with
0 whenever the solver returns. -/
theorem main_exit_code (run : String → Graph → Option Graph) (algorithm : String) (alpha : Int)
    (graph : Graph) :
    (∀ r, main run algorithm alpha graph = some r → r.exit_code = 0 ∧ r.wrote_output = true) ∧
    (algorithm ∉ knownAlgorithms →
      ∃ r, main run algorithm alpha graph = some r ∧ r.exit_code = 0 ∧ r.wrote_output = true ∧
        r.logged_unknown = true ∧ r.scale_down = 1 ∧ r.out_graph = graph) ∧
    (algorithm ∈ knownAlgorithms → ∀ g, run algorithm graph = some g →
      ∃ r, main run algorithm alpha graph = some r ∧ r.exit_code = 0 ∧ r.wrote_output = true ∧
        r.logged_unknown = false ∧ r.out_graph = g) := by
  refine ⟨?_, ?_, ?_⟩
  · intro r h
    unfold main at h
    simp only at h
    split_ifs at h <;>
      first
      | (cases hr : run _ graph <;> rw [hr] at h <;> simp only [Option.map_none', Option.map_some',
          Option.some.injEq] at h
         · exact absurd h (by simp)
         · subst h
           exact ⟨rfl, rfl⟩)
      | (simp only [Option.some.injEq] at h
         subst h
         exact ⟨rfl, rfl⟩)
  · intro hn
    simp only [knownAlgorithms, List.mem_cons, List.mem_singleton, List.not_mem_nil, or_false,
      not_or] at hn
    obtain ⟨h1, h2, h3, h4, h5, h6, h7⟩ := hn
    refine ⟨mainFinish graph 1 true, ?_, rfl, rfl, rfl, rfl, rfl⟩
    unfold main
    simp only [h1, h2, h3, h4, h5, h6, h7, if_false]
  · intro hk g hg
    simp only [knownAlgorithms, List.mem_cons, List.mem_singleton, List.not_mem_nil,
      or_false] at hk
    unfold main
    rcases hk with rfl | rfl | rfl | rfl | rfl | rfl | rfl
    · exact ⟨mainFinish g 1 false, by simp [hg], rfl, rfl, rfl, rfl⟩
    · exact ⟨mainFinish g 1 false, by simp [hg], rfl, rfl, rfl, rfl⟩
    · exact ⟨mainFinish g 1 false, by simp [hg], rfl, rfl, rfl, rfl⟩
    · exact ⟨mainFinish g 1 false, by simp [hg], rfl, rfl, rfl, rfl⟩
    · exact ⟨mainFinish g 1 false, by simp [hg], rfl, rfl, rfl, rfl⟩
    · exact ⟨mainFinish g 1 false, by simp [hg], rfl, rfl, rfl, rfl⟩
    · exact ⟨mainFinish g (alpha * (g.num_nodes : Int)) false, by simp [hg], rfl, rfl, rfl, rfl⟩

theorem main_exit_code_witness :
    "cost_scaling" ∈ knownAlgorithms ∧
    ∃ r, main (fun _ g => some g) "cost_scaling" 2 demoGraph = some r ∧ r.exit_code = 0 ∧
      r.wrote_output = true ∧ r.logged_unknown = false := by
  refine ⟨by decide, ?_⟩
  obtain ⟨r, h1, h2, h3, h4, _⟩ :=
    (main_exit_code (fun _ g => some g) "cost_scaling" 2 demoGraph).2.2 (by decide) demoGraph rfl
  exact ⟨r, h1, h2, h3, h4⟩

/-- C14, counterexample.  With `--algorithm simplex`, which is none of the seven names, `main`
returns with exit code 0 and has called `writeGraph`. -/
theorem main_exit_code_counterexample :
    "simplex" ∉ knownAlgorithms ∧
    (main (fun _ g => some g) "simplex" 2 demoGraph).map
      (fun r => (r.exit_code, r.wrote_output, r.logged_unknown, r.scale_down)) =
      some (0, true, true, 1) := by
  decide

/-! ## Supply that differs from demand -/

theorem ArcMap.find_assign_same (m : ArcMap) (key p : Nat) :
    ArcMap.find (ArcMap.assign m key p) key = some p := by
  induction m with
  | nil => simp [ArcMap.assign, ArcMap.find]
  | cons e m ih =>
    obtain ⟨k, q⟩ := e
    unfold ArcMap.assign
    split_ifs with h1 h2
    · simp [ArcMap.find]
    · simp [ArcMap.find]
    · simp only [ArcMap.find, if_neg h1]
      exact ih

theorem ArcMap.find_assign_ne (m : ArcMap) {key k : Nat} (p : Nat) (h : k ≠ key) :
    ArcMap.find (ArcMap.assign m key p) k = ArcMap.find m k := by
  induction m with
  | nil => simp [ArcMap.assign, ArcMap.find, Ne.symm h]
  | cons e m ih =>
    obtain ⟨k0, q⟩ := e
    unfold ArcMap.assign
    split_ifs with h1 h2
    · subst h1
      simp [ArcMap.find, Ne.symm h]
    · simp [ArcMap.find, Ne.symm h]
    · simp only [ArcMap.find]
      rw [ih]

/-- A graph without entries has loaded the arcs of no line. -/
theorem FileGraph.Loaded.of_no_entries (g : FileGraph) (h : ∀ u, g.arcs u = []) :
    g.Loaded [] where
  pairs := by
    intro src dst lo cap cost hm
    simp at hm
  from_lines := by
    intro u v p hm
    rw [h u] at hm
    simp at hm
  sorted := by
    intro u
    rw [h u]
    exact List.Pairwise.nil

/-- A line that is no arc and leaves the maps and the heap alone keeps the loaded arcs. -/
theorem FileGraph.Loaded.of_same {g g1 : FileGraph} {done : List DimacsLine} {l : DimacsLine}
    (hL : g.Loaded done) (ha : g1.arcs = g.arcs) (hm : g1.mem = g.mem) (hn : g1.next = g.next)
    (hl : ∀ src dst lo cap cost, l ≠ DimacsLine.arc src dst lo cap cost) :
    g1.Loaded (done ++ [l]) where
  pairs := by
    intro src dst lo cap cost hmem
    rcases List.mem_append.mp hmem with hmem | hmem
    · rw [ha, hm, hn]
      exact hL.pairs src dst lo cap cost hmem
    · exact absurd (List.mem_singleton.mp hmem).symm (hl src dst lo cap cost)
  from_lines := by
    intro u v p hmem
    rw [ha] at hmem
    obtain ⟨lo, cap, cost, h⟩ := hL.from_lines u v p hmem
    exact ⟨lo, cap, cost, h.imp (fun h => List.mem_append_left _ h)
      (fun h => List.mem_append_left _ h)⟩
  sorted := by
    intro u
    rw [ha]
    exact hL.sorted u

/-- An `a` line between two different nodes: the maps, the heap and the sizes after it. -/
theorem readLine_arc (g : FileGraph) (s d lo c k : Nat) (hs : s < g.arcs_size)
    (hd : d < g.arcs_size) (hsd : s ≠ d) :
    ∃ g1, readLine g (DimacsLine.arc s d lo c k) = some g1 ∧
      (∀ u, g1.arcs u = if u = d then ArcMap.assign (g.arcs d) s (g.next + 1)
        else if u = s then ArcMap.assign (g.arcs s) d g.next else g.arcs u) ∧
      (∀ p, g1.mem p = if p = g.next + 1 then ⟨0, -toInt32 lo, -toInt32 k, true, 0⟩
        else if p = g.next then ⟨(c : Int), toInt32 lo, toInt32 k, false, 0⟩ else g.mem p) ∧
      g1.next = g.next + 2 ∧ g1.arcs_size = g.arcs_size ∧
      g1.nodes_descriptor_size = g.nodes_descriptor_size := by
  refine ⟨((g.alloc ⟨(c : Int), toInt32 lo, toInt32 k, false, 0⟩).setArc s d g.next).alloc
    ⟨0, -toInt32 lo, -toInt32 k, true, 0⟩ |>.setArc d s (g.next + 1), ?_, ?_, ?_, rfl, rfl, rfl⟩
  · simp only [readLine, if_pos (And.intro hs hd)]
    rfl
  · intro u
    simp only [FileGraph.setArc, FileGraph.alloc, Function.update_apply]
    by_cases hud : u = d
    · subst hud
      simp [Ne.symm hsd]
    · by_cases hus : u = s
      · subst hus
        simp [hud]
      · simp [hud, hus]
  · intro p
    simp only [FileGraph.setArc, FileGraph.alloc, Function.update_apply]

/-- One line of the input: the line is read, the sizes of the vectors stay and the arcs of the
lines read so far are loaded. -/
theorem readLine_loaded (g : FileGraph) (done : List DimacsLine) (l : DimacsLine)
    (hL : g.Loaded done) (hr : l.InRange g.arcs_size g.nodes_descriptor_size)
    (hap : ∀ l0 ∈ done, DimacsLine.Apart l0 l) :
    ∃ g1, readLine g l = some g1 ∧ g1.Loaded (done ++ [l]) ∧ g1.arcs_size = g.arcs_size ∧
      g1.nodes_descriptor_size = g.nodes_descriptor_size := by
  cases l with
  | arc s d lo c k =>
    obtain ⟨hs, hd, hsd⟩ := hr
    have hap1 : ∀ s0 d0 lo0 c0 k0, DimacsLine.arc s0 d0 lo0 c0 k0 ∈ done →
        ¬ (s0 = s ∧ d0 = d) ∧ ¬ (s0 = d ∧ d0 = s) := fun s0 d0 lo0 c0 k0 h => hap _ h
    obtain ⟨g1, hg1, harcs, hmem, hnext, hsz1, hsz2⟩ := readLine_arc g s d lo c k hs hd hsd
    refine ⟨g1, hg1, ?_, hsz1, hsz2⟩
    constructor
    · intro s0 d0 lo0 c0 k0 hm
      rcases List.mem_append.mp hm with hm | hm
      · obtain ⟨p, q, hpq, hp, hq, hfp, hfq, hmp, hmq⟩ := hL.pairs s0 d0 lo0 c0 k0 hm
        obtain ⟨h1, h2⟩ := hap1 s0 d0 lo0 c0 k0 hm
        refine ⟨p, q, hpq, by rw [hnext]; omega, by rw [hnext]; omega, ?_, ?_, ?_, ?_⟩
        · rw [harcs]
          split_ifs with ha hb
          · subst ha
            rw [ArcMap.find_assign_ne _ _ (fun h => h2 ⟨rfl, h⟩)]
            exact hfp
          · subst hb
            rw [ArcMap.find_assign_ne _ _ (fun h => h1 ⟨rfl, h⟩)]
            exact hfp
          · exact hfp
        · rw [harcs]
          split_ifs with ha hb
          · subst ha
            rw [ArcMap.find_assign_ne _ _ (fun h => h1 ⟨h, rfl⟩)]
            exact hfq
          · subst hb
            rw [ArcMap.find_assign_ne _ _ (fun h => h2 ⟨h, rfl⟩)]
            exact hfq
          · exact hfq
        · rw [hmem, if_neg (by omega), if_neg (by omega)]
          exact hmp
        · rw [hmem, if_neg (by omega), if_neg (by omega)]
          exact hmq
      · have he := List.mem_singleton.mp hm
        injection he with e1 e2 e3 e4 e5
        subst e1 e2 e3 e4 e5
        refine ⟨g.next, g.next + 1, by omega, by rw [hnext]; omega, by rw [hnext]; omega,
          ?_, ?_, ?_, ?_⟩
        · rw [harcs, if_neg hsd, if_pos rfl]
          exact ArcMap.find_assign_same _ _ _
        · rw [harcs, if_pos rfl]
          exact ArcMap.find_assign_same _ _ _
        · rw [hmem, if_neg (by omega), if_pos rfl]
        · rw [hmem, if_pos rfl]
    · intro u v p hm
      rw [harcs] at hm
      have hold : (v, p) ∈ g.arcs u → ∃ lo1 cap1 cost1,
          DimacsLine.arc u v lo1 cap1 cost1 ∈ done ++ [DimacsLine.arc s d lo c k] ∨
          DimacsLine.arc v u lo1 cap1 cost1 ∈ done ++ [DimacsLine.arc s d lo c k] := by
        intro h
        obtain ⟨lo1, c1, k1, h⟩ := hL.from_lines u v p h
        exact ⟨lo1, c1, k1, h.imp (fun h => List.mem_append_left _ h)
          (fun h => List.mem_append_left _ h)⟩
      split_ifs at hm with ha hb
      · subst ha
        rcases ArcMap.mem_assign_sub hm with h | h
        · injection h with e1 e2
          subst e1
          exact ⟨lo, c, k, Or.inr (List.mem_append_right _ (List.mem_singleton.mpr rfl))⟩
        · exact hold h
      · subst hb
        rcases ArcMap.mem_assign_sub hm with h | h
        · injection h with e1 e2
          subst e1
          exact ⟨lo, c, k, Or.inl (List.mem_append_right _ (List.mem_singleton.mpr rfl))⟩
        · exact hold h
      · exact hold hm
    · intro u
      rw [harcs]
      split_ifs
      · exact ArcMap.assign_sorted _ _ (hL.sorted _)
      · exact ArcMap.assign_sorted _ _ (hL.sorted _)
      · exact hL.sorted _
  | node id dsc =>
    have hr1 : id < g.nodes_descriptor_size := hr
    have h1 : ∃ g1, readLine g (DimacsLine.node id dsc) = some g1 ∧ g1.arcs = g.arcs ∧
        g1.mem = g.mem ∧ g1.next = g.next ∧ g1.arcs_size = g.arcs_size ∧
        g1.nodes_descriptor_size = g.nodes_descriptor_size := by
      simp only [readLine, if_pos hr1]
      exact ⟨_, rfl, rfl, rfl, rfl, rfl, rfl⟩
    obtain ⟨g1, hg1, e1, e2, e3, e4, e5⟩ := h1
    exact ⟨g1, hg1, hL.of_same e1 e2 e3 (by intro _ _ _ _ _ h; cases h), e4, e5⟩
  | problem n m => exact absurd hr (by simp [DimacsLine.InRange])
  | comment =>
    exact ⟨g, rfl, hL.of_same rfl rfl rfl (by intro _ _ _ _ _ h; cases h), rfl, rfl⟩
  | other =>
    exact ⟨g, rfl, hL.of_same rfl rfl rfl (by intro _ _ _ _ _ h; cases h), rfl, rfl⟩

/-- The lines of an input: all are read and their arcs are loaded. -/
theorem readGraph_loaded (lines : List DimacsLine) : ∀ (done : List DimacsLine) (g : FileGraph),
    g.Loaded done → (∀ l ∈ lines, l.InRange g.arcs_size g.nodes_descriptor_size) →
    (done ++ lines).Pairwise DimacsLine.Apart →
    ∃ g1, readGraph lines g = some g1 ∧ g1.Loaded (done ++ lines) := by
  induction lines with
  | nil =>
    intro done g hL _ _
    exact ⟨g, rfl, by simpa using hL⟩
  | cons l rest ih =>
    intro done g hL hr hp
    have hp1 := List.pairwise_append.mp hp
    obtain ⟨g1, h1, hL1, hs1, hs2⟩ := readLine_loaded g done l hL
      (hr l (List.mem_cons_self _ _))
      (fun l0 h0 => hp1.2.2 l0 h0 l (List.mem_cons_self _ _))
    have hp2 : ((done ++ [l]) ++ rest).Pairwise DimacsLine.Apart := by
      simpa using hp
    obtain ⟨g2, h2, hL2⟩ := ih (done ++ [l]) g1 hL1
      (fun l0 h0 => by rw [hs1, hs2]; exact hr l0 (List.mem_cons_of_mem _ h0)) hp2
    refine ⟨g2, ?_, by simpa using hL2⟩
    simp only [readGraph, h1]
    exact h2

theorem toInt32_of_lt {x : Nat} (h : x < 2147483648) : toInt32 x = (x : Int) := by
  have h1 : x % UINT32 = x := Nat.mod_eq_of_lt (by unfold UINT32; omega)
  unfold toInt32
  rw [h1, if_pos h]

/-- C16, as the code has it.  `readGraph` stores the two halves of the arc of a line
`a u v lo hi cost` at `arcs[u][v]` and `arcs[v][u]`, so a later arc between the same two nodes, in
either direction, takes the cells of an earlier one.  For the `a`, `n` and `c` lines that follow
the `p` line of an input, with indices inside the vectors, the two ends of an arc different and no
two arcs between the same two nodes: `readGraph` reads all lines; every arc is there as a forward
entry `arcs[u][v]` with the capacity and the cost of the line and a reverse entry `arcs[v][u]`
with capacity `0` and minus the cost, in two objects (the cost is the `int32_t` value of the field,
the field itself below `2^31`); every entry of the graph is one of these; a map has one entry for
a key. -/
theorem readGraph_arc_pairs (lines : List DimacsLine) (g : FileGraph)
    (hempty : ∀ u, g.arcs u = [])
    (hr : ∀ l ∈ lines, l.InRange g.arcs_size g.nodes_descriptor_size)
    (hp : lines.Pairwise DimacsLine.Apart) :
    ∃ g1, readGraph lines g = some g1 ∧
      (∀ src dst lo cap cost, DimacsLine.arc src dst lo cap cost ∈ lines →
        ∃ p q, p ≠ q ∧ ArcMap.find (g1.arcs src) dst = some p ∧
          ArcMap.find (g1.arcs dst) src = some q ∧
          g1.mem p = ⟨(cap : Int), toInt32 lo, toInt32 cost, false, 0⟩ ∧
          g1.mem q = ⟨0, -toInt32 lo, -toInt32 cost, true, 0⟩ ∧
          (cost < 2147483648 → (g1.mem p).cost = (cost : Int) ∧ (g1.mem q).cost = -(cost : Int))) ∧
      (∀ u v p, (v, p) ∈ g1.arcs u →
        ∃ lo cap cost, DimacsLine.arc u v lo cap cost ∈ lines ∨
          DimacsLine.arc v u lo cap cost ∈ lines) ∧
      (∀ u, (g1.arcs u).Pairwise (fun a b => a.1 < b.1)) := by
  obtain ⟨g1, h1, hL⟩ := readGraph_loaded lines [] g (FileGraph.Loaded.of_no_entries g hempty) hr
    (by simpa using hp)
  rw [List.nil_append] at hL
  refine ⟨g1, h1, ?_, hL.from_lines, hL.sorted⟩
  intro src dst lo cap cost hm
  obtain ⟨p, q, hpq, _, _, hfp, hfq, hmp, hmq⟩ := hL.pairs src dst lo cap cost hm
  refine ⟨p, q, hpq, hfp, hfq, hmp, hmq, ?_⟩
  intro hc
  rw [hmp, hmq]
  simp [toInt32_of_lt hc]

theorem readGraph_arc_pairs_witness :
    (∀ u, threeNodes.arcs u = []) ∧
    (∀ l ∈ chainLines, l.InRange threeNodes.arcs_size threeNodes.nodes_descriptor_size) ∧
    chainLines.Pairwise DimacsLine.Apart ∧
    ∃ g1, readGraph chainLines threeNodes = some g1 ∧
      (∀ src dst lo cap cost, DimacsLine.arc src dst lo cap cost ∈ chainLines →
        ∃ p q, p ≠ q ∧ ArcMap.find (g1.arcs src) dst = some p ∧
          ArcMap.find (g1.arcs dst) src = some q ∧
          g1.mem p = ⟨(cap : Int), toInt32 lo, toInt32 cost, false, 0⟩ ∧
          g1.mem q = ⟨0, -toInt32 lo, -toInt32 cost, true, 0⟩ ∧
          (cost < 2147483648 → (g1.mem p).cost = (cost : Int) ∧ (g1.mem q).cost = -(cost : Int))) ∧
      (∀ u v p, (v, p) ∈ g1.arcs u →
        ∃ lo cap cost, DimacsLine.arc u v lo cap cost ∈ chainLines ∨
          DimacsLine.arc v u lo cap cost ∈ chainLines) ∧
      (∀ u, (g1.arcs u).Pairwise (fun a b => a.1 < b.1)) := by
  have h1 : ∀ u, threeNodes.arcs u = [] := by
    intro u
    simp [threeNodes, allocateGraphMemory, FileGraph.resize, FileGraph.empty]
  have h2 : ∀ l ∈ chainLines,
      l.InRange threeNodes.arcs_size threeNodes.nodes_descriptor_size := by
    have hs : threeNodes.arcs_size = 4 := by decide
    have hn : threeNodes.nodes_descriptor_size = 4 := by decide
    rw [hs, hn]
    intro l hl
    simp only [chainLines, List.mem_cons, List.mem_singleton, List.not_mem_nil, or_false] at hl
    rcases hl with rfl | rfl | rfl | rfl | rfl <;> simp [DimacsLine.InRange]
  have h3 : chainLines.Pairwise DimacsLine.Apart := by
    simp [chainLines, DimacsLine.Apart]
  exact ⟨h1, h2, h3, readGraph_arc_pairs chainLines threeNodes h1 h2 h3⟩

/-- C16, counterexample.  The input `p 2 2`, `a 1 2 0 5 1`, `a 2 1 0 7 3` has the arcs `1 → 2`
(capacity 5, cost 1) and `2 → 1` (capacity 7, cost 3).  After `readGraph` the cell `arcs[1][2]`
holds the reverse half of the second arc (capacity 0, cost -3) and `arcs[2][1]` its forward half:
the map of node 1 has this one entry, and no entry of the graph has capacity 5 and cost 1. -/
theorem readGraph_arc_pairs_counterexample :
    (readGraph antiparallelLines FileGraph.empty).map
      (fun g => (g.arcs 1, g.arcs 2, g.arcs 0, g.arcs_size)) =
      some ([(2, 3)], [(1, 2)], [], 3) ∧
    (readGraph antiparallelLines FileGraph.empty).map (fun g => g.mem 3) =
      some ⟨0, 0, -3, true, 0⟩ ∧
    (readGraph antiparallelLines FileGraph.empty).map (fun g => g.mem 2) =
      some ⟨7, 0, 3, false, 0⟩ := by
  decide!

/-! ## Writing a graph -/

theorem ArcMap.erase_assign_same (m : ArcMap) (key p : Nat) :
    ArcMap.erase (ArcMap.assign m key p) key = ArcMap.erase m key := by
  induction m with
  | nil => simp [ArcMap.assign, ArcMap.erase]
  | cons e m ih =>
    obtain ⟨k, q⟩ := e
    unfold ArcMap.assign
    split_ifs with h1 h2
    · simp [ArcMap.erase, h1]
    · simp [ArcMap.erase, h1]
    · simp only [ArcMap.erase, if_neg h1]
      rw [ih]

theorem ArcMap.erase_comm (m : ArcMap) (a b : Nat) :
    ArcMap.erase (ArcMap.erase m a) b = ArcMap.erase (ArcMap.erase m b) a := by
  induction m with
  | nil => rfl
  | cons e m ih =>
    obtain ⟨k, q⟩ := e
    by_cases h1 : k = a
    · by_cases h2 : k = b
      · simp only [ArcMap.erase, if_pos h1, if_pos h2]
        exact ih
      · simp only [ArcMap.erase, if_pos h1, if_neg h2]
        exact ih
    · by_cases h2 : k = b
      · simp only [ArcMap.erase, if_neg h1, if_pos h2]
        exact ih
      · simp only [ArcMap.erase, if_neg h1, if_neg h2]
        rw [ih]

theorem ArcMap.erase_of_not_mem (m : ArcMap) (key : Nat) (h : ∀ p, (key, p) ∉ m) :
    ArcMap.erase m key = m := by
  induction m with
  | nil => rfl
  | cons e m ih =>
    obtain ⟨k, q⟩ := e
    have hk : k ≠ key := by
      intro hk
      subst hk
      exact h q (List.mem_cons_self _ _)
    simp only [ArcMap.erase, if_neg hk]
    rw [ih (fun p hp => h p (List.mem_cons_of_mem _ hp))]

theorem ArcMap.erase_erase (m : ArcMap) (key : Nat) :
    ArcMap.erase (ArcMap.erase m key) key = ArcMap.erase m key :=
  ArcMap.erase_of_not_mem _ _ (fun _ hp => (ArcMap.mem_erase.mp hp).2 rfl)

/-- The body of the first loop of `addSinkAndSource`, with its indices inside the vectors. -/
theorem addSupplyArc_eq (g : FileGraph) (it N : Nat) (hn : g.num_nodes = N + 2)
    (hN : N + 3 < UINT32) (ha : g.arcs_size = N + 3) (hd : g.nodes_descriptor_size = N + 3)
    (hit : it ≤ N) :
    ∃ g1, addSupplyArc g it = some g1 ∧
      (∀ u, g1.arcs u = if u = it then ArcMap.assign (g.arcs it) (N + 1) (g.next + 1)
        else if u = N + 1 then ArcMap.assign (g.arcs (N + 1)) it g.next else g.arcs u) ∧
      (∀ p, g1.mem p = if p = g.next + 1 then ⟨0, 0, 0, true, 0⟩
        else if p = g.next then ⟨g.nodes_descriptor it, 0, 0, false, 0⟩ else g.mem p) ∧
      (∀ i, i ≠ N + 1 → g1.nodes_descriptor i = g.nodes_descriptor i) ∧
      g1.next = g.next + 2 ∧ g1.num_nodes = g.num_nodes ∧ g1.arcs_size = g.arcs_size ∧
      g1.nodes_descriptor_size = g.nodes_descriptor_size ∧
      g1.supply_nodes = g.supply_nodes ∧ g1.demand_nodes = g.demand_nodes ∧
      g1.added_sink_and_source = g.added_sink_and_source := by
  have hsrc : (g.num_nodes + UINT32 - 1) % UINT32 = N + 1 := by
    rw [hn]
    unfold UINT32 at hN ⊢
    omega
  have hc : (N + 1 < g.arcs_size ∧ it < g.arcs_size ∧ N + 1 < g.nodes_descriptor_size ∧
      it < g.nodes_descriptor_size) := by
    rw [ha, hd]
    omega
  unfold addSupplyArc
  simp only [hsrc, if_pos hc]
  refine ⟨_, rfl, ?_, ?_, ?_, rfl, rfl, rfl, rfl, rfl, rfl, rfl⟩
  · intro u
    simp only [FileGraph.setArc, FileGraph.alloc, Function.update_apply]
    by_cases h1 : u = it
    · subst h1
      have : u ≠ N + 1 := by omega
      simp [this]
    · by_cases h2 : u = N + 1
      · subst h2
        simp [h1]
      · simp [h1, h2]
  · intro p
    simp only [FileGraph.setArc, FileGraph.alloc, Function.update_apply]
  · intro i hi
    simp only [FileGraph.setArc, FileGraph.alloc, Function.update_apply, if_neg hi]

/-- The body of the second loop of `addSinkAndSource`, with its indices inside the vectors. -/
theorem addDemandArc_eq (g : FileGraph) (it N : Nat) (hn : g.num_nodes = N + 2)
    (ha : g.arcs_size = N + 3) (hd : g.nodes_descriptor_size = N + 3) (hit : it ≤ N) :
    ∃ g1, addDemandArc g it = some g1 ∧
      (∀ u, g1.arcs u = if u = it then ArcMap.assign (g.arcs it) (N + 2) (g.next + 1)
        else if u = N + 2 then ArcMap.assign (g.arcs (N + 2)) it g.next else g.arcs u) ∧
      (∀ p, g1.mem p = if p = g.next + 1 then ⟨-g.nodes_descriptor it, 0, 0, false, 0⟩
        else if p = g.next then ⟨0, 0, 0, true, 0⟩ else g.mem p) ∧
      (∀ i, i ≠ N + 2 → g1.nodes_descriptor i = g.nodes_descriptor i) ∧
      g1.next = g.next + 2 ∧ g1.num_nodes = g.num_nodes ∧ g1.arcs_size = g.arcs_size ∧
      g1.nodes_descriptor_size = g.nodes_descriptor_size ∧
      g1.supply_nodes = g.supply_nodes ∧ g1.demand_nodes = g.demand_nodes ∧
      g1.added_sink_and_source = g.added_sink_and_source := by
  have hc : (g.num_nodes < g.arcs_size ∧ it < g.arcs_size ∧
      g.num_nodes < g.nodes_descriptor_size ∧ it < g.nodes_descriptor_size) := by
    rw [ha, hd, hn]
    omega
  unfold addDemandArc
  simp only [if_pos hc]
  refine ⟨_, rfl, ?_, ?_, ?_, rfl, rfl, rfl, rfl, rfl, rfl, rfl⟩
  · intro u
    simp only [FileGraph.setArc, FileGraph.alloc, Function.update_apply, hn]
    by_cases h1 : u = it
    · subst h1
      have : u ≠ N + 2 := by omega
      simp [this]
    · by_cases h2 : u = N + 2
      · subst h2
        simp [h1]
      · simp [h1, h2]
  · intro p
    simp only [FileGraph.setArc, FileGraph.alloc, Function.update_apply]
  · intro i hi
    simp only [FileGraph.setArc, FileGraph.alloc, Function.update_apply, hn, if_neg hi]

/-- The graph at the start of the loops of `addSinkAndSource`. -/
theorem FileGraph.Extends.start (g : FileGraph) (hA : g.arcs_size = g.num_nodes + 1)
    (hD : g.nodes_descriptor_size = g.num_nodes + 1) (hN : g.num_nodes + 3 < UINT32)
    (hk : ∀ u ≤ g.num_nodes, ∀ e ∈ g.arcs u, e.1 ≤ g.num_nodes) :
    (({ g with added_sink_and_source := true,
               num_nodes := (g.num_nodes + 2) % UINT32 } : FileGraph).resize
      (((g.num_nodes + 2) % UINT32 + 1) % UINT32)).Extends g := by
  have h1 : (g.num_nodes + 2) % UINT32 = g.num_nodes + 2 :=
    Nat.mod_eq_of_lt (by omega)
  have h2 : (g.num_nodes + 2 + 1) % UINT32 = g.num_nodes + 3 :=
    Nat.mod_eq_of_lt (by omega)
  rw [h1, h2]
  have harcs : ∀ u ≤ g.num_nodes,
      (({ g with added_sink_and_source := true, num_nodes := g.num_nodes + 2 } :
        FileGraph).resize (g.num_nodes + 3)).arcs u = g.arcs u := by
    intro u hu
    simp only [FileGraph.resize]
    rw [if_pos (by rw [hA]; omega)]
  have hno : ∀ u ≤ g.num_nodes, ∀ key p, g.num_nodes < key → (key, p) ∉ g.arcs u := by
    intro u hu key p hkey hm
    have := hk u hu _ hm
    simp only at this
    omega
  refine ⟨rfl, rfl, rfl, rfl, rfl, rfl, ?_, ?_, ?_, ?_⟩
  · intro i hi
    simp only [FileGraph.resize]
    rw [if_pos (by rw [hD]; omega)]
  · intro u hu
    rw [harcs u hu, ArcMap.erase_of_not_mem _ _ (fun p => hno u hu _ p (by omega)),
      ArcMap.erase_of_not_mem _ _ (fun p => hno u hu _ p (by omega))]
  · intro u hu p hm
    rw [harcs u hu] at hm
    exact absurd hm (hno u hu _ p (by omega))
  · intro u hu p hm
    rw [harcs u hu] at hm
    exact absurd hm (hno u hu _ p (by omega))

/-- One round of the first loop of `addSinkAndSource`. -/
theorem addSupplyArc_extends (g g1 : FileGraph) (it : Nat) (hE : g1.Extends g)
    (hN : g.num_nodes + 3 < UINT32) (hit : it ∈ g.supply_nodes) (hle : it ≤ g.num_nodes) :
    ∃ g2, addSupplyArc g1 it = some g2 ∧ g2.Extends g ∧ g2.SourceArc g it ∧
      ∀ it0, g1.SourceArc g it0 → g2.SourceArc g it0 := by
  obtain ⟨g2, h2, harcs, hmem, hdesc, hnext, e1, e2, e3, e4, e5, e6⟩ :=
    addSupplyArc_eq g1 it g.num_nodes hE.num_nodes hN hE.arcs_size hE.nodes_descriptor_size hle
  have hnew : g2.SourceArc g it := by
    refine ⟨g1.next, by omega, ?_, ?_, ?_⟩
    · rw [harcs, if_neg (by omega), if_pos rfl]
      exact ArcMap.find_assign_same _ _ _
    · rw [hmem, if_neg (by omega), if_pos rfl]
      exact hE.descriptor it hle
    · rw [hmem, if_neg (by omega), if_pos rfl]
  refine ⟨g2, h2, ?_, hnew, ?_⟩
  · refine ⟨by rw [e1, hE.num_nodes], by rw [e2, hE.arcs_size],
      by rw [e3, hE.nodes_descriptor_size], by rw [e4, hE.supply_nodes],
      by rw [e5, hE.demand_nodes], by rw [e6, hE.flag], ?_, ?_, ?_, ?_⟩
    · intro i hi
      rw [hdesc i (by omega)]
      exact hE.descriptor i hi
    · intro u hu
      rw [harcs]
      split_ifs with ha hb
      · subst ha
        rw [ArcMap.erase_assign_same]
        exact hE.arcs u hu
      · omega
      · exact hE.arcs u hu
    · intro u hu p hm
      rw [harcs] at hm
      split_ifs at hm with ha hb
      · subst ha
        exact hit
      · omega
      · exact hE.source_keys u hu p hm
    · intro u hu p hm
      rw [harcs] at hm
      split_ifs at hm with ha hb
      · subst ha
        rcases ArcMap.mem_assign_sub hm with h | h
        · injection h with h _
          omega
        · exact hE.sink_keys u hu p h
      · omega
      · exact hE.sink_keys u hu p hm
  · intro it0 h0
    by_cases he : it0 = it
    · subst he
      exact hnew
    · obtain ⟨p, hp, hf, hc, hrv⟩ := h0
      refine ⟨p, by omega, ?_, ?_, ?_⟩
      · rw [harcs, if_neg (by omega), if_pos rfl, ArcMap.find_assign_ne _ _ he]
        exact hf
      · rw [hmem, if_neg (by omega), if_neg (by omega)]
        exact hc
      · rw [hmem, if_neg (by omega), if_neg (by omega)]
        exact hrv

/-- One round of the second loop of `addSinkAndSource`. -/
theorem addDemandArc_extends (g g1 : FileGraph) (it : Nat) (hE : g1.Extends g)
    (hit : it ∈ g.demand_nodes) (hle : it ≤ g.num_nodes) :
    ∃ g2, addDemandArc g1 it = some g2 ∧ g2.Extends g ∧ g2.SinkArc g it ∧
      (∀ it0, it0 ≤ g.num_nodes → g1.SinkArc g it0 → g2.SinkArc g it0) ∧
      ∀ it0, g1.SourceArc g it0 → g2.SourceArc g it0 := by
  obtain ⟨g2, h2, harcs, hmem, hdesc, hnext, e1, e2, e3, e4, e5, e6⟩ :=
    addDemandArc_eq g1 it g.num_nodes hE.num_nodes hE.arcs_size hE.nodes_descriptor_size hle
  have hnew : g2.SinkArc g it := by
    refine ⟨g1.next + 1, by omega, ?_, ?_, ?_⟩
    · rw [harcs, if_pos rfl]
      exact ArcMap.find_assign_same _ _ _
    · rw [hmem, if_pos rfl]
      simp only
      rw [hE.descriptor it hle]
    · rw [hmem, if_pos rfl]
  refine ⟨g2, h2, ?_, hnew, ?_, ?_⟩
  · refine ⟨by rw [e1, hE.num_nodes], by rw [e2, hE.arcs_size],
      by rw [e3, hE.nodes_descriptor_size], by rw [e4, hE.supply_nodes],
      by rw [e5, hE.demand_nodes], by rw [e6, hE.flag], ?_, ?_, ?_, ?_⟩
    · intro i hi
      rw [hdesc i (by omega)]
      exact hE.descriptor i hi
    · intro u hu
      rw [harcs]
      split_ifs with ha hb
      · subst ha
        rw [ArcMap.erase_comm, ArcMap.erase_assign_same, ArcMap.erase_comm]
        exact hE.arcs u hu
      · omega
      · exact hE.arcs u hu
    · intro u hu p hm
      rw [harcs] at hm
      split_ifs at hm with ha hb
      · subst ha
        rcases ArcMap.mem_assign_sub hm with h | h
        · injection h with h _
          omega
        · exact hE.source_keys u hu p h
      · omega
      · exact hE.source_keys u hu p hm
    · intro u hu p hm
      rw [harcs] at hm
      split_ifs at hm with ha hb
      · subst ha
        exact hit
      · omega
      · exact hE.sink_keys u hu p hm
  · intro it0 hle0 h0
    by_cases he : it0 = it
    · subst he
      exact hnew
    · obtain ⟨p, hp, hf, hc, hrv⟩ := h0
      refine ⟨p, by omega, ?_, ?_, ?_⟩
      · rw [harcs, if_neg he, if_neg (by omega)]
        exact hf
      · rw [hmem, if_neg (by omega), if_neg (by omega)]
        exact hc
      · rw [hmem, if_neg (by omega), if_neg (by omega)]
        exact hrv
  · intro it0 h0
    obtain ⟨p, hp, hf, hc, hrv⟩ := h0
    refine ⟨p, by omega, ?_, ?_, ?_⟩
    · rw [harcs, if_neg (by omega), if_neg (by omega)]
      exact hf
    · rw [hmem, if_neg (by omega), if_neg (by omega)]
      exact hc
    · rw [hmem, if_neg (by omega), if_neg (by omega)]
      exact hrv

/-- The first loop of `addSinkAndSource`. -/
theorem addSupplyArcs_extends (g : FileGraph) (hN : g.num_nodes + 3 < UINT32)
    (hs : ∀ it ∈ g.supply_nodes, it ≤ g.num_nodes) (rest : List Nat) :
    ∀ (g1 : FileGraph), g1.Extends g → (∀ it ∈ rest, it ∈ g.supply_nodes) →
    ∃ g2, forNodes addSupplyArc rest g1 = some g2 ∧ g2.Extends g ∧
      (∀ it ∈ rest, g2.SourceArc g it) ∧ ∀ it0, g1.SourceArc g it0 → g2.SourceArc g it0 := by
  induction rest with
  | nil =>
    intro g1 hE _
    exact ⟨g1, rfl, hE, by simp, fun _ h => h⟩
  | cons it rest ih =>
    intro g1 hE hr
    have hit := hr it (List.mem_cons_self _ _)
    obtain ⟨g2, h2, hE2, hnew, hkeep⟩ := addSupplyArc_extends g g1 it hE hN hit (hs it hit)
    obtain ⟨g3, h3, hE3, hall, hkeep3⟩ := ih g2 hE2 (fun x hx => hr x (List.mem_cons_of_mem _ hx))
    refine ⟨g3, by simp only [forNodes, h2]; exact h3, hE3, ?_, fun x hx => hkeep3 x (hkeep x hx)⟩
    intro x hx
    rcases List.mem_cons.mp hx with rfl | hx
    · exact hkeep3 _ hnew
    · exact hall x hx

/-- The second loop of `addSinkAndSource`. -/
theorem addDemandArcs_extends (g : FileGraph)
    (hd : ∀ it ∈ g.demand_nodes, it ≤ g.num_nodes) (rest : List Nat) :
    ∀ (g1 : FileGraph), g1.Extends g → (∀ it ∈ rest, it ∈ g.demand_nodes) →
    ∃ g2, forNodes addDemandArc rest g1 = some g2 ∧ g2.Extends g ∧
      (∀ it ∈ rest, g2.SinkArc g it) ∧
      (∀ it0, it0 ≤ g.num_nodes → g1.SinkArc g it0 → g2.SinkArc g it0) ∧
      ∀ it0, g1.SourceArc g it0 → g2.SourceArc g it0 := by
  induction rest with
  | nil =>
    intro g1 hE _
    exact ⟨g1, rfl, hE, by simp, fun _ _ h => h, fun _ h => h⟩
  | cons it rest ih =>
    intro g1 hE hr
    have hit := hr it (List.mem_cons_self _ _)
    obtain ⟨g2, h2, hE2, hnew, hkeep, hsrc⟩ := addDemandArc_extends g g1 it hE hit (hd it hit)
    obtain ⟨g3, h3, hE3, hall, hkeep3, hsrc3⟩ :=
      ih g2 hE2 (fun x hx => hr x (List.mem_cons_of_mem _ hx))
    refine ⟨g3, by simp only [forNodes, h2]; exact h3, hE3, ?_,
      fun x hle hx => hkeep3 x hle (hkeep x hle hx), fun x hx => hsrc3 x (hsrc x hx)⟩
    intro x hx
    rcases List.mem_cons.mp hx with rfl | hx
    · exact hkeep3 _ (hd _ hit) hnew
    · exact hall x hx

/-- A loop of `removeSinkAndSource` over nodes inside the vector: the key is gone from the maps
of these nodes and nothing else has changed. -/
theorem forNodes_eraseArcAt (key : Nat) (nodes : List Nat) :
    ∀ (g : FileGraph), (∀ it ∈ nodes, it < g.arcs_size) →
    forNodes (eraseArcAt key) nodes g =
      some { g with arcs := fun u => if u ∈ nodes then ArcMap.erase (g.arcs u) key
                                      else g.arcs u } := by
  induction nodes with
  | nil =>
    intro g _
    simp [forNodes]
  | cons it rest ih =>
    intro g h
    have h1 : eraseArcAt key g it = some (g.eraseArc it key) := by
      unfold eraseArcAt
      rw [if_pos (h it (List.mem_cons_self _ _))]
    simp only [forNodes, h1]
    rw [ih (g.eraseArc it key) (fun x hx => h x (List.mem_cons_of_mem _ hx))]
    congr 1
    simp only [FileGraph.eraseArc]
    congr 1
    funext u
    simp only [Function.update_apply, List.mem_cons]
    by_cases hu : u = it
    · subst hu
      by_cases hr : u ∈ rest
      · simp [hr, ArcMap.erase_erase]
      · simp [hr]
    · simp [hu]

/-- The call `removeSinkAndSource` on a graph to which source and sink were added. -/
theorem removeSinkAndSource_extends (g g2 : FileGraph) (hE : g2.Extends g)
    (hN : g.num_nodes + 3 < UINT32)
    (hs : ∀ it ∈ g.supply_nodes, it ≤ g.num_nodes)
    (hd : ∀ it ∈ g.demand_nodes, it ≤ g.num_nodes) :
    ∃ g3, removeSinkAndSource g2 = some g3 ∧ g3.num_nodes = g.num_nodes ∧
      g3.added_sink_and_source = false ∧ g3.nodes_descriptor_size = g.num_nodes + 1 ∧
      g3.nodes_descriptor = g2.nodes_descriptor ∧ g3.arcs_size = g.num_nodes + 1 ∧
      ∀ u ≤ g.num_nodes, g3.arcs u = g.arcs u := by
  have hc : 2 ≤ g2.arcs_size ∧ 2 ≤ g2.nodes_descriptor_size := by
    rw [hE.arcs_size, hE.nodes_descriptor_size]
    omega
  have hn : (g2.num_nodes + UINT32 - 2) % UINT32 = g.num_nodes := by
    rw [hE.num_nodes]
    unfold UINT32 at hN ⊢
    omega
  have hk1 : (g.num_nodes + 1) % UINT32 = g.num_nodes + 1 := Nat.mod_eq_of_lt (by omega)
  have hk2 : (g.num_nodes + 2) % UINT32 = g.num_nodes + 2 := Nat.mod_eq_of_lt (by omega)
  unfold removeSinkAndSource
  rw [if_pos hc]
  simp only [hn, hk1, hE.supply_nodes, hE.demand_nodes, hE.arcs_size]
  rw [forNodes_eraseArcAt _ _ _ (fun it hit => by
    have := hs it hit
    show it < g.num_nodes + 3 - 2
    omega)]
  simp only [hk2]
  rw [forNodes_eraseArcAt _ _ _ (fun it hit => by
    have := hd it hit
    show it < g.num_nodes + 3 - 2
    omega)]
  refine ⟨_, rfl, rfl, rfl, ?_, rfl, ?_, ?_⟩
  · show g2.nodes_descriptor_size - 2 = g.num_nodes + 1
    rw [hE.nodes_descriptor_size]
    omega
  · show g.num_nodes + 3 - 2 = g.num_nodes + 1
    omega
  · intro u hu
    show (if u ∈ g.demand_nodes then
        ArcMap.erase (if u ∈ g.supply_nodes then ArcMap.erase (g2.arcs u) (g.num_nodes + 1)
          else g2.arcs u) (g.num_nodes + 2)
      else (if u ∈ g.supply_nodes then ArcMap.erase (g2.arcs u) (g.num_nodes + 1)
          else g2.arcs u)) = g.arcs u
    have h1 : (if u ∈ g.supply_nodes then ArcMap.erase (g2.arcs u) (g.num_nodes + 1)
        else g2.arcs u) = ArcMap.erase (g2.arcs u) (g.num_nodes + 1) := by
      split_ifs with h
      · rfl
      · exact (ArcMap.erase_of_not_mem _ _
          (fun p hp => h (hE.source_keys u hu p hp))).symm
    rw [h1]
    split_ifs with h
    · exact hE.arcs u hu
    · rw [← hE.arcs u hu]
      exact (ArcMap.erase_of_not_mem _ _
        (fun p hp => h (hE.sink_keys u hu p (ArcMap.mem_erase.mp hp).1))).symm

/-- C18.  For a graph without source and sink whose vectors have a cell for each of the nodes
`0 .. num_nodes`, whose supply and demand nodes and map keys are nodes of the graph and whose
node count leaves room for two more: `addSinkAndSource` returns a graph with two more nodes, in
which the node `num_nodes + 1` has a forward arc to every supply node, of capacity the supply,
and every demand node a forward arc to the node `num_nodes + 2`, of capacity minus the demand;
`removeSinkAndSource` on it returns a graph with the node count, the flag, the vector
`nodes_descriptor` and the arc map of every node as before `addSinkAndSource`. -/
theorem addSinkAndSource_round_trip (g : FileGraph)
    (hflag : g.added_sink_and_source = false)
    (hA : g.arcs_size = g.num_nodes + 1) (hD : g.nodes_descriptor_size = g.num_nodes + 1)
    (hN : g.num_nodes + 3 < UINT32)
    (hs : ∀ it ∈ g.supply_nodes, it ≤ g.num_nodes)
    (hd : ∀ it ∈ g.demand_nodes, it ≤ g.num_nodes)
    (hk : ∀ u ≤ g.num_nodes, ∀ e ∈ g.arcs u, e.1 ≤ g.num_nodes) :
    ∃ g1, addSinkAndSource g = some g1 ∧ g1.num_nodes = g.num_nodes + 2 ∧
      g1.added_sink_and_source = true ∧
      (∀ it ∈ g.supply_nodes, ∃ p, ArcMap.find (g1.arcs (g.num_nodes + 1)) it = some p ∧
        (g1.mem p).cap = g.nodes_descriptor it ∧ (g1.mem p).reverse = false) ∧
      (∀ it ∈ g.demand_nodes, ∃ p, ArcMap.find (g1.arcs it) (g.num_nodes + 2) = some p ∧
        (g1.mem p).cap = -g.nodes_descriptor it ∧ (g1.mem p).reverse = false) ∧
      ∃ g2, removeSinkAndSource g1 = some g2 ∧ g2.num_nodes = g.num_nodes ∧
        g2.added_sink_and_source = g.added_sink_and_source ∧
        g2.nodes_descriptor_size = g.nodes_descriptor_size ∧
        (∀ i < g.nodes_descriptor_size, g2.nodes_descriptor i = g.nodes_descriptor i) ∧
        g2.arcs_size = g.arcs_size ∧ ∀ u < g.arcs_size, g2.arcs u = g.arcs u := by
  obtain ⟨g0, hg0⟩ : ∃ g0 : FileGraph, g0 =
      ({ g with added_sink_and_source := true, num_nodes := (g.num_nodes + 2) % UINT32 } :
        FileGraph).resize (((g.num_nodes + 2) % UINT32 + 1) % UINT32) := ⟨_, rfl⟩
  have hE0 : g0.Extends g := by
    rw [hg0]
    exact FileGraph.Extends.start g hA hD hN hk
  have hdef : addSinkAndSource g = (match forNodes addSupplyArc g0.supply_nodes g0 with
      | none => none
      | some g1 => forNodes addDemandArc g1.demand_nodes g1) := by
    rw [hg0]
    rfl
  obtain ⟨g1, h1, hE1, hsrc1, _⟩ := addSupplyArcs_extends g hN hs g0.supply_nodes g0 hE0
    (fun it hit => by rwa [hE0.supply_nodes] at hit)
  obtain ⟨g2, h2, hE2, hsnk2, _, hsrc2⟩ := addDemandArcs_extends g hd g1.demand_nodes g1 hE1
    (fun it hit => by rwa [hE1.demand_nodes] at hit)
  obtain ⟨g3, h3, hn3, hf3, hds3, hd3, has3, ha3⟩ :=
    removeSinkAndSource_extends g g2 hE2 hN hs hd
  refine ⟨g2, ?_, hE2.num_nodes, hE2.flag, ?_, ?_, g3, h3, hn3, ?_, ?_, ?_, ?_, ?_⟩
  · rw [hdef, h1]
    exact h2
  · intro it hit
    obtain ⟨p, _, hf, hc, hr⟩ := hsrc2 it (hsrc1 it (by rwa [hE0.supply_nodes]))
    exact ⟨p, hf, hc, hr⟩
  · intro it hit
    obtain ⟨p, _, hf, hc, hr⟩ := hsnk2 it (by rwa [hE1.demand_nodes])
    exact ⟨p, hf, hc, hr⟩
  · rw [hf3, hflag]
  · rw [hds3, hD]
  · intro i hi
    rw [hd3]
    exact hE2.descriptor i (by omega)
  · rw [has3, hA]
  · intro u hu
    exact ha3 u (by omega)

theorem addSinkAndSource_round_trip_witness :
    suppliedGraph.added_sink_and_source = false ∧
    suppliedGraph.arcs_size = suppliedGraph.num_nodes + 1 ∧
    suppliedGraph.nodes_descriptor_size = suppliedGraph.num_nodes + 1 ∧
    suppliedGraph.num_nodes + 3 < UINT32 ∧
    (∀ it ∈ suppliedGraph.supply_nodes, it ≤ suppliedGraph.num_nodes) ∧
    (∀ it ∈ suppliedGraph.demand_nodes, it ≤ suppliedGraph.num_nodes) ∧
    (∀ u ≤ suppliedGraph.num_nodes, ∀ e ∈ suppliedGraph.arcs u,
      e.1 ≤ suppliedGraph.num_nodes) ∧
    ∃ g1, addSinkAndSource suppliedGraph = some g1 ∧
      g1.num_nodes = suppliedGraph.num_nodes + 2 ∧ g1.added_sink_and_source = true ∧
      (∀ it ∈ suppliedGraph.supply_nodes,
        ∃ p, ArcMap.find (g1.arcs (suppliedGraph.num_nodes + 1)) it = some p ∧
          (g1.mem p).cap = suppliedGraph.nodes_descriptor it ∧ (g1.mem p).reverse = false) ∧
      (∀ it ∈ suppliedGraph.demand_nodes,
        ∃ p, ArcMap.find (g1.arcs it) (suppliedGraph.num_nodes + 2) = some p ∧
          (g1.mem p).cap = -suppliedGraph.nodes_descriptor it ∧
          (g1.mem p).reverse = false) ∧
      ∃ g2, removeSinkAndSource g1 = some g2 ∧ g2.num_nodes = suppliedGraph.num_nodes ∧
        g2.added_sink_and_source = suppliedGraph.added_sink_and_source ∧
        g2.nodes_descriptor_size = suppliedGraph.nodes_descriptor_size ∧
        (∀ i < suppliedGraph.nodes_descriptor_size,
          g2.nodes_descriptor i = suppliedGraph.nodes_descriptor i) ∧
        g2.arcs_size = suppliedGraph.arcs_size ∧
        ∀ u < suppliedGraph.arcs_size, g2.arcs u = suppliedGraph.arcs u := by
  have h1 : suppliedGraph.added_sink_and_source = false := rfl
  have h2 : suppliedGraph.arcs_size = suppliedGraph.num_nodes + 1 := rfl
  have h3 : suppliedGraph.nodes_descriptor_size = suppliedGraph.num_nodes + 1 := rfl
  have h4 : suppliedGraph.num_nodes + 3 < UINT32 := by decide
  have h5 : ∀ it ∈ suppliedGraph.supply_nodes, it ≤ suppliedGraph.num_nodes := by decide
  have h6 : ∀ it ∈ suppliedGraph.demand_nodes, it ≤ suppliedGraph.num_nodes := by decide
  have h7 : ∀ u ≤ suppliedGraph.num_nodes, ∀ e ∈ suppliedGraph.arcs u,
      e.1 ≤ suppliedGraph.num_nodes := by
    have hn : suppliedGraph.num_nodes = 2 := rfl
    rw [hn]
    intro u hu
    interval_cases u <;> decide
  exact ⟨h1, h2, h3, h4, h5, h6, h7, addSinkAndSource_round_trip suppliedGraph h1 h2 h3 h4 h5 h6 h7⟩

/-! ## Fixing takes arcs whose reverse is saturated -/

/-- C25.  On a well-formed residual graph with capacities that are not negative and potentials
that are `eps`-optimal, for `eps ≥ 1` and a threshold `theta ≥ eps`: every active arc whose
reduced cost exceeds `theta` is moved to `fixed_arcs` by `arcsFixing`, its reverse arc has
residual capacity 0, before and after, and the reverse arc itself has a reduced cost that does not
exceed `theta`; and every arc that `arcsFixing` takes out of the maps is such an arc, or the
reverse of one and then without residual capacity itself. -/
theorem arcsFixing_reverse_saturated (eps theta : Int) (s : Solver) (heps : 1 ≤ eps)
    (hth : eps ≤ theta) (hr : s.graph_.Residual) (hopt : s.EpsOptimal eps)
    (hcap : s.CapsNonneg) :
    (∀ u v p, (v, p) ∈ s.graph_.arcs u → reducedCost s u (v, p) > theta →
      (v, p) ∉ (arcsFixing theta s).graph_.arcs u ∧
      List.count p (arcsFixing theta s).graph_.fixed_arcs =
        List.count p s.graph_.fixed_arcs + 1 ∧
      (s.graph_.mem (s.graph_.mem p).reverse_arc).cap = 0 ∧
      ((arcsFixing theta s).graph_.mem
        ((arcsFixing theta s).graph_.mem p).reverse_arc).cap = 0 ∧
      ¬ reducedCost s v (u, (s.graph_.mem p).reverse_arc) > theta) ∧
    (∀ u v p, (v, p) ∈ s.graph_.arcs u → (v, p) ∉ (arcsFixing theta s).graph_.arcs u →
      (reducedCost s u (v, p) > theta ∧
        (s.graph_.mem (s.graph_.mem p).reverse_arc).cap = 0) ∨
      (reducedCost s v (u, (s.graph_.mem p).reverse_arc) > theta ∧
        (s.graph_.mem p).cap = 0)) := by
  obtain ⟨hmem, _, _, _, hkeep, hcount, _, _⟩ :=
    arcsFixing_keeps theta s hr.toPaired hr.noalias
  have hsat : ∀ u v p, (v, p) ∈ s.graph_.arcs u → reducedCost s u (v, p) > theta →
      (s.graph_.mem (s.graph_.mem p).reverse_arc).cap = 0 ∧
      ¬ reducedCost s v (u, (s.graph_.mem p).reverse_arc) > theta := by
    intro u v p h hrc
    have hm := hr.mate u v p h
    have hrev := hr.reducedCost_mate h
    have h1 : ¬ 0 < (s.graph_.mem (s.graph_.mem p).reverse_arc).cap := by
      intro hpos
      have := hopt v u _ hm hpos
      omega
    have h2 := hcap v u _ hm
    exact ⟨by omega, by omega⟩
  constructor
  · intro u v p h hrc
    have hu : 1 ≤ u ∧ u ≤ s.graph_.num_nodes := by
      by_contra hcon
      have : u = 0 ∨ s.graph_.num_nodes < u := by omega
      rw [hr.nodes u this] at h
      simp at h
    have hgone : (v, p) ∉ (arcsFixing theta s).graph_.arcs u := by
      intro hin
      exact (arcsFixingNodes_done theta (List.range' 1 s.graph_.num_nodes) s).2.2 u
        (mem_range_one.mpr hu) (v, p) hin hrc
    obtain ⟨h1, h2⟩ := hsat u v p h hrc
    refine ⟨hgone, hcount u v p h hgone, h1, ?_, h2⟩
    rw [hmem]
    exact h1
  · intro u v p h hgone
    by_cases h1 : reducedCost s u (v, p) > theta
    · exact Or.inl ⟨h1, (hsat u v p h h1).1⟩
    · by_cases h2 : reducedCost s v (u, (s.graph_.mem p).reverse_arc) > theta
      · have hm := hr.mate u v p h
        obtain ⟨h3, _⟩ := hsat v u _ hm h2
        have hrr := hr.toPaired.reverse_reverse h
        rw [hrr] at h3
        exact Or.inr ⟨h2, h3⟩
      · exact absurd (hkeep u v p h h1 h2) hgone

theorem arcsFixing_reverse_saturated_witness :
    (1 : Int) ≤ 1 ∧ (1 : Int) ≤ 2 ∧ demoSolverFix.graph_.Residual ∧ demoSolverFix.EpsOptimal 1 ∧
    demoSolverFix.CapsNonneg ∧ (2, 0) ∈ demoSolverFix.graph_.arcs 1 ∧
    reducedCost demoSolverFix 1 (2, 0) > 2 ∧
    (2, 0) ∉ (arcsFixing 2 demoSolverFix).graph_.arcs 1 ∧
    ((arcsFixing 2 demoSolverFix).graph_.mem
      ((arcsFixing 2 demoSolverFix).graph_.mem 0).reverse_arc).cap = 0 := by
  have hopt : demoSolverFix.EpsOptimal 1 := by
    intro u v p h hpos
    have hu : u = 1 ∨ u = 2 := by
      have := demoGraph_residual.node_range h
      change 1 ≤ u ∧ u ≤ 2 at this
      omega
    rcases hu with rfl | rfl
    · have : (v, p) = (2, 0) := by simpa [demoSolverFix, demoGraph] using h
      cases this
      decide
    · have : (v, p) = (1, 1) := by simpa [demoSolverFix, demoGraph] using h
      cases this
      exact absurd hpos (by decide)
  have hcap : demoSolverFix.CapsNonneg := by
    intro u v p h
    have hu : u = 1 ∨ u = 2 := by
      have := demoGraph_residual.node_range h
      change 1 ≤ u ∧ u ≤ 2 at this
      omega
    rcases hu with rfl | rfl
    · have : (v, p) = (2, 0) := by simpa [demoSolverFix, demoGraph] using h
      cases this
      decide
    · have : (v, p) = (1, 1) := by simpa [demoSolverFix, demoGraph] using h
      cases this
      decide
  have hin : (2, 0) ∈ demoSolverFix.graph_.arcs 1 := by decide
  have hrc : reducedCost demoSolverFix 1 (2, 0) > 2 := by decide
  obtain ⟨h1, _, _, h4, _⟩ := (arcsFixing_reverse_saturated 1 2 demoSolverFix (by decide)
    (by decide) demoGraph_residual hopt hcap).1 1 2 0 hin hrc
  exact ⟨by decide, by decide, demoGraph_residual, hopt, hcap, hin, hrc, h1, h4⟩

/-! ## The bookkeeping of the excesses -/

/-- The loop of `discharge` at a node without a deficit: the excess of the node stays at or above
zero, the shape of the graph stays, and the capacities, excesses and potentials away from the node
stay as they are. -/
theorem dischargeLoop_frame {node_id : Nat} {eps : Int} {fuel : Nat} {s s1 : Solver}
    (hp : s.graph_.Paired)
    (hna : ∀ u v p u1 v1, (v, p) ∈ s.graph_.arcs u → (v1, p) ∈ s.graph_.arcs u1 →
      u = u1 ∧ v = v1)
    (hd : 0 ≤ s.graph_.nodes_demand node_id)
    (h : dischargeLoop fuel node_id eps s = some s1) :
    s.graph_.SameShape s1.graph_ ∧ 0 ≤ s1.graph_.nodes_demand node_id ∧
    (∀ q, (∀ v, (v, q) ∉ s.graph_.arcs node_id) →
      (∀ v p, (v, p) ∈ s.graph_.arcs node_id → q ≠ (s.graph_.mem p).reverse_arc) →
      (s1.graph_.mem q).cap = (s.graph_.mem q).cap) ∧
    (∀ w, w ≠ node_id → (∀ p, (w, p) ∉ s.graph_.arcs node_id) →
      s1.graph_.nodes_demand w = s.graph_.nodes_demand w) ∧
    (∀ w, w ≠ node_id → s1.potentials w = s.potentials w) := by
  refine dischargeLoop_inv (fun t => s.graph_.SameShape t.graph_ ∧
    0 ≤ t.graph_.nodes_demand node_id ∧
    (∀ q, (∀ v, (v, q) ∉ s.graph_.arcs node_id) →
      (∀ v p, (v, p) ∈ s.graph_.arcs node_id → q ≠ (s.graph_.mem p).reverse_arc) →
      (t.graph_.mem q).cap = (s.graph_.mem q).cap) ∧
    (∀ w, w ≠ node_id → (∀ p, (w, p) ∉ s.graph_.arcs node_id) →
      t.graph_.nodes_demand w = s.graph_.nodes_demand w) ∧
    (∀ w, w ≠ node_id → t.potentials w = s.potentials w)) node_id eps ?_ ?_ fuel s s1
    ⟨Graph.SameShape.refl _, hd, fun _ _ _ => rfl, fun _ _ _ => rfl, fun _ _ => rfl⟩ h
  · intro it t b t1 b1 hit hI hs
    obtain ⟨hsh, hd0, hcap, hdem, hpot⟩ := hI
    have hpt : t.graph_.Paired := hp.of_sameShape hsh
    have hnat : ∀ u v p u1 v1, (v, p) ∈ t.graph_.arcs u → (v1, p) ∈ t.graph_.arcs u1 →
        u = u1 ∧ v = v1 := by
      rw [hsh.arcs]
      exact hna
    have hprog := dischargeArc_progress hpt hnat hit hd0 hs
    refine ⟨hsh.trans (dischargeArc_sameShape hs), hprog.1, ?_, ?_, ?_⟩
    · intro q hq1 hq2
      by_cases hadm : reducedCost t node_id it < 0 ∧ 0 < (t.graph_.mem it.2).cap
      · have hc := dischargeArc_cap hpt hit hs hadm q
        obtain ⟨v, p⟩ := it
        rw [hsh.arcs] at hit
        have h1 : q ≠ p := by
          rintro rfl
          exact hq1 v hit
        have h2 : q ≠ (t.graph_.mem p).reverse_arc := by
          rw [hsh.reverse_arc]
          exact hq2 v p hit
        simp only at hc
        rw [if_neg h1, if_neg h2] at hc
        rw [hc]
        exact hcap q hq1 hq2
      · rcases dischargeArc_cases hs with ⟨_, rfl, _⟩ | ⟨h1, h2, _⟩
        · exact hcap q hq1 hq2
        · exact absurd ⟨h1, h2⟩ hadm
    · intro w hw hnb
      by_cases hadm : reducedCost t node_id it < 0 ∧ 0 < (t.graph_.mem it.2).cap
      · have hdd := dischargeArc_nodes_demand hpt hit hs hadm w
        obtain ⟨v, p⟩ := it
        rw [hsh.arcs] at hit
        have h1 : v ≠ w := by
          rintro rfl
          exact hnb p hit
        simp only at hdd
        rw [if_neg (Ne.symm hw), if_neg h1] at hdd
        rw [hdd, hdem w hw hnb]
        ring
      · rcases dischargeArc_cases hs with ⟨_, rfl, _⟩ | ⟨h1, h2, _⟩
        · exact hdem w hw hnb
        · exact absurd ⟨h1, h2⟩ hadm
    · intro w hw
      rw [dischargeArc_potentials hs]
      exact hpot w hw
  · intro t hI _ _
    obtain ⟨hsh, hd0, hcap, hdem, hpot⟩ := hI
    refine ⟨hsh, hd0, hcap, hdem, ?_⟩
    intro w hw
    show Function.update t.potentials node_id _ w = _
    rw [Function.update_noteq hw]
    exact hpot w hw

/-- C24.  For every state with paired active arcs in one slot each (no arc from a node to
itself), every `eps ≥ 1` and every node `u` at the front of the queue with an excess that the
residual capacities of the active arcs of `u` cover: `discharge` returns within
`dischargeMeasure + 1` iterations of its loop and leaves the excess of `u` at exactly 0.  It
leaves the maps, the costs, the pairing, the initial capacities and `fixed_arcs` as they were, the
capacity of every arc other than the arcs in the map of `u` and their reverses, the excess of
every node other than `u` and the nodes the arcs of `u` lead to, and the potential of every node
other than `u`. -/
theorem discharge_saturating (eps : Int) (s : Solver) (node_id : Nat) (rest : List Nat)
    (heps : 1 ≤ eps) (hp : s.graph_.Paired)
    (hna : ∀ u v p u1 v1, (v, p) ∈ s.graph_.arcs u → (v1, p) ∈ s.graph_.arcs u1 →
      u = u1 ∧ v = v1)
    (hact : s.active_nodes = node_id :: rest) (hex : 0 < s.graph_.nodes_demand node_id)
    (hcap : s.graph_.nodes_demand node_id ≤ s.outCap node_id) :
    ∀ fuel, dischargeMeasure s node_id < fuel →
      ∃ s1, discharge fuel eps s = some s1 ∧ s1.graph_.nodes_demand node_id = 0 ∧
        s.graph_.SameShape s1.graph_ ∧
        (∀ q, (∀ v, (v, q) ∉ s.graph_.arcs node_id) →
          (∀ v p, (v, p) ∈ s.graph_.arcs node_id → q ≠ (s.graph_.mem p).reverse_arc) →
          (s1.graph_.mem q).cap = (s.graph_.mem q).cap) ∧
        (∀ w, w ≠ node_id → (∀ p, (w, p) ∉ s.graph_.arcs node_id) →
          s1.graph_.nodes_demand w = s.graph_.nodes_demand w) ∧
        (∀ w, w ≠ node_id → s1.potentials w = s.potentials w) := by
  intro fuel hfuel
  have hrun : ∃ s1, dischargeLoop fuel node_id eps { s with active_nodes := rest } = some s1 ∧
      s1.graph_.nodes_demand node_id ≤ 0 :=
    dischargeLoop_terminates heps (dischargeMeasure s node_id)
      { s with active_nodes := rest } hp hna hcap (le_refl _) fuel hfuel
  obtain ⟨s1, h1, hle⟩ := hrun
  obtain ⟨hsh, hge, hc, hd, hpot⟩ :=
    dischargeLoop_frame (s := { s with active_nodes := rest }) hp hna (le_of_lt hex) h1
  refine ⟨s1, ?_, by omega, hsh, hc, hd, hpot⟩
  unfold discharge
  rw [hact]
  exact h1

theorem discharge_saturating_witness :
    (1 : Int) ≤ 1 ∧ demoSolverActive.graph_.Paired ∧
    demoSolverActive.active_nodes = [1] ∧ 0 < demoSolverActive.graph_.nodes_demand 1 ∧
    demoSolverActive.graph_.nodes_demand 1 ≤ demoSolverActive.outCap 1 ∧
    dischargeMeasure demoSolverActive 1 < 4 ∧
    ∃ s1, discharge 4 1 demoSolverActive = some s1 ∧ s1.graph_.nodes_demand 1 = 0 ∧
      ∀ w, w ≠ 1 → s1.potentials w = demoSolverActive.potentials w := by
  have hm : dischargeMeasure demoSolverActive 1 < 4 := by decide
  obtain ⟨s1, h1, h2, _, _, _, h6⟩ := discharge_saturating 1 demoSolverActive 1 [] (by decide)
    demoGraph_paired demoGraph_residual.noalias rfl (by decide) (by decide) 4 hm
  exact ⟨by decide, demoGraph_paired, rfl, by decide, by decide, hm, s1, h1, h2, h6⟩

/-! ## Linked lists of nodes -/

end Flowlessly
